import Mathlib

/-!
securefiletransfer: the parsing / normalisation layer.

A shallow embedding of `parser/parser.go` (and the pieces of the Go standard
library it calls) together with theorems about the canonical table it builds.

Conventions of the embedding.

* A Go `string` is a Lean `String`; the scanners work on its character list.
  Every string the date scanner accepts is pure ASCII, so characters and bytes
  coincide wherever a position is counted.
* A Go `map[string]V` is an association list with at most one entry per key
  (`GoMap.set` keeps that shape).  Go does not fix the order in which `range`
  visits a map, so every function that ranges over a map takes the visiting
  order as an argument `ord : List String → List String`; a legal order is any
  permutation of the keys (`RangeOrder`).  `ConvertXMLTo2D` takes one order for
  each of its ranges.
* A function returning `(T, error)` returns `Except Failure T`; a failed
  unchecked type assertion is `Failure.panic`.
-/

set_option autoImplicit false

namespace parser

/-! ## Go maps -/

/-- A Go map with string keys: an association list, one entry per key. -/
abbrev GoMap (V : Type) := List (String × V)

namespace GoMap

/-- The keys of the map, in storage order. -/
def keys {V : Type} (m : GoMap V) : List String := m.map Prod.fst

/-- The expression `v, ok := m[k]`. -/
def get? {V : Type} : GoMap V → String → Option V
  | [], _ => none
  | (k', v) :: rest, k => if k' = k then some v else get? rest k

/-- The statement `m[k] = v`: overwrite the entry of `k`, or add one. -/
def set {V : Type} : GoMap V → String → V → GoMap V
  | [], k, v => [(k, v)]
  | (k', v') :: rest, k, v => if k' = k then (k', v) :: rest else (k', v') :: set rest k v

end GoMap

/-- A legal `range` order: the keys of the map, each exactly once. -/
def RangeOrder (ord : List String → List String) : Prop :=
  ∀ ks : List String, (ord ks).Perm ks

/-! ## Errors -/

/-- How a call can fail: with a Go `error` value, or by a run-time panic. -/
inductive Failure where
  | error (msg : String)
  | panic (msg : String)
  deriving DecidableEq, Repr

deriving instance DecidableEq for Except

end parser

/-! ## Package `time` of the Go standard library

Only what `tryParseDate` and `formatValue` use: `time.Parse` on the four layouts
and `Time.Format` on `"2006-01-02"`.  A layout is given already cut into the
chunks that `nextStdChunk` yields.  A `Time` is kept as the civil date and clock
reading in its own location, which is what `Parse` stores (the location is UTC,
or a zone with exactly the offset written in the input) and what `Format`
prints. -/

namespace gotime

/-- A `time.Time`: civil date and clock reading in the location of the value. -/
structure Time where
  year : Int
  month : Int
  day : Int
  hour : Int
  min : Int
  sec : Int
  nsec : Int
  /-- Offset of the location east of UTC, in seconds. -/
  offset : Int
  deriving DecidableEq, Repr

/-- The layout elements that occur in the layouts of this program. -/
inductive Std where
  | stdLongYear
  | stdZeroMonth
  | stdMonth
  | stdZeroDay
  | stdHour
  | stdZeroMinute
  | stdZeroSecond
  | stdISO8601ColonTZ
  deriving DecidableEq, Repr

/-- A layout string cut into chunks: each element with the literal text in front
of it, and the literal text after the last element. -/
structure Layout where
  chunks : List (List Char × Std)
  tail : List Char
  deriving DecidableEq, Repr

/-- The layout `time.RFC3339`, "2006-01-02T15:04:05Z07:00". -/
def RFC3339 : Layout :=
  { chunks := [([], .stdLongYear), (['-'], .stdZeroMonth), (['-'], .stdZeroDay),
      (['T'], .stdHour), ([':'], .stdZeroMinute), ([':'], .stdZeroSecond),
      ([], .stdISO8601ColonTZ)],
    tail := [] }

/-- The layout "2006-01-02". -/
def layoutDate : Layout :=
  { chunks := [([], .stdLongYear), (['-'], .stdZeroMonth), (['-'], .stdZeroDay)],
    tail := [] }

/-- The layout "2006-01-02 15:04:05". -/
def layoutDateTime : Layout :=
  { chunks := [([], .stdLongYear), (['-'], .stdZeroMonth), (['-'], .stdZeroDay),
      ([' '], .stdHour), ([':'], .stdZeroMinute), ([':'], .stdZeroSecond)],
    tail := [] }

/-- The layout "02-Jan-2006". -/
def layoutDayMonYear : Layout :=
  { chunks := [([], .stdZeroDay), (['-'], .stdMonth), (['-'], .stdLongYear)],
    tail := [] }

/-- An ASCII decimal digit. -/
def isDigitChar (c : Char) : Bool := decide (48 ≤ c.toNat ∧ c.toNat ≤ 57)

/-- The function `isDigit(s, i)`: position `i` exists and holds a digit. -/
def isDigit (s : List Char) (i : Nat) : Bool :=
  match s.get? i with
  | some c => isDigitChar c
  | none => false

/-- The value `c - '0'`. -/
def digitVal (c : Char) : Int := (c.toNat : Int) - 48

/-- The function `getnum`: a one- or two-digit number; two digits when `fixed`. -/
def getnum (s : List Char) (fixed : Bool) : Option (Int × List Char) :=
  if !isDigit s 0 then none
  else if !isDigit s 1 then
    if fixed then none else some (digitVal (s.getD 0 '0'), s.drop 1)
  else some (digitVal (s.getD 0 '0') * 10 + digitVal (s.getD 1 '0'), s.drop 2)

/-- The function `atoi` on text whose first character is not a sign: every
character has to be a digit, and there is at least one. -/
def atoi (s : List Char) : Option Int :=
  if s ≠ [] ∧ s.all isDigitChar then some (s.foldl (fun n c => n * 10 + digitVal c) 0)
  else none

/-- The function `cutspace`: drop the leading blanks. -/
def cutspace : List Char → List Char
  | ' ' :: rest => cutspace rest
  | s => s

/-- The loop of `skip`.  `inBlanks` says that the literal text just before was a
blank, so that a run of blanks of the layout is consumed as one, as
`prefix = cutspace(prefix)` does. -/
def skipLoop : Bool → List Char → List Char → Option (List Char)
  | _, value, [] => some value
  | inBlanks, value, p :: pre =>
      if p = ' ' then
        if inBlanks then skipLoop true value pre
        else
          match value with
          | [] => skipLoop true [] pre
          | c :: _ => if c ≠ ' ' then none else skipLoop true (cutspace value) pre
      else
        match value with
        | [] => none
        | c :: rest => if c ≠ p then none else skipLoop false rest pre

/-- The function `skip(value, prefix)`: remove the literal text of the layout
from the front of the value; a blank of the layout stands for any number of
blanks of the value. -/
def skip (value pre : List Char) : Option (List Char) := skipLoop false value pre

/-- The function `match`: equality of two characters up to ASCII letter case. -/
def matchFold (c1 c2 : Char) : Bool :=
  if c1 = c2 then true
  else
    let l1 := c1.toNat ||| 32
    let l2 := c2.toNat ||| 32
    !(decide (l1 ≠ l2) || decide (l1 < 97) || decide (l1 > 122))

/-- The table `shortMonthNames`. -/
def shortMonthNames : List (List Char) :=
  ["Jan".data, "Feb".data, "Mar".data, "Apr".data, "May".data, "Jun".data,
   "Jul".data, "Aug".data, "Sep".data, "Oct".data, "Nov".data, "Dec".data]

/-- The loop of `lookup`, `i` being the index of the head of the table. -/
def lookupLoop (val : List Char) : Nat → List (List Char) → Option (Int × List Char)
  | _, [] => none
  | i, v :: tab =>
      if val.length ≥ v.length ∧ (List.zipWith matchFold (val.take v.length) v).all id then
        some ((i : Int), val.drop v.length)
      else lookupLoop val (i + 1) tab

/-- The function `lookup(tab, val)`: index of the first name that starts `val`,
letter case ignored, and the rest of `val`. -/
def lookup (tab : List (List Char)) (val : List Char) : Option (Int × List Char) :=
  lookupLoop val 0 tab

/-- The function `isLeap`. -/
def isLeap (year : Int) : Bool :=
  decide (year % 4 = 0 ∧ (year % 100 ≠ 0 ∨ year % 400 = 0))

/-- The function `daysIn(m, year)`. -/
def daysIn (m year : Int) : Int :=
  if m = 2 ∧ isLeap year = true then 29
  else if m = 2 then 28
  else if m = 4 ∨ m = 6 ∨ m = 9 ∨ m = 11 then 30
  else 31

/-- The function `parseNanoseconds(value, nbytes)`, called on a value that
starts with a separator followed by digits: at most nine digits count. -/
def parseNanoseconds (value : List Char) (nbytes : Nat) : Option Int :=
  let n := min nbytes 10
  match atoi ((value.take n).drop 1) with
  | none => none
  | some ns => some (ns * 10 ^ (10 - n))

/-- The local variables of `parse`. -/
structure Fields where
  year : Int := 0
  month : Int := -1
  day : Int := -1
  hour : Int := 0
  min : Int := 0
  sec : Int := 0
  nsec : Int := 0
  /-- The variable `z` is set (to UTC). -/
  z : Bool := false
  zoneOffset : Int := -1
  deriving DecidableEq, Repr

/-- One turn of the `switch std & stdMask` of `parse`: read one element from the
value.  `none` stands for `err != nil` or a range error. -/
def parseStd (std : Std) (f : Fields) (value : List Char) : Option (Fields × List Char) :=
  match std with
  | .stdLongYear =>
      if value.length < 4 ∨ !isDigit value 0 then none
      else
        match atoi (value.take 4) with
        | none => none
        | some y => some ({ f with year := y }, value.drop 4)
  | .stdMonth =>
      match lookup shortMonthNames value with
      | none => none
      | some (m, rest) => some ({ f with month := m + 1 }, rest)
  | .stdZeroMonth =>
      match getnum value true with
      | none => none
      | some (m, rest) => if m ≤ 0 ∨ 12 < m then none else some ({ f with month := m }, rest)
  | .stdZeroDay =>
      match getnum value true with
      | none => none
      | some (d, rest) => some ({ f with day := d }, rest)
  | .stdHour =>
      match getnum value false with
      | none => none
      | some (h, rest) => if h < 0 ∨ 24 ≤ h then none else some ({ f with hour := h }, rest)
  | .stdZeroMinute =>
      match getnum value true with
      | none => none
      | some (m, rest) => if m < 0 ∨ 60 ≤ m then none else some ({ f with min := m }, rest)
  | .stdZeroSecond =>
      match getnum value true with
      | none => none
      | some (s, rest) =>
          if s < 0 ∨ 60 ≤ s then none
          else if rest.length ≥ 2 ∧ (rest.get? 0 = some '.' ∨ rest.get? 0 = some ',')
              ∧ isDigit rest 1 then
            -- a fractional second in the value although the layout has none
            let n := 2 + ((rest.drop 2).takeWhile isDigitChar).length
            match parseNanoseconds rest n with
            | none => none
            | some ns => some ({ f with sec := s, nsec := ns }, rest.drop n)
          else some ({ f with sec := s }, rest)
  | .stdISO8601ColonTZ =>
      match value with
      | 'Z' :: rest => some ({ f with z := true }, rest)
      | _ =>
          if value.length < 6 then none
          else if value.get? 3 ≠ some ':' then none
          else
            match getnum ((value.drop 1).take 2) true, getnum ((value.drop 4).take 2) true,
                getnum ['0', '0'] true with
            | some (hr, _), some (mm, _), some (ss, _) =>
                if hr > 24 ∨ mm > 60 ∨ ss > 60 then none
                else
                  let zoneOffset := (hr * 60 + mm) * 60 + ss
                  match value.get? 0 with
                  | some '+' => some ({ f with zoneOffset := zoneOffset }, value.drop 6)
                  | some '-' => some ({ f with zoneOffset := -zoneOffset }, value.drop 6)
                  | _ => none
            | _, _, _ => none

/-- The `for` loop of `parse` over the chunks of the layout. -/
def parseLoop : List (List Char × Std) → Fields → List Char → Option (Fields × List Char)
  | [], f, value => some (f, value)
  | (pre, std) :: rest, f, value =>
      match skip value pre with
      | none => none
      | some value1 =>
          match parseStd std f value1 with
          | none => none
          | some (f1, value2) => parseLoop rest f1 value2

/-- The function `time.Parse(layout, value)`; `none` stands for a non-nil error.
After the loop: no text may be left, the day has to exist in the month, and the
result is `Date(year, month, day, hour, min, sec, nsec, loc)` with `loc` UTC or a
zone that has the offset that was read.  All fields are in range at that point,
so `Date` does not normalise anything. -/
def Parse (layout : Layout) (value : String) : Option Time :=
  match parseLoop layout.chunks {} value.data with
  | none => none
  | some (f, value1) =>
      match skip value1 layout.tail with
      | none => none
      | some value2 =>
          if value2.length ≠ 0 then none
          else
            let month := if f.month < 0 then 1 else f.month
            let day := if f.day < 0 then 1 else f.day
            if day < 1 ∨ day > daysIn month f.year then none
            else
              some { year := f.year, month := month, day := day, hour := f.hour, min := f.min,
                     sec := f.sec, nsec := f.nsec,
                     offset := if f.z then 0 else if f.zoneOffset ≠ -1 then f.zoneOffset else 0 }

/-- The decimal digits of a natural number, most significant first. -/
def decimalDigits (u : Nat) : List Char := Nat.toDigits 10 u

/-- The function `appendInt(b, x, width)`: the decimal form of `x`, zero-padded
to `width` digits, with a minus sign in front when `x` is negative. -/
def appendInt (x : Int) (width : Nat) : List Char :=
  let u := x.natAbs
  let sign := if x < 0 then ['-'] else []
  if width = 2 ∧ u < 100 then
    sign ++ [Char.ofNat (48 + u / 10), Char.ofNat (48 + u % 10)]
  else if width = 4 ∧ u < 10000 then
    sign ++ [Char.ofNat (48 + u / 100 / 10), Char.ofNat (48 + u / 100 % 10),
             Char.ofNat (48 + u % 100 / 10), Char.ofNat (48 + u % 100 % 10)]
  else
    let ds := decimalDigits u
    sign ++ List.replicate (width - ds.length) '0' ++ ds

/-- What `Format` appends for one layout element. -/
def formatStd (t : Time) : Std → List Char
  | .stdLongYear => appendInt t.year 4
  | .stdZeroMonth => appendInt t.month 2
  | .stdMonth => (shortMonthNames.getD (t.month - 1).toNat []).take 3
  | .stdZeroDay => appendInt t.day 2
  | .stdHour => appendInt t.hour 2
  | .stdZeroMinute => appendInt t.min 2
  | .stdZeroSecond => appendInt t.sec 2
  | .stdISO8601ColonTZ =>
      if t.offset = 0 then ['Z']
      else
        let zone := t.offset / 60
        let absZone := zone.natAbs
        (if zone < 0 then ['-'] else ['+']) ++ appendInt (absZone / 60 : Nat) 2 ++ [':']
          ++ appendInt (absZone % 60 : Nat) 2

/-- The method `Time.Format(layout)`. -/
def Time.Format (t : Time) (layout : Layout) : String :=
  String.mk ((layout.chunks.map (fun c => c.1 ++ formatStd t c.2)).flatten ++ layout.tail)

end gotime

/-! ## Package `strconv`: a float64 printed with the verb `%v`

`fmt` prints a float64 under `%v` as `strconv.AppendFloat(_, v, 'g', -1, 64)`.
That conversion first computes the shortest decimal digits that read back as the
same float64, then lays them out with `%e` or `%f`.  A finite float64 is
represented here by the outcome of the first step, its sign and its
`decimalSlice`; the layout step is embedded as it is written. -/

namespace strconv

/-- The struct `decimalSlice`: the digits `d[0:nd]` and the position `dp` of the
decimal point, the value being `0.d[0]d[1]... × 10^dp`. -/
structure decimalSlice where
  d : List (Fin 10)
  dp : Int
  deriving DecidableEq, Repr

/-- The field `nd`: the number of digits. -/
def decimalSlice.nd (digs : decimalSlice) : Int := (digs.d.length : Int)

/-- A finite float64 value (JSON has no NaN and no infinities): its sign and the
shortest decimal digits that identify it.  Zero has no digits and `dp = 0`. -/
structure Float64 where
  neg : Bool
  digs : decimalSlice
  deriving DecidableEq, Repr

/-- The character of a decimal digit. -/
def digitChar (n : Nat) : Char := Char.ofNat (48 + n % 10)

/-- The digit `d.d[j]` as a character, or the character 0 outside `[0, nd)`. -/
def digitAt (digs : decimalSlice) (j : Int) : Char :=
  if 0 ≤ j ∧ j < digs.nd then
    match digs.d.get? j.toNat with
    | some x => digitChar x.val
    | none => '0'
  else '0'

/-- The function `fmtF`: the form `-ddddd.ddddd` with `prec` fraction digits. -/
def fmtF (neg : Bool) (digs : decimalSlice) (prec : Int) : List Char :=
  (if neg then ['-'] else [])
  -- integer, padded with zeros as needed
  ++ (if digs.dp > 0 then
        let m := min digs.nd digs.dp
        (digs.d.take m.toNat).map (fun x => digitChar x.val)
          ++ List.replicate (digs.dp - m).toNat '0'
      else ['0'])
  -- fraction
  ++ (if prec > 0 then
        '.' :: (List.range prec.toNat).map (fun i => digitAt digs (digs.dp + (i : Int)))
      else [])

/-- The function `fmtE`: the form `-d.dddde±dd` with `prec` digits after the
point, `fmt` being the exponent letter. -/
def fmtE (neg : Bool) (digs : decimalSlice) (prec : Int) (fmt : Char) : List Char :=
  let exp : Int := if digs.nd = 0 then 0 else digs.dp - 1
  let e : Nat := exp.natAbs
  (if neg then ['-'] else [])
  -- first digit
  ++ [if digs.nd ≠ 0 then digitAt digs 0 else '0']
  -- .moredigits
  ++ (if prec > 0 then
        let m := min digs.nd (prec + 1)
        '.' :: ((digs.d.take m.toNat).drop 1).map (fun x => digitChar x.val)
          ++ List.replicate (prec + 1 - max m 1).toNat '0'
      else [])
  -- e±
  ++ [fmt, if exp < 0 then '-' else '+']
  -- dd or ddd
  ++ (if e < 10 then ['0', digitChar e]
      else if e < 100 then [digitChar (e / 10), digitChar (e % 10)]
      else [digitChar (e / 100), digitChar (e / 10 % 10), digitChar (e % 10)])

/-- The case `'g'` of `formatDigits` when the precision is -1 (`shortest`): the
precision is the number of digits, and `%e` is used if the exponent is less than
-4 or at least `eprec`, which is 6 for the shortest conversion. -/
def formatShortestG (f : Float64) : List Char :=
  let digs := f.digs
  let prec : Int := digs.nd
  let eprec0 : Int := if prec > digs.nd ∧ digs.nd ≥ digs.dp then digs.nd else prec
  let shortest := true
  let eprec : Int := if shortest then 6 else eprec0
  let exp := digs.dp - 1
  if exp < -4 ∨ exp ≥ eprec then
    fmtE f.neg digs ((if prec > digs.nd then digs.nd else prec) - 1) 'e'
  else
    fmtF f.neg digs (max ((if prec > digs.dp then digs.nd else prec) - digs.dp) 0)

end strconv

namespace parser

/-! ## Decoded JSON values -/

/-- What `json.Unmarshal` stores in an `interface{}`: `nil`, `bool`, `float64`,
`string`, `[]interface{}` or `map[string]interface{}`. -/
inductive Value where
  | null
  | bool (b : Bool)
  | number (f : strconv.Float64)
  | string (s : String)
  | array (items : List Value)
  | object (fields : List (String × Value))

/-- Byte-wise `<` on strings, the order in which `fmt` prints the keys of a map. -/
def keyLess : List Char → List Char → Bool
  | [], [] => false
  | [], _ :: _ => true
  | _ :: _, [] => false
  | a :: as, b :: bs => if a.toNat < b.toNat then true else if b.toNat < a.toNat then false
      else keyLess as bs

mutual
/-- The call `fmt.Sprintf("%v", v)` on a decoded JSON value. -/
def sprintV : Value → String
  | .null => "<nil>"
  | .bool b => if b then "true" else "false"
  | .number f => String.mk (strconv.formatShortestG f)
  | .string s => s
  | .array items => "[" ++ " ".intercalate (sprintVItems items) ++ "]"
  | .object fields =>
      "map[" ++ " ".intercalate
        (((sprintVFields fields).insertionSort
            (fun a b => keyLess b.1.data a.1.data = false)).map
          (fun kv => kv.1 ++ ":" ++ kv.2)) ++ "]"
/-- The elements of a slice, each printed with `%v`. -/
def sprintVItems : List Value → List String
  | [] => []
  | v :: rest => sprintV v :: sprintVItems rest
/-- The entries of a map, each value printed with `%v`. -/
def sprintVFields : List (String × Value) → List (String × String)
  | [] => []
  | (k, v) :: rest => (k, sprintV v) :: sprintVFields rest
end

/-! ## parser.go -/

/-- The function `tryParseDate`: tries multiple layouts to parse date strings. -/
def tryParseDate (s : String) : Except String gotime.Time :=
  let layouts := [gotime.RFC3339, gotime.layoutDate, gotime.layoutDateTime,
    gotime.layoutDayMonYear]
  match layouts.findSome? (fun layout => gotime.Parse layout s) with
  | some t => .ok t
  | none => .error "not a date"

/-- The function `formatValue`: formats values and converts recognized dates. -/
def formatValue (val : Value) : String :=
  match val with
  | .string v =>
      match tryParseDate v with
      | .ok t => t.Format gotime.layoutDate
      | .error _ => v
  | .number v => sprintV (.number v)
  | .null => ""
  | v => sprintV v

/-- The first loop of `ConvertJSONTo2D`: every item has to be an object, and its
keys go into `headerMap`.  `none` is the early return with an error. -/
def collectHeaders (ord : List String → List String) :
    List Value → GoMap Unit → Option (GoMap Unit)
  | [], headerMap => some headerMap
  | .object obj :: rest, headerMap =>
      collectHeaders ord rest ((ord (GoMap.keys obj)).foldl (fun m k => GoMap.set m k ()) headerMap)
  | _ :: _, _ => none

/-- The inner loop of the second loop: the row of one object. -/
def buildRow (headers : List String) (obj : GoMap Value) : List String :=
  headers.map (fun h =>
    match GoMap.get? obj h with
    | some val => formatValue val
    | none => "")

/-- The second loop of `ConvertJSONTo2D`: one row per item, appended in order.
The type assertion `item.(map[string]interface{})` panics on any other item. -/
def buildRows (headers : List String) : List Value → Except Failure (List (List String))
  | [] => .ok []
  | .object obj :: rest =>
      match buildRows headers rest with
      | .ok rows => .ok (buildRow headers obj :: rows)
      | .error e => .error e
  | _ :: _ => .error (.panic "interface conversion")

/-- The function `ConvertJSONTo2D`: converts parsed JSON to `[][]string`. -/
def ConvertJSONTo2D (ord : List String → List String) (data : Value) :
    Except Failure (List (List String)) :=
  let arr? : Option (List Value) :=
    match data with
    | .array v => some v
    | .object v => some [.object v]
    | _ => none
  match arr? with
  | none => .error (.error "invalid JSON structure")
  | some arr =>
      if arr.length = 0 then .error (.error "empty JSON array")
      else
        match collectHeaders ord arr [] with
        | none => .error (.error "expected JSON array of objects")
        | some headerMap =>
            let headers := ord (GoMap.keys headerMap)
            match buildRows headers arr with
            | .ok rows => .ok (headers :: rows)
            | .error e => .error e

/-! ## XML: the decoded tree and its flattening -/

/-- The set `unicode.IsSpace`: the characters with the White_Space property. -/
def isSpace (c : Char) : Bool :=
  let n := c.toNat
  decide ((9 ≤ n ∧ n ≤ 13) ∨ n = 32 ∨ n = 0x85 ∨ n = 0xA0 ∨ n = 0x1680
    ∨ (0x2000 ≤ n ∧ n ≤ 0x200A) ∨ n = 0x2028 ∨ n = 0x2029 ∨ n = 0x202F ∨ n = 0x205F
    ∨ n = 0x3000)

/-- The function `strings.TrimSpace`: the string without its leading and
trailing white space. -/
def TrimSpace (s : String) : String :=
  String.mk ((s.data.dropWhile isSpace).reverse.dropWhile isSpace).reverse

/-- The struct `xml.Name`. -/
structure xmlName where
  Space : String
  Local : String
  deriving DecidableEq, Repr

/-- The struct `xml.Attr`. -/
structure xmlAttr where
  Name : xmlName
  Value : String
  deriving DecidableEq, Repr

/-- The struct `xmlNode`: XML node structure to help parse.  `Attrs` holds all
attributes, `Content` the character data, `Nodes` the child elements. -/
inductive xmlNode where
  | mk (XMLName : xmlName) (Attrs : List xmlAttr) (Content : String) (Nodes : List xmlNode)

/-- The field `XMLName`. -/
def xmlNode.XMLName : xmlNode → xmlName
  | .mk n _ _ _ => n

/-- The field `Attrs`. -/
def xmlNode.Attrs : xmlNode → List xmlAttr
  | .mk _ a _ _ => a

/-- The field `Content`. -/
def xmlNode.Content : xmlNode → String
  | .mk _ _ c _ => c

/-- The field `Nodes`. -/
def xmlNode.Nodes : xmlNode → List xmlNode
  | .mk _ _ _ ns => ns

mutual
/-- The function `flattenXMLNode`: recursively flattens XML node into map.  The
map `m` that the Go code mutates is passed in and returned. -/
def flattenXMLNode : xmlNode → GoMap String → GoMap String
  | .mk name attrs content nodes, m =>
      let m1 := attrs.foldl (fun acc attr => GoMap.set acc attr.Name.Local attr.Value) m
      if nodes.length = 0 then
        let content1 := TrimSpace content
        if content1 ≠ "" then GoMap.set m1 name.Local content1 else m1
      else flattenNodes nodes m1
/-- The loop `for _, child := range node.Nodes` of `flattenXMLNode`. -/
def flattenNodes : List xmlNode → GoMap String → GoMap String
  | [], m => m
  | child :: rest, m => flattenNodes rest (flattenXMLNode child m)
end

/-- The function `ParseXML`: parses XML into slice of flat maps.  `unmarshal` is
`xml.Unmarshal` into an `xmlNode`. -/
def ParseXML (unmarshal : List UInt8 → Except String xmlNode)
    (ord : List String → List String) (data : List UInt8) :
    Except Failure (List (GoMap String)) :=
  match unmarshal data with
  | .error err => .error (.error err)
  | .ok root =>
      let childrenByName : GoMap (List xmlNode) :=
        root.Nodes.foldl
          (fun acc child => GoMap.set acc child.XMLName.Local
            ((GoMap.get? acc child.XMLName.Local).getD [] ++ [child])) []
      match ((ord (GoMap.keys childrenByName)).filterMap (GoMap.get? childrenByName)).find?
          (fun nodes => decide (nodes.length > 1)) with
      | some nodes => .ok (nodes.map (fun node => flattenXMLNode node []))
      | none => .ok [flattenXMLNode root []]

/-- The first loop of `ConvertXMLTo2D`: the keys of every record go into
`headerMap`.  Go draws the order of every `range` over a map on its own, so the
record of index `i` is visited in an order of its own, `ordRecord i`. -/
def collectKeys (ordRecord : Nat → List String → List String) :
    Nat → List (GoMap String) → GoMap Unit → GoMap Unit
  | _, [], headerMap => headerMap
  | i, m :: rest, headerMap =>
      collectKeys ordRecord (i + 1) rest
        ((ordRecord i (GoMap.keys m)).foldl (fun acc k => GoMap.set acc k ()) headerMap)

/-- The function `ConvertXMLTo2D`: converts XML bytes to `[][]string`.  Its three
kinds of `range` over a map have independent visiting orders: `ordChildren` for
the map of children inside `ParseXML`, `ordRecord i` for record `i` in the first
loop, and `ordHeaders` for `headerMap`. -/
def ConvertXMLTo2D (unmarshal : List UInt8 → Except String xmlNode)
    (ordChildren : List String → List String)
    (ordRecord : Nat → List String → List String)
    (ordHeaders : List String → List String) (data : List UInt8) :
    Except Failure (List (List String)) :=
  match ParseXML unmarshal ordChildren data with
  | .error err => .error err
  | .ok maps =>
      if maps.length = 0 then .error (.error "no XML data found")
      else
        let headerMap : GoMap Unit := collectKeys ordRecord 0 maps []
        let headers := ordHeaders (GoMap.keys headerMap)
        .ok (headers :: maps.map (fun m =>
          headers.map (fun h =>
            match GoMap.get? m h with
            | some val => formatValue (.string val)
            | none => "")))

end parser

/-! ## Specification vocabulary -/

namespace gotime

/-- The number written by two digits. -/
def val2 (c1 c2 : Char) : Int := digitVal c1 * 10 + digitVal c2

/-- The number written by four digits. -/
def val4 (c1 c2 c3 c4 : Char) : Int :=
  ((digitVal c1 * 10 + digitVal c2) * 10 + digitVal c3) * 10 + digitVal c4

/-- Layout elements that leave the year, the month and the day alone. -/
def keepsDate : Std → Bool
  | .stdHour => true
  | .stdZeroMinute => true
  | .stdZeroSecond => true
  | .stdISO8601ColonTZ => true
  | _ => false

/-- The three chunks "2006-01-02" that start three of the layouts. -/
def ymdChunks : List (List Char × Std) :=
  [([], .stdLongYear), (['-'], .stdZeroMonth), (['-'], .stdZeroDay)]

/-- Ten characters of the form `YYYY-MM-DD`: digits, with a hyphen at the fifth
and at the eighth place. -/
def isISODate : List Char → Bool
  | [y1, y2, y3, y4, s1, m1, m2, s2, d1, d2] =>
      isDigitChar y1 && isDigitChar y2 && isDigitChar y3 && isDigitChar y4 && (s1 == '-')
        && isDigitChar m1 && isDigitChar m2 && (s2 == '-') && isDigitChar d1 && isDigitChar d2
  | _ => false

end gotime

namespace parser

/-- The value is a JSON object. -/
def Value.isObject : Value → Bool
  | .object _ => true
  | _ => false

/-- The value is a JSON array. -/
def Value.isArray : Value → Bool
  | .array _ => true
  | _ => false

/-- The items `ConvertJSONTo2D` works on: the elements of an array, or the single
object wrapped into a one-element list. -/
def inputItems : Value → List Value
  | .array items => items
  | .object fields => [.object fields]
  | _ => []

/-- A two-object array with different key sets, used to instantiate the
theorems. -/
def sampleArray : List Value :=
  [.object [("name", .string "ann"), ("born", .string "02-Jan-2020")],
   .object [("name", .null), ("age", .bool true)]]

/-- How often a tag name occurs among the immediate children of the root. -/
def occurrences (root : xmlNode) (name : String) : Nat :=
  (root.Nodes.filter (fun child => decide (child.XMLName.Local = name))).length

mutual
/-- The writes of the pre-order traversal of a node, in the order in which they
happen, following the description of the flattening: a visited node first writes
its attributes, in attribute order, under their local names; then a node without
children writes its trimmed text under its own local name when that text is not
empty, and a node with children is followed by the writes of its children, in
document order. -/
def writes : xmlNode → List (String × String)
  | .mk name attrs content nodes =>
      attrs.map (fun attr => (attr.Name.Local, attr.Value))
        ++ (if nodes.length = 0 then
              (if TrimSpace content ≠ "" then [(name.Local, TrimSpace content)] else [])
            else writesOfNodes nodes)
/-- The writes of a sequence of sibling nodes, in document order. -/
def writesOfNodes : List xmlNode → List (String × String)
  | [] => []
  | child :: rest => writes child ++ writesOfNodes rest
end

/-- The value written last for key `k` in a sequence of writes, if any. -/
def lastWrite (ws : List (String × String)) (k : String) : Option String :=
  (ws.reverse.find? (fun kv => decide (kv.1 = k))).map Prod.snd

/-- The document `<r id="1"><id>2</id></r>`. -/
def sampleCollision : xmlNode :=
  .mk ⟨"", "r"⟩ [⟨⟨"", "id"⟩, "1"⟩] "" [.mk ⟨"", "id"⟩ [] "2" []]

/-- The document `<list><item>a</item><note>n</note><item>b</item></list>`. -/
def sampleList : xmlNode :=
  .mk ⟨"", "list"⟩ [] ""
    [.mk ⟨"", "item"⟩ [] "a" [], .mk ⟨"", "note"⟩ [] "n" [], .mk ⟨"", "item"⟩ [] "b" []]

end parser

namespace parser

mutual
/-- The nodes of the subtree of a node: the node itself, then the nodes of the
subtrees of its children, in document order. -/
def subtree : xmlNode → List xmlNode
  | .mk name attrs content nodes => .mk name attrs content nodes :: subtreeOfNodes nodes
/-- The nodes of the subtrees of a sequence of sibling nodes. -/
def subtreeOfNodes : List xmlNode → List xmlNode
  | [] => []
  | child :: rest => subtree child ++ subtreeOfNodes rest
end

/-- The document `<r a="1"> t <x> </x><y>v</y></r>`: a container with text, a leaf
with blank text and a leaf with text. -/
def sampleMixed : xmlNode :=
  .mk ⟨"", "r"⟩ [⟨⟨"", "a"⟩, "1"⟩] " t "
    [.mk ⟨"", "x"⟩ [] " " [], .mk ⟨"", "y"⟩ [] "v" []]

end parser

namespace parser

/-- The document `<log><e at="1">02-Jan-2020</e><e>x</e></log>`. -/
def sampleDated : xmlNode :=
  .mk ⟨"", "log"⟩ [] ""
    [.mk ⟨"", "e"⟩ [⟨⟨"", "at"⟩, "1"⟩] "02-Jan-2020" [], .mk ⟨"", "e"⟩ [] "x" []]

/-- The document `<root/>`. -/
def sampleEmpty : xmlNode := .mk ⟨"", "root"⟩ [] "" []

/-- The document `<r><a a="1" b="2"/><b/><a a="3" b="4"/><b/></r>`: the tag names
of the children are also the keys of the records. -/
def sampleSameNames : xmlNode :=
  .mk ⟨"", "r"⟩ [] ""
    [.mk ⟨"", "a"⟩ [⟨⟨"", "a"⟩, "1"⟩, ⟨⟨"", "b"⟩, "2"⟩] "" [], .mk ⟨"", "b"⟩ [] "" [],
     .mk ⟨"", "a"⟩ [⟨⟨"", "a"⟩, "3"⟩, ⟨⟨"", "b"⟩, "4"⟩] "" [], .mk ⟨"", "b"⟩ [] "" []]

end parser

namespace parser

/-- The map `childrenByName` that `ParseXML` builds from the children of the
root. -/
def childrenByName (root : xmlNode) : GoMap (List xmlNode) :=
  root.Nodes.foldl
    (fun acc child => GoMap.set acc child.XMLName.Local
      ((GoMap.get? acc child.XMLName.Local).getD [] ++ [child])) []

/-- The repeated tag name that appears first in document order, if there is a
repeated tag name. -/
def firstRepeated (root : xmlNode) : Option String :=
  (root.Nodes.map (fun child => child.XMLName.Local)).find?
    (fun name => decide (occurrences root name > 1))

/-- The records of the children named `name`, in document order. -/
def groupRecords (root : xmlNode) (name : String) : List (GoMap String) :=
  (root.Nodes.filter (fun child => decide (child.XMLName.Local = name))).map
    (fun node => flattenXMLNode node [])

/-- The document `<r><a>1</a><b>2</b><a>3</a><b>4</b></r>`: two repeated tags. -/
def sampleTwoGroups : xmlNode :=
  .mk ⟨"", "r"⟩ [] ""
    [.mk ⟨"", "a"⟩ [] "1" [], .mk ⟨"", "b"⟩ [] "2" [],
     .mk ⟨"", "a"⟩ [] "3" [], .mk ⟨"", "b"⟩ [] "4" []]

end parser

/-! ## loader.go

The writers.  A writer returns what it writes to the file; the file system is
taken to accept the write, so the only failures are those of the writer itself
and of the encoder it calls. -/

namespace loader

open parser

/-- The function `strings.HasPrefix` on character lists. -/
def startsWith : List Char → List Char → Bool
  | _, [] => true
  | [], _ :: _ => false
  | c :: s, p :: ps => (c == p) && startsWith s ps

/-- The scan of `strings.Replace` for a non-empty `old`, left to right and without
overlap: `skip` is the number of characters of the current match that are still
to be passed over. -/
def replaceLoop (old new : List Char) : Nat → List Char → List Char
  | _, [] => []
  | skip + 1, _ :: rest => replaceLoop old new skip rest
  | 0, c :: rest =>
      if startsWith (c :: rest) old then new ++ replaceLoop old new (old.length - 1) rest
      else c :: replaceLoop old new 0 rest

/-- The function `strings.ReplaceAll(s, old, new)`.  An empty `old` matches before
every character and at the end. -/
def ReplaceAll (s old new : String) : String :=
  if old.data = [] then String.mk (new.data ++ (s.data.map (fun c => c :: new.data)).flatten)
  else String.mk (replaceLoop old.data new.data 0 s.data)

/-- The apostrophe. -/
def apostrophe : Char := Char.ofNat 39

/-- The double quotation mark. -/
def quotationMark : Char := Char.ofNat 34

/-- The function `escapeXML`: escapes &, <, >, ' and " for XML content. -/
def escapeXML (s : String) : String :=
  let s1 := ReplaceAll s "&" "&amp;"
  let s2 := ReplaceAll s1 "<" "&lt;"
  let s3 := ReplaceAll s2 ">" "&gt;"
  let s4 := ReplaceAll s3 (String.singleton apostrophe) "&apos;"
  let s5 := ReplaceAll s4 (String.singleton quotationMark) "&quot;"
  s5

/-- A Go slice that may be `nil`: `none` is the nil slice. -/
abbrev Slice (α : Type) := Option (List α)

/-- The built-in `append(s, x)`: the result is never nil. -/
def goAppend {α : Type} (s : Slice α) (x : α) : Slice α :=
  match s with
  | none => some [x]
  | some xs => some (xs ++ [x])

/-- The loop `for i, h := range headers { if i < len(row) { obj[h] = row[i] } }`,
`i` being the index of the head of the remaining headers. -/
def rowLoop (row : List String) : Nat → List String → GoMap String → GoMap String
  | _, [], obj => obj
  | i, h :: rest, obj =>
      rowLoop row (i + 1) rest (if i < row.length then GoMap.set obj h (row.getD i "") else obj)

/-- The loop `for _, row := range records[1:]` of `SaveJSON` and `SaveFlatXML`:
one map per row, appended to a slice that starts as nil. -/
def rowMaps (headers : List String) (rows : List (List String)) : Slice (GoMap String) :=
  rows.foldl (fun objs row => goAppend objs (rowLoop row 0 headers [])) none

/-- A JSON document as `json.MarshalIndent` writes it for a `[]map[string]string`:
the value `null`, or an array of objects whose members are strings. -/
inductive JSONDoc where
  | null
  | array (objects : List (GoMap String))
  deriving DecidableEq, Repr

/-- The function `json.MarshalIndent` on a `[]map[string]string`: a nil slice
encodes as the JSON value null, any other slice as a JSON array with one object
per map.  It has no error on this type. -/
def jsonMarshalIndent (objs : Slice (GoMap String)) : JSONDoc :=
  match objs with
  | none => .null
  | some xs => .array xs

/-- The function `SaveJSON`: saves `[][]string` as JSON array of objects.  The
result is the document written to the file. -/
def SaveJSON (records : List (List String)) : Except Failure JSONDoc :=
  if records.length < 1 then .error (.error "no data to save")
  else
    let headers := records.headD []
    let objs := rowMaps headers (records.drop 1)
    .ok (jsonMarshalIndent objs)

/-- The constant `xml.Header`. -/
def xmlHeader : String := "<?xml version=" ++ String.singleton quotationMark ++ "1.0"
  ++ String.singleton quotationMark ++ " encoding=" ++ String.singleton quotationMark
  ++ "UTF-8" ++ String.singleton quotationMark ++ "?>" ++ String.singleton (Char.ofNat 10)

/-- The function `xml.MarshalIndent` on a `Rows` struct whose field `Rows` has the
type `[]Row` with `Row` a map type.  The encoder writes the elements of a slice
one by one and has no encoding for a value of a map type: the first element stops
it with an `UnsupportedTypeError`.  Without elements the struct is the empty
element `Rows`. -/
def xmlMarshalIndent (rowList : Slice (GoMap String)) : Except String String :=
  match rowList with
  | none => .ok "<Rows></Rows>"
  | some [] => .ok "<Rows></Rows>"
  | some (_ :: _) => .error "xml: unsupported type: loader.Row"

/-- The function `SaveFlatXML`: saves `[][]string` as flattened XML
(root->Row->columns).  The result is the text written to the file. -/
def SaveFlatXML (records : List (List String)) : Except Failure String :=
  if records.length < 1 then .error (.error "no data to save")
  else
    let headers := records.headD []
    let rowList := rowMaps headers (records.drop 1)
    match xmlMarshalIndent rowList with
    | .error err => .error (.error err)
    | .ok data => .ok (xmlHeader ++ data)

end loader

namespace loader

/-- The five entities that stand for the five escaped characters. -/
def entities : List (List Char) :=
  ["&amp;".data, "&lt;".data, "&gt;".data, "&apos;".data, "&quot;".data]

/-- The escaped form of one character. -/
def escapeChar (c : Char) : List Char :=
  if c = '&' then "&amp;".data
  else if c = '<' then "&lt;".data
  else if c = '>' then "&gt;".data
  else if c = apostrophe then "&apos;".data
  else if c = quotationMark then "&quot;".data
  else [c]

/-- Every character replaced by the text that `f` gives for it. -/
def mapChars (f : Char → List Char) (l : List Char) : List Char := (l.map f).flatten

/-- Every ampersand of the text starts one of the five entities. -/
def ampersandsStartEntities : List Char → Bool
  | [] => true
  | c :: rest =>
      (c != '&' || entities.any (fun e => startsWith (c :: rest) e))
        && ampersandsStartEntities rest

/-- The loop of the decoding of the five entities, in one pass from left to
right: `skip` is the number of characters of the current entity that are still to
be passed over. -/
def unescapeLoop : Nat → List Char → List Char
  | _, [] => []
  | skip + 1, _ :: rest => unescapeLoop skip rest
  | 0, c :: rest =>
      if startsWith (c :: rest) "&amp;".data then '&' :: unescapeLoop 4 rest
      else if startsWith (c :: rest) "&lt;".data then '<' :: unescapeLoop 3 rest
      else if startsWith (c :: rest) "&gt;".data then '>' :: unescapeLoop 3 rest
      else if startsWith (c :: rest) "&apos;".data then apostrophe :: unescapeLoop 5 rest
      else if startsWith (c :: rest) "&quot;".data then quotationMark :: unescapeLoop 5 rest
      else c :: unescapeLoop 0 rest

/-- The decoding of the five entities `&amp;` `&lt;` `&gt;` `&apos;` `&quot;`. -/
def unescapeXML (l : List Char) : List Char := unescapeLoop 0 l

end loader

namespace parser

/-- The document `<r id="1"><id>2</id><x id="3"/></r>`: after the leaf `id` a
later element writes the key `id` again. -/
def sampleOverwrite : xmlNode :=
  .mk ⟨"", "r"⟩ [⟨⟨"", "id"⟩, "1"⟩] ""
    [.mk ⟨"", "id"⟩ [] "2" [], .mk ⟨"", "x"⟩ [⟨⟨"", "id"⟩, "3"⟩] "" []]

end parser

/-! ## Lemmas about Go maps -/

namespace parser.GoMap

variable {V : Type}

theorem keys_nil : keys ([] : GoMap V) = [] := rfl

theorem keys_cons (k : String) (v : V) (m : GoMap V) :
    keys ((k, v) :: m) = k :: keys m := rfl

theorem mem_keys_set (m : GoMap V) (k : String) (v : V) (x : String) :
    x ∈ keys (set m k v) ↔ x = k ∨ x ∈ keys m := by
  induction m with
  | nil => simp [set, keys]
  | cons e rest ih =>
      obtain ⟨k1, v1⟩ := e
      by_cases hk : k1 = k
      · subst hk
        simp [set, keys]
      · simp only [set, hk, if_false, keys_cons, List.mem_cons, ih]
        tauto

theorem nodup_keys_set (m : GoMap V) (k : String) (v : V) (h : (keys m).Nodup) :
    (keys (set m k v)).Nodup := by
  induction m with
  | nil => simp [set, keys]
  | cons e rest ih =>
      obtain ⟨k1, v1⟩ := e
      rw [keys_cons, List.nodup_cons] at h
      by_cases hk : k1 = k
      · subst hk
        simp only [set, if_true, keys_cons, List.nodup_cons]
        exact h
      · have hnot : k1 ∉ keys (set rest k v) := by
          rw [mem_keys_set]
          rintro (h1 | h1)
          · exact hk h1
          · exact h.1 h1
        simp only [set, hk, if_false, keys_cons, List.nodup_cons]
        exact ⟨hnot, ih h.2⟩

theorem get?_set (m : GoMap V) (k : String) (v : V) (x : String) :
    get? (set m k v) x = if x = k then some v else get? m x := by
  induction m with
  | nil =>
      by_cases hx : x = k
      · simp [set, get?, hx]
      · have hx1 : ¬ k = x := fun h => hx h.symm
        simp [set, get?, hx, hx1]
  | cons e rest ih =>
      obtain ⟨k1, v1⟩ := e
      by_cases hk : k1 = k
      · subst hk
        by_cases hx : x = k1
        · simp [set, get?, hx]
        · have hx1 : ¬ k1 = x := fun h => hx h.symm
          simp [set, get?, hx, hx1]
      · by_cases hx : k1 = x
        · subst hx
          simp [set, get?, hk]
        · simp [set, get?, hk, hx, ih]

theorem get?_eq_none_iff (m : GoMap V) (x : String) :
    get? m x = none ↔ x ∉ keys m := by
  induction m with
  | nil => simp [get?, keys]
  | cons e rest ih =>
      obtain ⟨k1, v1⟩ := e
      by_cases hx : k1 = x
      · subst hx
        simp [get?, keys]
      · have hx1 : ¬ x = k1 := fun h => hx h.symm
        simp [get?, keys_cons, hx, hx1, ih]

theorem mem_keys_foldl_set (ks : List String) (m : GoMap Unit) (x : String) :
    x ∈ keys (ks.foldl (fun acc k => set acc k ()) m) ↔ x ∈ ks ∨ x ∈ keys m := by
  induction ks generalizing m with
  | nil => simp
  | cons k rest ih =>
      simp only [List.foldl_cons, ih, mem_keys_set, List.mem_cons]
      tauto

theorem nodup_keys_foldl_set (ks : List String) (m : GoMap Unit) (h : (keys m).Nodup) :
    (keys (ks.foldl (fun acc k => set acc k ()) m)).Nodup := by
  induction ks generalizing m with
  | nil => simpa using h
  | cons k rest ih =>
      simp only [List.foldl_cons]
      exact ih _ (nodup_keys_set m k () h)

end parser.GoMap

/-! ## JSON to table: lemmas about the two loops -/

namespace parser

theorem isObject_iff (v : Value) : v.isObject = true ↔ ∃ obj, v = .object obj := by
  cases v <;> simp [Value.isObject]

theorem buildRow_length (headers : List String) (obj : GoMap Value) :
    (buildRow headers obj).length = headers.length := by
  simp [buildRow]

theorem buildRow_getElem? (headers : List String) (obj : GoMap Value) (i : Nat) (h : String)
    (hi : headers[i]? = some h) :
    (buildRow headers obj)[i]? =
      some (match GoMap.get? obj h with
        | some val => formatValue val
        | none => "") := by
  simp [buildRow, List.getElem?_map, hi]

theorem collectHeaders_isSome (ord : List String → List String) (arr : List Value)
    (hm : GoMap Unit) (hobj : ∀ v ∈ arr, v.isObject = true) :
    ∃ hm1, collectHeaders ord arr hm = some hm1 := by
  induction arr generalizing hm with
  | nil => exact ⟨hm, rfl⟩
  | cons v rest ih =>
      have hv := hobj v (List.mem_cons_self _ _)
      obtain ⟨obj, rfl⟩ := (isObject_iff v).1 hv
      simp only [collectHeaders]
      exact ih _ (fun w hw => hobj w (List.mem_cons_of_mem _ hw))

theorem collectHeaders_eq_none (ord : List String → List String) (arr : List Value)
    (hm : GoMap Unit) (hbad : ∃ v ∈ arr, v.isObject = false) :
    collectHeaders ord arr hm = none := by
  induction arr generalizing hm with
  | nil => simp at hbad
  | cons v rest ih =>
      cases v with
      | object obj =>
          simp only [collectHeaders]
          apply ih
          obtain ⟨w, hw, hwo⟩ := hbad
          rcases List.mem_cons.1 hw with h1 | h1
          · subst h1
            simp [Value.isObject] at hwo
          · exact ⟨w, h1, hwo⟩
      | null => simp [collectHeaders]
      | bool b => simp [collectHeaders]
      | number f => simp [collectHeaders]
      | string s => simp [collectHeaders]
      | array items => simp [collectHeaders]

theorem collectHeaders_all_objects (ord : List String → List String) (arr : List Value)
    (hm hm1 : GoMap Unit) (h : collectHeaders ord arr hm = some hm1) :
    ∀ v ∈ arr, v.isObject = true := by
  intro v hv
  by_contra hcon
  have hfalse : v.isObject = false := by simpa using hcon
  rw [collectHeaders_eq_none ord arr hm ⟨v, hv, hfalse⟩] at h
  exact Option.noConfusion h

theorem collectHeaders_nodup (ord : List String → List String) (arr : List Value)
    (hm hm1 : GoMap Unit) (h : collectHeaders ord arr hm = some hm1)
    (hnd : (GoMap.keys hm).Nodup) : (GoMap.keys hm1).Nodup := by
  induction arr generalizing hm with
  | nil =>
      simp only [collectHeaders, Option.some.injEq] at h
      exact h ▸ hnd
  | cons v rest ih =>
      cases v with
      | object obj =>
          simp only [collectHeaders] at h
          exact ih _ h (GoMap.nodup_keys_foldl_set _ _ hnd)
      | null => simp [collectHeaders] at h
      | bool b => simp [collectHeaders] at h
      | number f => simp [collectHeaders] at h
      | string s => simp [collectHeaders] at h
      | array items => simp [collectHeaders] at h

theorem collectHeaders_mem (ord : List String → List String) (arr : List Value)
    (hm hm1 : GoMap Unit) (h : collectHeaders ord arr hm = some hm1) (x : String) :
    x ∈ GoMap.keys hm1 ↔
      x ∈ GoMap.keys hm ∨ ∃ obj, Value.object obj ∈ arr ∧ x ∈ ord (GoMap.keys obj) := by
  induction arr generalizing hm with
  | nil =>
      simp only [collectHeaders, Option.some.injEq] at h
      subst h
      simp
  | cons v rest ih =>
      cases v with
      | object obj =>
          simp only [collectHeaders] at h
          rw [ih _ h, GoMap.mem_keys_foldl_set]
          constructor
          · rintro ((h1 | h1) | ⟨o, ho, hx⟩)
            · exact Or.inr ⟨obj, List.mem_cons_self _ _, h1⟩
            · exact Or.inl h1
            · exact Or.inr ⟨o, List.mem_cons_of_mem _ ho, hx⟩
          · rintro (h1 | ⟨o, ho, hx⟩)
            · exact Or.inl (Or.inr h1)
            · rcases List.mem_cons.1 ho with h2 | h2
              · have h3 : o = obj := by injection h2
                subst h3
                exact Or.inl (Or.inl hx)
              · exact Or.inr ⟨o, h2, hx⟩
      | null => simp [collectHeaders] at h
      | bool b => simp [collectHeaders] at h
      | number f => simp [collectHeaders] at h
      | string s => simp [collectHeaders] at h
      | array items => simp [collectHeaders] at h

theorem buildRows_ok (headers : List String) (arr : List Value)
    (hobj : ∀ v ∈ arr, v.isObject = true) :
    ∃ rows, buildRows headers arr = .ok rows ∧ rows.length = arr.length ∧
      (∀ row ∈ rows, row.length = headers.length) ∧
      ∀ (i : Nat) (obj : GoMap Value), arr[i]? = some (Value.object obj) →
        rows[i]? = some (buildRow headers obj) := by
  induction arr with
  | nil => exact ⟨[], rfl, rfl, by simp, by simp⟩
  | cons v rest ih =>
      have hv := hobj v (List.mem_cons_self _ _)
      obtain ⟨obj, rfl⟩ := (isObject_iff v).1 hv
      obtain ⟨rows, hrows, hlen, hwidth, hget⟩ :=
        ih (fun w hw => hobj w (List.mem_cons_of_mem _ hw))
      refine ⟨buildRow headers obj :: rows, ?_, ?_, ?_, ?_⟩
      · simp [buildRows, hrows]
      · simp [hlen]
      · intro row hrow
        rcases List.mem_cons.1 hrow with h1 | h1
        · rw [h1]
          exact buildRow_length headers obj
        · exact hwidth row h1
      · intro i o hi
        cases i with
        | zero =>
            simp only [List.getElem?_cons_zero, Option.some.injEq] at hi
            have h3 : obj = o := by injection hi
            subst h3
            simp
        | succ j =>
            simp only [List.getElem?_cons_succ] at hi
            simpa using hget j o hi

theorem error_ne_panic (m1 m2 : String) :
    (Except.error (Failure.error m1) : Except Failure (List (List String))) ≠
      .error (.panic m2) := by
  intro h
  injection h with h1
  exact Failure.noConfusion h1

theorem ConvertJSONTo2D_array (ord : List String → List String) (arr : List Value) :
    ConvertJSONTo2D ord (.array arr) =
      if arr.length = 0 then .error (.error "empty JSON array")
      else
        match collectHeaders ord arr [] with
        | none => .error (.error "expected JSON array of objects")
        | some headerMap =>
            match buildRows (ord (GoMap.keys headerMap)) arr with
            | .ok rows => .ok (ord (GoMap.keys headerMap) :: rows)
            | .error e => .error e := rfl

theorem ConvertJSONTo2D_object (ord : List String → List String) (fields : GoMap Value) :
    ConvertJSONTo2D ord (.object fields) = ConvertJSONTo2D ord (.array [.object fields]) := rfl

/-- A non-empty list of objects converts: the header row is the visiting order
of the collected key set, the data rows are the rows of the objects. -/
theorem ConvertJSONTo2D_items (ord : List String → List String) (arr : List Value)
    (hne : arr ≠ []) (hobj : ∀ v ∈ arr, v.isObject = true) :
    ∃ hm rows, collectHeaders ord arr [] = some hm ∧
      buildRows (ord (GoMap.keys hm)) arr = .ok rows ∧
      ConvertJSONTo2D ord (.array arr) = .ok (ord (GoMap.keys hm) :: rows) := by
  obtain ⟨hm, hhm⟩ := collectHeaders_isSome ord arr [] hobj
  obtain ⟨rows, hrows, -⟩ := buildRows_ok (ord (GoMap.keys hm)) arr hobj
  refine ⟨hm, rows, hhm, hrows, ?_⟩
  have hlen : ¬ arr.length = 0 := by
    intro h0
    exact hne (List.length_eq_zero.1 h0)
  rw [ConvertJSONTo2D_array, if_neg hlen, hhm]
  simp only [hrows]

/-- What a successful call tells about its input. -/
theorem ConvertJSONTo2D_ok_inv (ord : List String → List String) (data : Value)
    (table : List (List String)) (h : ConvertJSONTo2D ord data = .ok table) :
    inputItems data ≠ [] ∧ (∀ v ∈ inputItems data, v.isObject = true) ∧
      ConvertJSONTo2D ord (.array (inputItems data)) = .ok table := by
  have key : ∀ arr : List Value, ConvertJSONTo2D ord (.array arr) = .ok table →
      arr ≠ [] ∧ (∀ v ∈ arr, v.isObject = true) := by
    intro arr harr
    rw [ConvertJSONTo2D_array] at harr
    by_cases hlen : arr.length = 0
    · rw [if_pos hlen] at harr
      exact Except.noConfusion harr
    · rw [if_neg hlen] at harr
      refine ⟨fun h0 => hlen (by simp [h0]), ?_⟩
      cases hc : collectHeaders ord arr [] with
      | none =>
          rw [hc] at harr
          exact Except.noConfusion harr
      | some hm => exact collectHeaders_all_objects ord arr [] hm hc
  cases data with
  | array items => exact ⟨(key items h).1, (key items h).2, h⟩
  | object fields =>
      rw [ConvertJSONTo2D_object] at h
      exact ⟨(key _ h).1, (key _ h).2, h⟩
  | null => exact Except.noConfusion h
  | bool b => exact Except.noConfusion h
  | number f => exact Except.noConfusion h
  | string s => exact Except.noConfusion h

end parser

/-! ## JSON to table: the table that is returned -/

namespace parser

/-- The shape of the table of a non-empty list of objects. -/
theorem ConvertJSONTo2D_shape (ord : List String → List String) (arr : List Value)
    (hne : arr ≠ []) (hobj : ∀ v ∈ arr, v.isObject = true) :
    ∃ headers rows, ConvertJSONTo2D ord (.array arr) = .ok (headers :: rows) ∧
      rows.length = arr.length ∧
      (∀ (i : Nat) (obj : GoMap Value), arr[i]? = some (Value.object obj) →
        rows[i]? = some (buildRow headers obj)) ∧
      ∀ row ∈ rows, row.length = headers.length := by
  obtain ⟨hm, rows, -, hrows, hconv⟩ := ConvertJSONTo2D_items ord arr hne hobj
  obtain ⟨rows1, hrows1, hlen, hwidth, hget⟩ := buildRows_ok (ord (GoMap.keys hm)) arr hobj
  have hEq : rows = rows1 := by
    rw [hrows] at hrows1
    injection hrows1
  subst hEq
  exact ⟨ord (GoMap.keys hm), rows, hconv, hlen, hget, hwidth⟩

/-- C1: for every non-empty JSON array whose elements are all objects,
`ConvertJSONTo2D` succeeds and returns one header row followed by one data row
per array element, in array order (row `i` is the row built from element `i`),
and every data row is as long as the header row. -/
theorem ConvertJSONTo2D_array_of_objects (ord : List String → List String) (arr : List Value)
    (hne : arr ≠ []) (hobj : ∀ v ∈ arr, v.isObject = true) :
    ∃ headers rows, ConvertJSONTo2D ord (.array arr) = .ok (headers :: rows) ∧
      rows.length = arr.length ∧
      (∀ (i : Nat) (obj : GoMap Value), arr[i]? = some (Value.object obj) →
        rows[i]? = some (buildRow headers obj)) ∧
      ∀ row ∈ rows, row.length = headers.length := by
  obtain ⟨hm, rows, -, hrows, hconv⟩ := ConvertJSONTo2D_items ord arr hne hobj
  obtain ⟨rows1, hrows1, hlen, hwidth, hget⟩ := buildRows_ok (ord (GoMap.keys hm)) arr hobj
  have hEq : rows = rows1 := by
    rw [hrows] at hrows1
    injection hrows1
  subst hEq
  exact ⟨ord (GoMap.keys hm), rows, hconv, hlen, hget, hwidth⟩

/-- C1 at the sample array, visited in storage order. -/
theorem ConvertJSONTo2D_array_of_objects_witness :
    ∃ headers rows, ConvertJSONTo2D id (.array sampleArray) = .ok (headers :: rows) ∧
      rows.length = sampleArray.length ∧
      (∀ (i : Nat) (obj : GoMap Value), sampleArray[i]? = some (Value.object obj) →
        rows[i]? = some (buildRow headers obj)) ∧
      ∀ row ∈ rows, row.length = headers.length :=
  ConvertJSONTo2D_array_of_objects id sampleArray (by simp [sampleArray])
    (by simp [sampleArray, Value.isObject])

/-- C2: for every successful `ConvertJSONTo2D` call, every data row `r` and every
column `i`: the cell is `formatValue` of the value stored under header `i` in the
`r`-th object when the object has the key, and the empty string when it lacks
the key; a key present with a null value gives the empty string too; the row is
never shorter than the header row. -/
theorem ConvertJSONTo2D_cells (ord : List String → List String) (data : Value)
    (table : List (List String)) (h : ConvertJSONTo2D ord data = .ok table) :
    ∃ headers rows, table = headers :: rows ∧ rows.length = (inputItems data).length ∧
      (∀ v ∈ inputItems data, ∃ obj, v = Value.object obj) ∧
      ∀ (r : Nat) (obj : GoMap Value), (inputItems data)[r]? = some (Value.object obj) →
        ∃ row, rows[r]? = some row ∧ row.length = headers.length ∧
          ∀ (i : Nat) (name : String), headers[i]? = some name →
            (∀ val, GoMap.get? obj name = some val → row[i]? = some (formatValue val)) ∧
            (GoMap.get? obj name = none → row[i]? = some "") ∧
            (GoMap.get? obj name = some Value.null → row[i]? = some "") := by
  obtain ⟨hne, hobj, hconv⟩ := ConvertJSONTo2D_ok_inv ord data table h
  obtain ⟨headers, rows, hres, hlen, hget, hwidth⟩ :=
    ConvertJSONTo2D_shape ord (inputItems data) hne hobj
  have htab : table = headers :: rows := by
    rw [hconv] at hres
    injection hres
  refine ⟨headers, rows, htab, hlen, fun v hv => (isObject_iff v).1 (hobj v hv), ?_⟩
  intro r obj hr
  refine ⟨buildRow headers obj, hget r obj hr, buildRow_length headers obj, ?_⟩
  intro i name hname
  have hcell := buildRow_getElem? headers obj i name hname
  refine ⟨?_, ?_, ?_⟩
  · intro val hval
    rw [hcell, hval]
  · intro hnone
    rw [hcell, hnone]
  · intro hnull
    rw [hcell, hnull]
    rfl

/-- C2 at the sample array, visited in storage order. -/
theorem ConvertJSONTo2D_cells_witness :
    ∃ headers rows,
      [["name", "born", "age"], ["ann", "2020-01-02", ""], ["", "", "true"]] = headers :: rows ∧
      rows.length = (inputItems (.array sampleArray)).length ∧
      (∀ v ∈ inputItems (.array sampleArray), ∃ obj, v = Value.object obj) ∧
      ∀ (r : Nat) (obj : GoMap Value),
        (inputItems (.array sampleArray))[r]? = some (Value.object obj) →
        ∃ row, rows[r]? = some row ∧ row.length = headers.length ∧
          ∀ (i : Nat) (name : String), headers[i]? = some name →
            (∀ val, GoMap.get? obj name = some val → row[i]? = some (formatValue val)) ∧
            (GoMap.get? obj name = none → row[i]? = some "") ∧
            (GoMap.get? obj name = some Value.null → row[i]? = some "") :=
  ConvertJSONTo2D_cells id (.array sampleArray)
    [["name", "born", "age"], ["ann", "2020-01-02", ""], ["", "", "true"]] (by decide)

/-- C3: for every successful `ConvertJSONTo2D` call (under any legal visiting
order of the maps), the header row has no duplicate names and a name is in it if
and only if it is a key of at least one input object. -/
theorem ConvertJSONTo2D_header_union (ord : List String → List String) (hord : RangeOrder ord)
    (data : Value) (table : List (List String)) (h : ConvertJSONTo2D ord data = .ok table) :
    ∃ headers rows, table = headers :: rows ∧ headers.Nodup ∧
      ∀ name : String, name ∈ headers ↔
        ∃ obj, Value.object obj ∈ inputItems data ∧ name ∈ GoMap.keys obj := by
  obtain ⟨hne, hobj, hconv⟩ := ConvertJSONTo2D_ok_inv ord data table h
  obtain ⟨hm, rows, hhm, -, hres⟩ := ConvertJSONTo2D_items ord (inputItems data) hne hobj
  have htab : table = ord (GoMap.keys hm) :: rows := by
    rw [hconv] at hres
    injection hres
  refine ⟨ord (GoMap.keys hm), rows, htab, ?_, ?_⟩
  · exact (hord _).nodup_iff.2 (collectHeaders_nodup ord _ [] hm hhm List.nodup_nil)
  · intro name
    rw [(hord _).mem_iff, collectHeaders_mem ord _ [] hm hhm name]
    constructor
    · rintro (h1 | ⟨obj, hobj1, hx⟩)
      · simp [GoMap.keys] at h1
      · exact ⟨obj, hobj1, (hord _).mem_iff.1 hx⟩
    · rintro ⟨obj, hobj1, hx⟩
      exact Or.inr ⟨obj, hobj1, (hord _).mem_iff.2 hx⟩

/-- C3 at the sample array, the maps being visited in reverse storage order. -/
theorem ConvertJSONTo2D_header_union_witness :
    ∃ headers rows,
      [["age", "name", "born"], ["", "ann", "2020-01-02"], ["true", "", ""]] = headers :: rows ∧
      headers.Nodup ∧
      ∀ name : String, name ∈ headers ↔
        ∃ obj, Value.object obj ∈ inputItems (.array sampleArray) ∧ name ∈ GoMap.keys obj :=
  ConvertJSONTo2D_header_union List.reverse (fun ks => List.reverse_perm ks)
    (.array sampleArray)
    [["age", "name", "born"], ["", "ann", "2020-01-02"], ["true", "", ""]] (by decide)

/-- C4: `ConvertJSONTo2D` fails exactly in three cases: the value is neither an
object nor an array ("invalid JSON structure"), it is the empty array ("empty
JSON array"), or it is a non-empty array with an element that is not an object
("expected JSON array of objects").  A failure carries no table, in every other
case the call succeeds, and the call never panics.  The first and the third
message are the `InvalidStructure` kind, the second one is `EmptyInput`. -/
theorem ConvertJSONTo2D_failure_cases (ord : List String → List String) (data : Value) :
    (data.isObject = false ∧ data.isArray = false →
      ConvertJSONTo2D ord data = .error (.error "invalid JSON structure")) ∧
    (data = .array [] → ConvertJSONTo2D ord data = .error (.error "empty JSON array")) ∧
    (∀ items, data = .array items → items ≠ [] → (∃ v ∈ items, v.isObject = false) →
      ConvertJSONTo2D ord data = .error (.error "expected JSON array of objects")) ∧
    ((∃ table, ConvertJSONTo2D ord data = .ok table) ↔
      (data.isObject = true ∨
        ∃ items, data = .array items ∧ items ≠ [] ∧ ∀ v ∈ items, v.isObject = true)) ∧
    (∀ msg, ConvertJSONTo2D ord data ≠ .error (.panic msg)) := by
  have hbad : ∀ items : List Value, items ≠ [] → (∃ v ∈ items, v.isObject = false) →
      ConvertJSONTo2D ord (.array items) = .error (.error "expected JSON array of objects") := by
    intro items hne hex
    have hlen : ¬ items.length = 0 := fun h0 => hne (List.length_eq_zero.1 h0)
    rw [ConvertJSONTo2D_array, if_neg hlen, collectHeaders_eq_none ord items [] hex]
  have hgood : ∀ items : List Value, items ≠ [] → (∀ v ∈ items, v.isObject = true) →
      ∃ table, ConvertJSONTo2D ord (.array items) = .ok table := by
    intro items hne hall
    obtain ⟨hm, rows, -, -, hres⟩ := ConvertJSONTo2D_items ord items hne hall
    exact ⟨_, hres⟩
  have hsingle : ∀ fields : GoMap Value,
      ∃ table, ConvertJSONTo2D ord (.object fields) = .ok table := by
    intro fields
    rw [ConvertJSONTo2D_object]
    apply hgood
    · simp
    · intro v hv
      rw [List.mem_singleton] at hv
      rw [hv]
      rfl
  refine ⟨?_, ?_, ?_, ?_, ?_⟩
  · rintro ⟨h1, h2⟩
    cases data with
    | object fields => simp [Value.isObject] at h1
    | array items => simp [Value.isArray] at h2
    | null => rfl
    | bool b => rfl
    | number f => rfl
    | string s => rfl
  · intro h1
    rw [h1]
    rfl
  · intro items h1 hne hex
    rw [h1]
    exact hbad items hne hex
  · constructor
    · rintro ⟨table, htable⟩
      obtain ⟨hne, hobj, -⟩ := ConvertJSONTo2D_ok_inv ord data table htable
      cases data with
      | object fields => exact Or.inl rfl
      | array items => exact Or.inr ⟨items, rfl, hne, hobj⟩
      | null => exact Except.noConfusion htable
      | bool b => exact Except.noConfusion htable
      | number f => exact Except.noConfusion htable
      | string s => exact Except.noConfusion htable
    · rintro (h1 | ⟨items, h1, hne, hall⟩)
      · obtain ⟨fields, h2⟩ := (isObject_iff data).1 h1
        rw [h2]
        exact hsingle fields
      · rw [h1]
        exact hgood items hne hall
  · intro msg hpanic
    cases data with
    | object fields =>
        obtain ⟨table, htable⟩ := hsingle fields
        rw [htable] at hpanic
        exact Except.noConfusion hpanic
    | array items =>
        by_cases hne : items = []
        · subst hne
          exact error_ne_panic _ _ hpanic
        · by_cases hall : ∀ v ∈ items, v.isObject = true
          · obtain ⟨table, htable⟩ := hgood items hne hall
            rw [htable] at hpanic
            exact Except.noConfusion hpanic
          · have hex : ∃ v ∈ items, v.isObject = false := by
              by_contra hcon
              apply hall
              intro v hv
              by_contra hv1
              exact hcon ⟨v, hv, by simpa using hv1⟩
            rw [hbad items hne hex] at hpanic
            exact error_ne_panic _ _ hpanic
    | null => exact error_ne_panic _ _ hpanic
    | bool b => exact error_ne_panic _ _ hpanic
    | number f => exact error_ne_panic _ _ hpanic
    | string s => exact error_ne_panic _ _ hpanic

/-- C5: for every JSON object `o`, the empty object included,
`ConvertJSONTo2D(o)` succeeds with exactly two rows, the header row and one data
row, and the result is the one of the one-element array `[o]`. -/
theorem ConvertJSONTo2D_single_object (ord : List String → List String)
    (fields : GoMap Value) :
    (∃ headers row, ConvertJSONTo2D ord (.object fields) = .ok [headers, row] ∧
      row = buildRow headers fields) ∧
    ConvertJSONTo2D ord (.object fields) = ConvertJSONTo2D ord (.array [.object fields]) := by
  refine ⟨?_, ConvertJSONTo2D_object ord fields⟩
  have hobj : ∀ v ∈ [Value.object fields], v.isObject = true := by
    intro v hv
    rw [List.mem_singleton] at hv
    rw [hv]
    rfl
  obtain ⟨hm, rows, -, hrows, hres⟩ :=
    ConvertJSONTo2D_items ord [Value.object fields] (by simp) hobj
  rw [ConvertJSONTo2D_object, hres]
  simp only [buildRows] at hrows
  have hEq : [buildRow (ord (GoMap.keys hm)) fields] = rows := by
    injection hrows
  exact ⟨ord (GoMap.keys hm), buildRow (ord (GoMap.keys hm)) fields, by rw [← hEq], rfl⟩

end parser

/-! ## Value formatting: strings and dates -/

namespace parser

open gotime

theorem tryParseDate_eq (s : String) :
    tryParseDate s =
      match Parse RFC3339 s with
      | some t => .ok t
      | none =>
        match Parse layoutDate s with
        | some t => .ok t
        | none =>
          match Parse layoutDateTime s with
          | some t => .ok t
          | none =>
            match Parse layoutDayMonYear s with
            | some t => .ok t
            | none => .error "not a date" := by
  unfold tryParseDate
  simp only [List.findSome?]
  cases Parse RFC3339 s <;> cases Parse layoutDate s <;> cases Parse layoutDateTime s <;>
    cases Parse layoutDayMonYear s <;> rfl

/-- C6: for every string `s`, `formatValue(s)` is the `YYYY-MM-DD` rendering of
the date parsed by the first of the four layouts (RFC 3339, `YYYY-MM-DD`,
`YYYY-MM-DD HH:MM:SS`, `DD-Mon-YYYY`) that accepts `s`, and is `s` itself when no
layout accepts it; the four named inputs give the named outputs. -/
theorem formatValue_string (s : String) :
    formatValue (.string s) =
      (match Parse RFC3339 s with
      | some t => t.Format layoutDate
      | none =>
        match Parse layoutDate s with
        | some t => t.Format layoutDate
        | none =>
          match Parse layoutDateTime s with
          | some t => t.Format layoutDate
          | none =>
            match Parse layoutDayMonYear s with
            | some t => t.Format layoutDate
            | none => s) ∧
    formatValue (.string "2020-01-02T15:04:05Z") = "2020-01-02" ∧
    formatValue (.string "02-Jan-2020") = "2020-01-02" ∧
    formatValue (.string "not-a-date") = "not-a-date" ∧
    formatValue (.string "01-02-2020") = "01-02-2020" := by
  refine ⟨?_, by decide, by decide, by decide, by decide⟩
  simp only [formatValue, tryParseDate_eq]
  cases Parse RFC3339 s <;> cases Parse layoutDate s <;> cases Parse layoutDateTime s <;>
    cases Parse layoutDayMonYear s <;> rfl

end parser

/-! ## Package `time`: what an accepted value looks like -/

namespace gotime

theorem isDigitChar_iff (c : Char) : isDigitChar c = true ↔ 48 ≤ c.toNat ∧ c.toNat ≤ 57 := by
  simp [isDigitChar]

theorem getnum_fixed_inv (v rest : List Char) (n : Int) (h : getnum v true = some (n, rest)) :
    ∃ c1 c2, v = c1 :: c2 :: rest ∧ isDigitChar c1 = true ∧ isDigitChar c2 = true ∧
      n = val2 c1 c2 := by
  rcases v with _ | ⟨c1, _ | ⟨c2, v1⟩⟩
  · simp [getnum, isDigit] at h
  · simp [getnum, isDigit] at h
  · by_cases h1 : isDigitChar c1 = true
    · by_cases h2 : isDigitChar c2 = true
      · simp [getnum, isDigit, h1, h2] at h
        exact ⟨c1, c2, by rw [h.2], h1, h2, h.1.symm⟩
      · simp [getnum, isDigit, h1, h2] at h
    · simp [getnum, isDigit, h1] at h

theorem parseStd_year_inv (f f1 : Fields) (v rest : List Char)
    (h : parseStd .stdLongYear f v = some (f1, rest)) :
    ∃ c1 c2 c3 c4, v = c1 :: c2 :: c3 :: c4 :: rest ∧ isDigitChar c1 = true ∧
      isDigitChar c2 = true ∧ isDigitChar c3 = true ∧ isDigitChar c4 = true ∧
      f1 = { f with year := val4 c1 c2 c3 c4 } := by
  rcases v with _ | ⟨c1, _ | ⟨c2, _ | ⟨c3, _ | ⟨c4, v1⟩⟩⟩⟩
  · simp [parseStd] at h
  · simp [parseStd] at h
  · simp [parseStd] at h
  · simp [parseStd] at h
  · simp only [parseStd] at h
    split at h
    · exact Option.noConfusion h
    · split at h
      · exact Option.noConfusion h
      · rename_i y hy
        simp only [List.take, atoi] at hy
        split at hy
        · rename_i hall
          simp only [List.all_cons, List.all_nil, Bool.and_true, Bool.and_eq_true] at hall
          simp only [List.foldl, Option.some.injEq] at hy
          simp only [List.drop, Option.some.injEq, Prod.mk.injEq] at h
          refine ⟨c1, c2, c3, c4, by rw [h.2], hall.2.1, hall.2.2.1, hall.2.2.2.1,
            hall.2.2.2.2, ?_⟩
          rw [← h.1, ← hy]
          simp [val4]
        · exact Option.noConfusion hy

theorem skip_char_inv (p : Char) (hp : p ≠ ' ') (v rest : List Char)
    (h : skip v [p] = some rest) : v = p :: rest := by
  rcases v with _ | ⟨c, v1⟩
  · simp [skip, skipLoop, hp] at h
  · by_cases hc : c = p
    · simp [skip, skipLoop, hp, hc] at h
      rw [hc, h]
    · simp [skip, skipLoop, hp, hc] at h

theorem skip_nil (v : List Char) : skip v [] = some v := by
  cases v <;> rfl


theorem parseStd_zeroMonth_inv (f f1 : Fields) (v rest : List Char)
    (h : parseStd .stdZeroMonth f v = some (f1, rest)) :
    ∃ c1 c2, v = c1 :: c2 :: rest ∧ isDigitChar c1 = true ∧ isDigitChar c2 = true ∧
      1 ≤ val2 c1 c2 ∧ val2 c1 c2 ≤ 12 ∧ f1 = { f with month := val2 c1 c2 } := by
  simp only [parseStd] at h
  split at h
  · exact Option.noConfusion h
  · rename_i m rest1 hg
    obtain ⟨c1, c2, hv, h1, h2, hm⟩ := getnum_fixed_inv v rest1 m hg
    split at h
    · exact Option.noConfusion h
    · rename_i hrange
      simp only [Option.some.injEq, Prod.mk.injEq] at h
      refine ⟨c1, c2, by rw [hv, h.2], h1, h2, ?_, ?_, by rw [← h.1, hm]⟩
      · rw [← hm]
        omega
      · rw [← hm]
        omega

theorem parseStd_zeroDay_inv (f f1 : Fields) (v rest : List Char)
    (h : parseStd .stdZeroDay f v = some (f1, rest)) :
    ∃ c1 c2, v = c1 :: c2 :: rest ∧ isDigitChar c1 = true ∧ isDigitChar c2 = true ∧
      f1 = { f with day := val2 c1 c2 } := by
  simp only [parseStd] at h
  split at h
  · exact Option.noConfusion h
  · rename_i d rest1 hg
    obtain ⟨c1, c2, hv, h1, h2, hd⟩ := getnum_fixed_inv v rest1 d hg
    simp only [Option.some.injEq, Prod.mk.injEq] at h
    exact ⟨c1, c2, by rw [hv, h.2], h1, h2, by rw [← h.1, hd]⟩

theorem parseStd_keepsDate (std : Std) (hk : keepsDate std = true) (f f1 : Fields)
    (v rest : List Char) (h : parseStd std f v = some (f1, rest)) :
    f1.year = f.year ∧ f1.month = f.month ∧ f1.day = f.day := by
  cases std with
  | stdLongYear => simp [keepsDate] at hk
  | stdZeroMonth => simp [keepsDate] at hk
  | stdMonth => simp [keepsDate] at hk
  | stdZeroDay => simp [keepsDate] at hk
  | stdHour =>
      simp only [parseStd] at h
      split at h
      · exact Option.noConfusion h
      · split at h
        · exact Option.noConfusion h
        · simp only [Option.some.injEq, Prod.mk.injEq] at h
          rw [← h.1]
          exact ⟨rfl, rfl, rfl⟩
  | stdZeroMinute =>
      simp only [parseStd] at h
      split at h
      · exact Option.noConfusion h
      · split at h
        · exact Option.noConfusion h
        · simp only [Option.some.injEq, Prod.mk.injEq] at h
          rw [← h.1]
          exact ⟨rfl, rfl, rfl⟩
  | stdZeroSecond =>
      simp only [parseStd] at h
      split at h
      · exact Option.noConfusion h
      · split at h
        · exact Option.noConfusion h
        · split at h
          · split at h
            · exact Option.noConfusion h
            · simp only [Option.some.injEq, Prod.mk.injEq] at h
              rw [← h.1]
              exact ⟨rfl, rfl, rfl⟩
          · simp only [Option.some.injEq, Prod.mk.injEq] at h
            rw [← h.1]
            exact ⟨rfl, rfl, rfl⟩
  | stdISO8601ColonTZ =>
      simp only [parseStd] at h
      split at h
      · simp only [Option.some.injEq, Prod.mk.injEq] at h
        rw [← h.1]
        exact ⟨rfl, rfl, rfl⟩
      · split at h
        · exact Option.noConfusion h
        · split at h
          · exact Option.noConfusion h
          · split at h
            · split at h
              · exact Option.noConfusion h
              · split at h
                · simp only [Option.some.injEq, Prod.mk.injEq] at h
                  rw [← h.1]
                  exact ⟨rfl, rfl, rfl⟩
                · simp only [Option.some.injEq, Prod.mk.injEq] at h
                  rw [← h.1]
                  exact ⟨rfl, rfl, rfl⟩
                · exact Option.noConfusion h
            · exact Option.noConfusion h

theorem parseLoop_keepsDate (chunks : List (List Char × Std))
    (hk : ∀ c ∈ chunks, keepsDate c.2 = true) (f f1 : Fields) (v rest : List Char)
    (h : parseLoop chunks f v = some (f1, rest)) :
    f1.year = f.year ∧ f1.month = f.month ∧ f1.day = f.day := by
  induction chunks generalizing f v with
  | nil =>
      simp only [parseLoop, Option.some.injEq, Prod.mk.injEq] at h
      rw [← h.1]
      exact ⟨rfl, rfl, rfl⟩
  | cons c more ih =>
      obtain ⟨pre, std⟩ := c
      simp only [parseLoop] at h
      split at h
      · exact Option.noConfusion h
      · split at h
        · exact Option.noConfusion h
        · rename_i f2 v2 hstd
          have h1 := parseStd_keepsDate std (hk (pre, std) (List.mem_cons_self _ _)) _ _ _ _ hstd
          have h2 := ih (fun c hc => hk c (List.mem_cons_of_mem _ hc)) f2 v2 h
          exact ⟨h2.1.trans h1.1, h2.2.1.trans h1.2.1, h2.2.2.trans h1.2.2⟩

theorem parseLoop_ymd_inv (more : List (List Char × Std)) (f f1 : Fields) (v rest : List Char)
    (h : parseLoop (ymdChunks ++ more) f v = some (f1, rest)) :
    ∃ y1 y2 y3 y4 m1 m2 d1 d2 v1 f2,
      v = y1 :: y2 :: y3 :: y4 :: '-' :: m1 :: m2 :: '-' :: d1 :: d2 :: v1 ∧
      (isDigitChar y1 = true ∧ isDigitChar y2 = true ∧ isDigitChar y3 = true ∧
        isDigitChar y4 = true) ∧
      (isDigitChar m1 = true ∧ isDigitChar m2 = true) ∧
      (isDigitChar d1 = true ∧ isDigitChar d2 = true) ∧
      f2.year = val4 y1 y2 y3 y4 ∧ f2.month = val2 m1 m2 ∧ f2.day = val2 d1 d2 ∧
      1 ≤ val2 m1 m2 ∧ val2 m1 m2 ≤ 12 ∧
      parseLoop more f2 v1 = some (f1, rest) := by
  simp only [ymdChunks, List.cons_append, List.nil_append, parseLoop, skip_nil] at h
  split at h
  · exact Option.noConfusion h
  · rename_i fa va hy
    obtain ⟨y1, y2, y3, y4, hv, hy1, hy2, hy3, hy4, hfa⟩ := parseStd_year_inv _ _ _ _ hy
    split at h
    · exact Option.noConfusion h
    · rename_i vb hs1
      have hvb := skip_char_inv '-' (by decide) _ _ hs1
      split at h
      · exact Option.noConfusion h
      · rename_i fc vc hm
        obtain ⟨m1, m2, hvm, hm1, hm2, hlo, hhi, hfc⟩ := parseStd_zeroMonth_inv _ _ _ _ hm
        split at h
        · exact Option.noConfusion h
        · rename_i vd hs2
          have hvd := skip_char_inv '-' (by decide) _ _ hs2
          split at h
          · exact Option.noConfusion h
          · rename_i fe ve hd
            obtain ⟨d1, d2, hvday, hd1, hd2, hfe⟩ := parseStd_zeroDay_inv _ _ _ _ hd
            refine ⟨y1, y2, y3, y4, m1, m2, d1, d2, ve, fe, ?_, ⟨hy1, hy2, hy3, hy4⟩,
              ⟨hm1, hm2⟩, ⟨hd1, hd2⟩, ?_, ?_, ?_, hlo, hhi, h⟩
            · rw [hv, hvb, hvm, hvd, hvday]
            · rw [hfe, hfc, hfa]
            · rw [hfe, hfc]
            · rw [hfe]


theorem appendInt_val2 (c1 c2 : Char) (h1 : isDigitChar c1 = true) (h2 : isDigitChar c2 = true) :
    appendInt (val2 c1 c2) 2 = [c1, c2] := by
  rw [isDigitChar_iff] at h1 h2
  have hx : ¬ val2 c1 c2 < 0 := by
    simp only [val2, digitVal]
    omega
  have hu : (val2 c1 c2).natAbs < 100 := by
    simp only [val2, digitVal]
    omega
  have e1 : 48 + (val2 c1 c2).natAbs / 10 = c1.toNat := by
    simp only [val2, digitVal]
    omega
  have e2 : 48 + (val2 c1 c2).natAbs % 10 = c2.toNat := by
    simp only [val2, digitVal]
    omega
  simp only [appendInt, hx, hu, if_false, and_self, if_true, List.nil_append, e1, e2,
    Char.ofNat_toNat]

theorem appendInt_val4 (c1 c2 c3 c4 : Char) (h1 : isDigitChar c1 = true)
    (h2 : isDigitChar c2 = true) (h3 : isDigitChar c3 = true) (h4 : isDigitChar c4 = true) :
    appendInt (val4 c1 c2 c3 c4) 4 = [c1, c2, c3, c4] := by
  rw [isDigitChar_iff] at h1 h2 h3 h4
  have hx : ¬ val4 c1 c2 c3 c4 < 0 := by
    simp only [val4, digitVal]
    omega
  have hu : (val4 c1 c2 c3 c4).natAbs < 10000 := by
    simp only [val4, digitVal]
    omega
  have e1 : 48 + (val4 c1 c2 c3 c4).natAbs / 100 / 10 = c1.toNat := by
    simp only [val4, digitVal]
    omega
  have e2 : 48 + (val4 c1 c2 c3 c4).natAbs / 100 % 10 = c2.toNat := by
    simp only [val4, digitVal]
    omega
  have e3 : 48 + (val4 c1 c2 c3 c4).natAbs % 100 / 10 = c3.toNat := by
    simp only [val4, digitVal]
    omega
  have e4 : 48 + (val4 c1 c2 c3 c4).natAbs % 100 % 10 = c4.toNat := by
    simp only [val4, digitVal]
    omega
  have h24 : ¬ (4 : Nat) = 2 := by decide
  simp only [appendInt, hx, hu, h24, if_false, false_and, and_self, if_true, List.nil_append,
    e1, e2, e3, e4, Char.ofNat_toNat]

theorem Format_layoutDate (t : Time) :
    (t.Format layoutDate).data =
      appendInt t.year 4 ++ '-' :: (appendInt t.month 2 ++ '-' :: appendInt t.day 2) := by
  simp [Time.Format, layoutDate, formatStd]

theorem val2_bounds (c1 c2 : Char) (h1 : isDigitChar c1 = true) (h2 : isDigitChar c2 = true) :
    0 ≤ val2 c1 c2 ∧ val2 c1 c2 ≤ 99 := by
  rw [isDigitChar_iff] at h1 h2
  simp only [val2, digitVal]
  omega

theorem val4_bounds (c1 c2 c3 c4 : Char) (h1 : isDigitChar c1 = true)
    (h2 : isDigitChar c2 = true) (h3 : isDigitChar c3 = true) (h4 : isDigitChar c4 = true) :
    0 ≤ val4 c1 c2 c3 c4 ∧ val4 c1 c2 c3 c4 ≤ 9999 := by
  rw [isDigitChar_iff] at h1 h2 h3 h4
  simp only [val4, digitVal]
  omega

/-- What `Parse` returns, in terms of the variables of `parse` after the loop. -/
theorem Parse_inv (layout : Layout) (s : String) (t : Time) (h : Parse layout s = some t) :
    ∃ f rest, parseLoop layout.chunks {} s.data = some (f, rest) ∧
      skip rest layout.tail = some [] ∧
      t.year = f.year ∧ t.month = (if f.month < 0 then 1 else f.month) ∧
      t.day = (if f.day < 0 then 1 else f.day) ∧
      1 ≤ t.day ∧ t.day ≤ daysIn t.month t.year := by
  simp only [Parse] at h
  split at h
  · exact Option.noConfusion h
  · rename_i f v1 hloop
    split at h
    · exact Option.noConfusion h
    · rename_i v2 hskip
      by_cases hlen : v2.length ≠ 0
      · rw [if_pos hlen] at h
        exact Option.noConfusion h
      · rw [if_neg hlen] at h
        by_cases hday : (if f.day < 0 then 1 else f.day) < 1 ∨
            (if f.day < 0 then 1 else f.day) > daysIn (if f.month < 0 then 1 else f.month) f.year
        · rw [if_pos hday] at h
          exact Option.noConfusion h
        · rw [if_neg hday] at h
          simp only [Option.some.injEq] at h
          have hv2 : v2 = [] := by
            by_contra hne
            exact hlen (fun h0 => hne (List.length_eq_zero.1 h0))
          refine ⟨f, v1, hloop, ?_, ?_, ?_, ?_, ?_, ?_⟩
          · rw [hskip, hv2]
          · rw [← h]
          · rw [← h]
          · rw [← h]
          · rw [← h]
            simp only
            omega
          · rw [← h]
            simp only
            omega

/-- A value accepted by a layout that starts with "2006-01-02" and goes on with
clock and zone elements only: its first ten characters are the date. -/
theorem Parse_ymd_inv (layout : Layout) (more : List (List Char × Std))
    (hl : layout.chunks = ymdChunks ++ more) (hk : ∀ c ∈ more, keepsDate c.2 = true)
    (s : String) (t : Time) (h : Parse layout s = some t) :
    ∃ y1 y2 y3 y4 m1 m2 d1 d2 v1,
      s.data = y1 :: y2 :: y3 :: y4 :: '-' :: m1 :: m2 :: '-' :: d1 :: d2 :: v1 ∧
      (isDigitChar y1 = true ∧ isDigitChar y2 = true ∧ isDigitChar y3 = true ∧
        isDigitChar y4 = true) ∧
      (isDigitChar m1 = true ∧ isDigitChar m2 = true) ∧
      (isDigitChar d1 = true ∧ isDigitChar d2 = true) ∧
      t.year = val4 y1 y2 y3 y4 ∧ t.month = val2 m1 m2 ∧ t.day = val2 d1 d2 ∧
      1 ≤ t.month ∧ t.month ≤ 12 ∧ 1 ≤ t.day ∧ t.day ≤ daysIn t.month t.year := by
  obtain ⟨f, rest, hloop, -, hyear, hmonth, hday, hd1, hd2⟩ := Parse_inv layout s t h
  rw [hl] at hloop
  obtain ⟨y1, y2, y3, y4, m1, m2, d1, d2, v1, f2, hv, hy, hm, hd, hfy, hfm, hfd, hlo, hhi,
    hmore⟩ := parseLoop_ymd_inv more _ _ _ _ hloop
  obtain ⟨ky, km, kd⟩ := parseLoop_keepsDate more hk _ _ _ _ hmore
  have hdb := val2_bounds d1 d2 hd.1 hd.2
  have hm1 : t.month = val2 m1 m2 := by
    rw [hmonth, km, hfm]
    split
    · omega
    · rfl
  have hd3 : t.day = val2 d1 d2 := by
    rw [hday, kd, hfd]
    split
    · omega
    · rfl
  refine ⟨y1, y2, y3, y4, m1, m2, d1, d2, v1, hv, hy, hm, hd, ?_, hm1, hd3, ?_, ?_, hd1, hd2⟩
  · rw [hyear, ky, hfy]
  · rw [hm1]
    exact hlo
  · rw [hm1]
    exact hhi


theorem lookupLoop_inv (val : List Char) (tab : List (List Char)) (k : Nat) (i : Int)
    (rest : List Char) (h : lookupLoop val k tab = some (i, rest)) :
    ∃ (j : Nat) (name : List Char), tab[j]? = some name ∧ i = ((k + j : Nat) : Int) ∧
      name.length ≤ val.length ∧
      (List.zipWith matchFold (val.take name.length) name).all id = true ∧
      rest = val.drop name.length := by
  induction tab generalizing k with
  | nil => simp [lookupLoop] at h
  | cons v tab1 ih =>
      simp only [lookupLoop] at h
      split at h
      · rename_i hmatch
        simp only [Option.some.injEq, Prod.mk.injEq] at h
        exact ⟨0, v, by simp, by simp [h.1.symm], hmatch.1, hmatch.2, h.2.symm⟩
      · obtain ⟨j, name, hj, hi, hlen, hm, hrest⟩ := ih (k + 1) h
        refine ⟨j + 1, name, by simpa using hj, ?_, hlen, hm, hrest⟩
        rw [hi]
        push_cast
        omega

theorem shortMonthNames_length (j : Nat) (name : List Char)
    (h : shortMonthNames[j]? = some name) : j < 12 ∧ name.length = 3 := by
  have hj : j < shortMonthNames.length := by
    by_contra hcon
    rw [List.getElem?_eq_none (by omega)] at h
    exact Option.noConfusion h
  have hall : ∀ n ∈ shortMonthNames, n.length = 3 := by decide
  exact ⟨hj, hall name (List.getElem?_mem h)⟩

theorem parseStd_month_inv (f f1 : Fields) (v rest : List Char)
    (h : parseStd .stdMonth f v = some (f1, rest)) :
    ∃ (a b c : Char) (name : List Char) (j : Nat), v = a :: b :: c :: rest ∧ shortMonthNames[j]? = some name ∧
      j < 12 ∧ (List.zipWith matchFold [a, b, c] name).all id = true ∧
      f1 = { f with month := (j : Int) + 1 } := by
  simp only [parseStd, lookup] at h
  split at h
  · exact Option.noConfusion h
  · rename_i m rest1 hl
    obtain ⟨j, name, hj, hi, hlen, hm, hrest⟩ := lookupLoop_inv _ _ _ _ _ hl
    obtain ⟨hj12, hn3⟩ := shortMonthNames_length j name hj
    simp only [Option.some.injEq, Prod.mk.injEq] at h
    rw [hn3] at hlen hm hrest
    rcases v with _ | ⟨a, _ | ⟨b, _ | ⟨c, v1⟩⟩⟩
    · simp at hlen
    · simp at hlen
    · simp at hlen
    · simp only [List.drop] at hrest
      simp only [List.take] at hm
      refine ⟨a, b, c, name, j, by rw [← h.2, hrest], hj, hj12, hm, ?_⟩
      rw [← h.1, hi]
      simp

theorem digitChar_facts :
    ∀ k : Nat, k < 10 → isDigitChar (Char.ofNat (48 + k)) = true ∧
      digitVal (Char.ofNat (48 + k)) = (k : Int) := by
  decide

theorem appendInt_two_digits (n : Int) (h0 : 0 ≤ n) (h1 : n ≤ 99) :
    ∃ c1 c2, appendInt n 2 = [c1, c2] ∧ isDigitChar c1 = true ∧ isDigitChar c2 = true ∧
      val2 c1 c2 = n := by
  have hx : ¬ n < 0 := by omega
  have hu : n.natAbs < 100 := by omega
  have hq : n.natAbs / 10 < 10 := by omega
  have hr : n.natAbs % 10 < 10 := by omega
  obtain ⟨q1, q2⟩ := digitChar_facts _ hq
  obtain ⟨r1, r2⟩ := digitChar_facts _ hr
  refine ⟨Char.ofNat (48 + n.natAbs / 10), Char.ofNat (48 + n.natAbs % 10), ?_, q1, r1, ?_⟩
  · simp only [appendInt, hx, hu, if_false, and_self, if_true, List.nil_append]
  · rw [val2, q2, r2]
    omega

/-- A value accepted by the layout "02-Jan-2006". -/
theorem Parse_dayMonYear_inv (s : String) (t : Time) (h : Parse layoutDayMonYear s = some t) :
    ∃ d1 d2 a b c y1 y2 y3 y4 name,
      s.data = [d1, d2, '-', a, b, c, '-', y1, y2, y3, y4] ∧
      (isDigitChar d1 = true ∧ isDigitChar d2 = true) ∧
      (isDigitChar y1 = true ∧ isDigitChar y2 = true ∧ isDigitChar y3 = true ∧
        isDigitChar y4 = true) ∧
      shortMonthNames[(t.month - 1).toNat]? = some name ∧
      (List.zipWith matchFold [a, b, c] name).all id = true ∧
      t.year = val4 y1 y2 y3 y4 ∧ t.day = val2 d1 d2 ∧
      1 ≤ t.month ∧ t.month ≤ 12 ∧ 1 ≤ t.day ∧ t.day ≤ daysIn t.month t.year := by
  obtain ⟨f, rest, hloop, hskip, hyear, hmonth, hday, hd1, hd2⟩ :=
    Parse_inv layoutDayMonYear s t h
  simp only [layoutDayMonYear, parseLoop, skip_nil] at hloop hskip
  simp only [Option.some.injEq] at hskip
  subst hskip
  split at hloop
  · exact Option.noConfusion hloop
  · rename_i fa va hd
    obtain ⟨d1, d2, hv, hdd1, hdd2, hfa⟩ := parseStd_zeroDay_inv _ _ _ _ hd
    split at hloop
    · exact Option.noConfusion hloop
    · rename_i vb hs1
      have hvb := skip_char_inv '-' (by decide) _ _ hs1
      split at hloop
      · exact Option.noConfusion hloop
      · rename_i fc vc hm
        obtain ⟨a, b, c, name, j, hvm, hj, hj12, hmatch, hfc⟩ := parseStd_month_inv _ _ _ _ hm
        split at hloop
        · exact Option.noConfusion hloop
        · rename_i vd hs2
          have hvd := skip_char_inv '-' (by decide) _ _ hs2
          split at hloop
          · exact Option.noConfusion hloop
          · rename_i fe ve hy
            obtain ⟨y1, y2, y3, y4, hvy, hy1, hy2, hy3, hy4, hfe⟩ :=
              parseStd_year_inv _ _ _ _ hy
            simp only [Option.some.injEq, Prod.mk.injEq] at hloop
            obtain ⟨hf, hve⟩ := hloop
            subst hve
            have hfm : f.month = (j : Int) + 1 := by rw [← hf, hfe, hfc]
            have hfd : f.day = val2 d1 d2 := by rw [← hf, hfe, hfc, hfa]
            have hfy : f.year = val4 y1 y2 y3 y4 := by rw [← hf, hfe]
            have hdb := val2_bounds d1 d2 hdd1 hdd2
            have hm1 : t.month = (j : Int) + 1 := by
              rw [hmonth, hfm]
              split
              · omega
              · rfl
            have hd3 : t.day = val2 d1 d2 := by
              rw [hday, hfd]
              split
              · omega
              · rfl
            refine ⟨d1, d2, a, b, c, y1, y2, y3, y4, name, ?_, ⟨hdd1, hdd2⟩,
              ⟨hy1, hy2, hy3, hy4⟩, ?_, hmatch, ?_, hd3, ?_, ?_, hd1, hd2⟩
            · rw [hv, hvb, hvm, hvd, hvy]
            · rw [hm1]
              simpa using hj
            · rw [hyear, hfy]
            · omega
            · omega

end gotime

/-! ## Value formatting: the date that is printed -/

namespace parser

open gotime

theorem RFC3339_chunks :
    RFC3339.chunks = ymdChunks ++ [(['T'], .stdHour), ([':'], .stdZeroMinute),
      ([':'], .stdZeroSecond), ([], .stdISO8601ColonTZ)] := rfl

theorem layoutDate_chunks : layoutDate.chunks = ymdChunks ++ [] := rfl

theorem layoutDateTime_chunks :
    layoutDateTime.chunks = ymdChunks ++ [([' '], .stdHour), ([':'], .stdZeroMinute),
      ([':'], .stdZeroSecond)] := rfl

/-- The value accepted by one of the three layouts that start with the date: the
output is the first ten characters of the input. -/
theorem Format_of_ymd (layout : Layout) (more : List (List Char × Std))
    (hl : layout.chunks = ymdChunks ++ more) (hk : ∀ c ∈ more, keepsDate c.2 = true)
    (s : String) (t : Time) (h : Parse layout s = some t) :
    (t.Format layoutDate).data = s.data.take 10 ∧ isISODate (t.Format layoutDate).data = true ∧
      0 ≤ t.year ∧ t.year ≤ 9999 ∧ 1 ≤ t.month ∧ t.month ≤ 12 ∧ 1 ≤ t.day ∧
      t.day ≤ daysIn t.month t.year := by
  obtain ⟨y1, y2, y3, y4, m1, m2, d1, d2, v1, hv, hy, hm, hd, hty, htm, htd, hm1, hm12, hd1,
    hdmax⟩ := Parse_ymd_inv layout more hl hk s t h
  have hfmt : (t.Format layoutDate).data = [y1, y2, y3, y4, '-', m1, m2, '-', d1, d2] := by
    rw [Format_layoutDate, hty, htm, htd, appendInt_val4 y1 y2 y3 y4 hy.1 hy.2.1 hy.2.2.1 hy.2.2.2,
      appendInt_val2 m1 m2 hm.1 hm.2, appendInt_val2 d1 d2 hd.1 hd.2]
    rfl
  have hyb := val4_bounds y1 y2 y3 y4 hy.1 hy.2.1 hy.2.2.1 hy.2.2.2
  refine ⟨?_, ?_, ?_, ?_, hm1, hm12, hd1, hdmax⟩
  · rw [hfmt, hv]
    rfl
  · rw [hfmt]
    simp [isISODate, hy.1, hy.2.1, hy.2.2.1, hy.2.2.2, hm.1, hm.2, hd.1, hd.2]
  · rw [hty]
    exact hyb.1
  · rw [hty]
    exact hyb.2

/-- The value accepted by the layout "02-Jan-2006": the output is the year, the
number of the month that is named, and the day, as they are written. -/
theorem Format_of_dayMonYear (s : String) (t : Time) (h : Parse layoutDayMonYear s = some t) :
    (∃ d1 d2 a b c y1 y2 y3 y4 m1 m2 name,
      s.data = [d1, d2, '-', a, b, c, '-', y1, y2, y3, y4] ∧
      shortMonthNames[(val2 m1 m2 - 1).toNat]? = some name ∧
      (List.zipWith matchFold [a, b, c] name).all id = true ∧
      (t.Format layoutDate).data = [y1, y2, y3, y4, '-', m1, m2, '-', d1, d2]) ∧
    isISODate (t.Format layoutDate).data = true ∧
      0 ≤ t.year ∧ t.year ≤ 9999 ∧ 1 ≤ t.month ∧ t.month ≤ 12 ∧ 1 ≤ t.day ∧
      t.day ≤ daysIn t.month t.year := by
  obtain ⟨d1, d2, a, b, c, y1, y2, y3, y4, name, hv, hd, hy, hname, hmatch, hty, htd, hm1, hm12,
    hd1, hdmax⟩ := Parse_dayMonYear_inv s t h
  obtain ⟨m1, m2, hmm, hmd1, hmd2, hmval⟩ := appendInt_two_digits t.month (by omega) (by omega)
  have hfmt : (t.Format layoutDate).data = [y1, y2, y3, y4, '-', m1, m2, '-', d1, d2] := by
    rw [Format_layoutDate, hmm, hty, htd, appendInt_val4 y1 y2 y3 y4 hy.1 hy.2.1 hy.2.2.1 hy.2.2.2,
      appendInt_val2 d1 d2 hd.1 hd.2]
    rfl
  have hyb := val4_bounds y1 y2 y3 y4 hy.1 hy.2.1 hy.2.2.1 hy.2.2.2
  refine ⟨⟨d1, d2, a, b, c, y1, y2, y3, y4, m1, m2, name, hv, ?_, hmatch, hfmt⟩, ?_, ?_, ?_, hm1,
    hm12, hd1, hdmax⟩
  · rw [hmval]
    exact hname
  · rw [hfmt]
    simp [isISODate, hy.1, hy.2.1, hy.2.2.1, hy.2.2.2, hmd1, hmd2, hd.1, hd.2]
  · rw [hty]
    exact hyb.1
  · rw [hty]
    exact hyb.2

theorem tryParseDate_ok_cases (s : String) (t : Time) (h : tryParseDate s = .ok t) :
    Parse RFC3339 s = some t ∨
    (Parse RFC3339 s = none ∧ Parse layoutDate s = some t) ∨
    (Parse RFC3339 s = none ∧ Parse layoutDate s = none ∧ Parse layoutDateTime s = some t) ∨
    (Parse RFC3339 s = none ∧ Parse layoutDate s = none ∧ Parse layoutDateTime s = none ∧
      Parse layoutDayMonYear s = some t) := by
  rw [tryParseDate_eq] at h
  cases h1 : Parse RFC3339 s with
  | some t1 =>
      rw [h1] at h
      simp only [Except.ok.injEq] at h
      exact Or.inl (by rw [h])
  | none =>
      rw [h1] at h
      cases h2 : Parse layoutDate s with
      | some t2 =>
          rw [h2] at h
          simp only [Except.ok.injEq] at h
          exact Or.inr (Or.inl ⟨rfl, by rw [h]⟩)
      | none =>
          rw [h2] at h
          cases h3 : Parse layoutDateTime s with
          | some t3 =>
              rw [h3] at h
              simp only [Except.ok.injEq] at h
              exact Or.inr (Or.inr (Or.inl ⟨rfl, rfl, by rw [h]⟩))
          | none =>
              rw [h3] at h
              cases h4 : Parse layoutDayMonYear s with
              | some t4 =>
                  rw [h4] at h
                  simp only [Except.ok.injEq] at h
                  exact Or.inr (Or.inr (Or.inr ⟨rfl, rfl, rfl, by rw [h]⟩))
              | none =>
                  rw [h4] at h
                  exact Except.noConfusion h

/-- C7: for every string accepted by `tryParseDate`, the output of `formatValue`
is exactly ten characters of the form `YYYY-MM-DD` and is the calendar date
written in the input (a date that exists, the time of day and the zone offset
being dropped and the date not moved to another zone): when the RFC 3339, the
plain date or the `YYYY-MM-DD HH:MM:SS` layout accepts the input, the output is
the first ten characters of the input whatever the time and the offset are;
otherwise the input is `DD-Mon-YYYY` and the output is its year, the number of
the named month and its day.  "2020-01-02T23:30:00-05:00" gives "2020-01-02". -/
theorem formatValue_accepted_date (s : String) (t : Time) (h : tryParseDate s = .ok t) :
    formatValue (.string s) = t.Format layoutDate ∧
    (formatValue (.string s)).data.length = 10 ∧
    isISODate (formatValue (.string s)).data = true ∧
    (0 ≤ t.year ∧ t.year ≤ 9999 ∧ 1 ≤ t.month ∧ t.month ≤ 12 ∧ 1 ≤ t.day ∧
      t.day ≤ daysIn t.month t.year) ∧
    ((Parse RFC3339 s).isSome = true ∨ (Parse layoutDate s).isSome = true ∨
        (Parse layoutDateTime s).isSome = true →
      (formatValue (.string s)).data = s.data.take 10) ∧
    (Parse RFC3339 s = none → Parse layoutDate s = none → Parse layoutDateTime s = none →
      ∃ d1 d2 a b c y1 y2 y3 y4 m1 m2 name,
        s.data = [d1, d2, '-', a, b, c, '-', y1, y2, y3, y4] ∧
        shortMonthNames[(val2 m1 m2 - 1).toNat]? = some name ∧
        (List.zipWith matchFold [a, b, c] name).all id = true ∧
        (formatValue (.string s)).data = [y1, y2, y3, y4, '-', m1, m2, '-', d1, d2]) ∧
    formatValue (.string "2020-01-02T23:30:00-05:00") = "2020-01-02" := by
  have hfv : formatValue (.string s) = t.Format layoutDate := by
    simp only [formatValue, h]
  have hlen : ∀ cs : List Char, isISODate cs = true → cs.length = 10 := by
    intro cs hcs
    rcases cs with _ | ⟨_, _ | ⟨_, _ | ⟨_, _ | ⟨_, _ | ⟨_, _ | ⟨_, _ | ⟨_, _ | ⟨_, _ | ⟨_, _ |
      ⟨_, _ | ⟨_, _⟩⟩⟩⟩⟩⟩⟩⟩⟩⟩⟩ <;> simp [isISODate] at hcs ⊢
  have hk1 : ∀ c ∈ [((['T'] : List Char), Std.stdHour), ([':'], .stdZeroMinute),
      ([':'], .stdZeroSecond), ([], .stdISO8601ColonTZ)], keepsDate c.2 = true := by decide
  have hk2 : ∀ c ∈ ([] : List (List Char × Std)), keepsDate c.2 = true := by decide
  have hk3 : ∀ c ∈ [(([' '] : List Char), Std.stdHour), ([':'], .stdZeroMinute),
      ([':'], .stdZeroSecond)], keepsDate c.2 = true := by decide
  rw [hfv]
  refine ⟨rfl, ?_, ?_, ?_, ?_, ?_, by decide⟩
  · rcases tryParseDate_ok_cases s t h with h1 | ⟨-, h2⟩ | ⟨-, -, h3⟩ | ⟨-, -, -, h4⟩
    · exact hlen _ (Format_of_ymd _ _ RFC3339_chunks hk1 s t h1).2.1
    · exact hlen _ (Format_of_ymd _ _ layoutDate_chunks hk2 s t h2).2.1
    · exact hlen _ (Format_of_ymd _ _ layoutDateTime_chunks hk3 s t h3).2.1
    · exact hlen _ (Format_of_dayMonYear s t h4).2.1
  · rcases tryParseDate_ok_cases s t h with h1 | ⟨-, h2⟩ | ⟨-, -, h3⟩ | ⟨-, -, -, h4⟩
    · exact (Format_of_ymd _ _ RFC3339_chunks hk1 s t h1).2.1
    · exact (Format_of_ymd _ _ layoutDate_chunks hk2 s t h2).2.1
    · exact (Format_of_ymd _ _ layoutDateTime_chunks hk3 s t h3).2.1
    · exact (Format_of_dayMonYear s t h4).2.1
  · rcases tryParseDate_ok_cases s t h with h1 | ⟨-, h2⟩ | ⟨-, -, h3⟩ | ⟨-, -, -, h4⟩
    · exact (Format_of_ymd _ _ RFC3339_chunks hk1 s t h1).2.2
    · exact (Format_of_ymd _ _ layoutDate_chunks hk2 s t h2).2.2
    · exact (Format_of_ymd _ _ layoutDateTime_chunks hk3 s t h3).2.2
    · exact (Format_of_dayMonYear s t h4).2.2
  · intro hsome
    rcases tryParseDate_ok_cases s t h with h1 | ⟨-, h2⟩ | ⟨-, -, h3⟩ | ⟨g1, g2, g3, -⟩
    · exact (Format_of_ymd _ _ RFC3339_chunks hk1 s t h1).1
    · exact (Format_of_ymd _ _ layoutDate_chunks hk2 s t h2).1
    · exact (Format_of_ymd _ _ layoutDateTime_chunks hk3 s t h3).1
    · rw [g1, g2, g3] at hsome
      simp at hsome
  · intro g1 g2 g3
    rcases tryParseDate_ok_cases s t h with h1 | ⟨-, h2⟩ | ⟨-, -, h3⟩ | ⟨-, -, -, h4⟩
    · rw [g1] at h1
      exact Option.noConfusion h1
    · rw [g2] at h2
      exact Option.noConfusion h2
    · rw [g3] at h3
      exact Option.noConfusion h3
    · exact (Format_of_dayMonYear s t h4).1

/-- C7 at an RFC 3339 value late in the evening, five hours west of UTC. -/
theorem formatValue_accepted_date_witness :
    formatValue (.string "2020-01-02T23:30:00-05:00")
        = Time.Format ⟨2020, 1, 2, 23, 30, 0, 0, -18000⟩ layoutDate ∧
      (formatValue (.string "2020-01-02T23:30:00-05:00")).data
        = "2020-01-02T23:30:00-05:00".data.take 10 :=
  have h := formatValue_accepted_date "2020-01-02T23:30:00-05:00"
    ⟨2020, 1, 2, 23, 30, 0, 0, -18000⟩ (by decide)
  ⟨h.1, h.2.2.2.2.1 (Or.inl (by decide))⟩

end parser

/-! ## Value formatting: numbers -/

namespace strconv

theorem digitChar_ne_e (n : Nat) : digitChar n ≠ 'e' := by
  have h : ∀ k : Nat, k < 10 → Char.ofNat (48 + k) ≠ 'e' := by decide
  exact h (n % 10) (Nat.mod_lt _ (by decide))

theorem digitAt_ne_e (digs : decimalSlice) (j : Int) : digitAt digs j ≠ 'e' := by
  unfold digitAt
  split
  · split
    · exact digitChar_ne_e _
    · decide
  · decide

theorem mem_fmtE (neg : Bool) (digs : decimalSlice) (prec : Int) :
    'e' ∈ fmtE neg digs prec 'e' := by
  simp [fmtE]

theorem not_mem_fmtF (neg : Bool) (digs : decimalSlice) (prec : Int) :
    'e' ∉ fmtF neg digs prec := by
  intro h
  simp only [fmtF, List.mem_append] at h
  rcases h with (h | h) | h
  · split at h
    · simp at h
    · simp at h
  · split at h
    · rcases List.mem_append.1 h with h1 | h1
      · obtain ⟨x, -, hx⟩ := List.mem_map.1 h1
        exact digitChar_ne_e _ hx
      · have h2 := List.eq_of_mem_replicate h1
        exact absurd h2 (by decide)
    · simp at h
  · split at h
    · rcases List.mem_cons.1 h with h1 | h1
      · exact absurd h1 (by decide)
      · obtain ⟨i, -, hi⟩ := List.mem_map.1 h1
        exact digitAt_ne_e _ _ hi
    · simp at h

theorem formatShortestG_exponent (f : Float64) :
    'e' ∈ formatShortestG f ↔ (f.digs.dp - 1 < -4 ∨ f.digs.dp - 1 ≥ 6) := by
  unfold formatShortestG
  simp only [if_true]
  constructor
  · intro h
    by_contra hcon
    rw [if_neg hcon] at h
    exact not_mem_fmtF _ _ _ h
  · intro h
    rw [if_pos h]
    exact mem_fmtE _ _ _

theorem formatShortestG_integer (f : Float64) (hpos : 0 < f.digs.dp) (hsmall : f.digs.dp ≤ 6)
    (hint : f.digs.nd ≤ f.digs.dp) :
    formatShortestG f =
      (if f.neg then ['-'] else []) ++ f.digs.d.map (fun x => digitChar x.val)
        ++ List.replicate (f.digs.dp - f.digs.nd).toNat '0' := by
  unfold formatShortestG
  have hexp : ¬ (f.digs.dp - 1 < -4 ∨ f.digs.dp - 1 ≥ 6) := by omega
  simp only [if_true, if_neg hexp]
  have hprec : ¬ (max ((if f.digs.nd > f.digs.dp then f.digs.nd else f.digs.nd) - f.digs.dp) 0 > 0) := by
    simp only [ite_self]
    omega
  have hmin : min f.digs.nd f.digs.dp = f.digs.nd := by omega
  have htake : f.digs.d.take f.digs.nd.toNat = f.digs.d := by
    simp [decimalSlice.nd]
  simp only [fmtF, if_pos hpos, if_neg hprec, hmin, htake, List.append_nil, List.append_assoc]

theorem castList (l : List Nat) :
    (do let a ← l; pure (a : Int) : List Int) = l.map (fun (a : Nat) => (a : Int)) := by
  induction l with
  | nil => rfl
  | cons x xs ih =>
      have h : (do let a ← (x :: xs); pure (a : Int) : List Int) =
          (x : Int) :: (do let a ← xs; pure (a : Int) : List Int) := rfl
      rw [h, ih]
      rfl

/-- The fraction loop of `fmtF` as a map over the indices. -/
theorem fraction_loop (digs : decimalSlice) (k : Int) (n : Nat) :
    List.map (fun i => digitAt digs (k + i)) (do let a ← List.range n; pure (a : Int)) =
      (List.range n).map (fun (i : Nat) => digitAt digs (k + (i : Int))) := by
  rw [castList, List.map_map]
  rfl

theorem digitAt_natCast (digs : decimalSlice) (j : Nat) :
    digitAt digs (j : Int) = ((digs.d.map (fun x => digitChar x.val))[j]?).getD '0' := by
  unfold digitAt
  by_cases hj : j < digs.d.length
  · have hcond : 0 ≤ (j : Int) ∧ (j : Int) < digs.nd := by
      simp only [decimalSlice.nd]
      omega
    rw [if_pos hcond]
    simp [List.getElem?_map, List.getElem?_eq_getElem hj]
  · have hcond : ¬ (0 ≤ (j : Int) ∧ (j : Int) < digs.nd) := by
      simp only [decimalSlice.nd]
      omega
    rw [if_neg hcond]
    simp [List.getElem?_map, List.getElem?_eq_none (Nat.le_of_not_lt hj)]

theorem digitAt_neg (digs : decimalSlice) (j : Int) (hj : j < 0) : digitAt digs j = '0' := by
  unfold digitAt
  rw [if_neg (by omega)]

/-- The fraction loop of `fmtF` when the decimal point lies inside the digits:
the digits after the point. -/
theorem range_digitAt_drop (digs : decimalSlice) (a n : Nat) (h : a + n = digs.d.length) :
    (List.range n).map (fun (i : Nat) => digitAt digs ((a : Int) + (i : Int))) =
      (digs.d.drop a).map (fun x => digitChar x.val) := by
  apply List.ext_getElem?
  intro i
  by_cases hi : i < n
  · have hlt : a + i < digs.d.length := by omega
    simp only [List.getElem?_map, List.getElem?_range hi, Option.map_some', List.getElem?_drop,
      List.getElem?_eq_getElem hlt]
    rw [show ((a : Int) + (i : Int)) = ((a + i : Nat) : Int) by push_cast; rfl, digitAt_natCast]
    simp [List.getElem?_map, List.getElem?_eq_getElem hlt]
  · have h1 : ((List.range n).map
        (fun (i : Nat) => digitAt digs ((a : Int) + (i : Int))))[i]? = none := by
      apply List.getElem?_eq_none
      simp only [List.length_map, List.length_range]
      omega
    have h2 : ((digs.d.drop a).map (fun x => digitChar x.val))[i]? = none := by
      apply List.getElem?_eq_none
      simp only [List.length_map, List.length_drop]
      omega
    rw [h1, h2]

/-- The fraction loop of `fmtF` when the decimal point lies in front of the
digits: the zeros between the point and the digits, then the digits. -/
theorem range_digitAt_zeros (digs : decimalSlice) (z : Nat) :
    (List.range (z + digs.d.length)).map
        (fun (i : Nat) => digitAt digs (-(z : Int) + (i : Int))) =
      List.replicate z '0' ++ digs.d.map (fun x => digitChar x.val) := by
  rw [List.range_add, List.map_append, List.map_map]
  congr 1
  · apply List.eq_replicate_iff.2
    refine ⟨by simp, ?_⟩
    intro c hc
    obtain ⟨i, hi, hci⟩ := List.mem_map.1 hc
    rw [List.mem_range] at hi
    rw [← hci]
    exact digitAt_neg digs _ (by omega)
  · have hfun : ((fun (i : Nat) => digitAt digs (-(z : Int) + (i : Int))) ∘ fun x => z + x) =
        (fun (i : Nat) => digitAt digs (((0 : Nat) : Int) + (i : Int))) := by
      funext i
      simp only [Function.comp]
      congr 1
      push_cast
      omega
    rw [hfun, range_digitAt_drop digs 0 digs.d.length (by omega)]
    rfl

theorem formatShortestG_fraction (f : Float64) (hpos : 0 < f.digs.dp) (hsmall : f.digs.dp ≤ 6)
    (hfrac : f.digs.dp < f.digs.nd) :
    formatShortestG f =
      (if f.neg then ['-'] else []) ++
        (f.digs.d.take f.digs.dp.toNat).map (fun x => digitChar x.val) ++
        '.' :: (f.digs.d.drop f.digs.dp.toNat).map (fun x => digitChar x.val) := by
  unfold formatShortestG
  have hexp : ¬ (f.digs.dp - 1 < -4 ∨ f.digs.dp - 1 ≥ 6) := by omega
  simp only [if_true, if_neg hexp]
  have hgt : f.digs.nd > f.digs.dp := hfrac
  have hmax : max (f.digs.nd - f.digs.dp) 0 = f.digs.nd - f.digs.dp := by omega
  have hprec : f.digs.nd - f.digs.dp > 0 := by omega
  have hmin : min f.digs.nd f.digs.dp = f.digs.dp := by omega
  have hdp : f.digs.dp = ((f.digs.dp.toNat : Nat) : Int) := by omega
  have hn : f.digs.dp.toNat + (f.digs.nd - f.digs.dp).toNat = f.digs.d.length := by
    simp only [decimalSlice.nd] at hfrac ⊢
    omega
  have hrange := range_digitAt_drop f.digs f.digs.dp.toNat (f.digs.nd - f.digs.dp).toNat hn
  rw [← hdp] at hrange
  simp only [fmtF, if_pos hpos, if_pos hgt, hmax, if_pos hprec, hmin, fraction_loop, hrange,
    sub_self,
    Int.toNat_zero, List.replicate_zero, List.append_nil, List.append_assoc]

theorem formatShortestG_leading_zeros (f : Float64) (hle : f.digs.dp ≤ 0)
    (hge : -3 ≤ f.digs.dp) (hnd : 0 < f.digs.nd) :
    formatShortestG f =
      (if f.neg then ['-'] else []) ++
        '0' :: '.' :: (List.replicate (-f.digs.dp).toNat '0' ++
          f.digs.d.map (fun x => digitChar x.val)) := by
  unfold formatShortestG
  have hexp : ¬ (f.digs.dp - 1 < -4 ∨ f.digs.dp - 1 ≥ 6) := by omega
  simp only [if_true, if_neg hexp]
  have hpos : ¬ f.digs.dp > 0 := by omega
  have hgt : f.digs.nd > f.digs.dp := by omega
  have hmax : max (f.digs.nd - f.digs.dp) 0 = f.digs.nd - f.digs.dp := by omega
  have hprec : f.digs.nd - f.digs.dp > 0 := by omega
  have hn : (f.digs.nd - f.digs.dp).toNat = (-f.digs.dp).toNat + f.digs.d.length := by
    simp only [decimalSlice.nd]
    omega
  have hdp : f.digs.dp = -(((-f.digs.dp).toNat : Nat) : Int) := by omega
  have hrange := range_digitAt_zeros f.digs (-f.digs.dp).toNat
  rw [← hdp] at hrange
  simp only [fmtF, if_neg hpos, if_pos hgt, hmax, if_pos hprec, hn, fraction_loop, hrange,
    List.append_assoc,
    List.singleton_append]

/-- The two or three digits of the exponent that `fmtE` writes. -/
theorem formatShortestG_exponent_form (f : Float64) (d0 : Fin 10) (rest : List (Fin 10))
    (hd : f.digs.d = d0 :: rest)
    (hexp : f.digs.dp - 1 < -4 ∨ f.digs.dp - 1 ≥ 6) :
    formatShortestG f =
      (if f.neg then ['-'] else []) ++
        digitChar d0.val ::
          ((if rest = [] then [] else '.' :: rest.map (fun x => digitChar x.val)) ++
            ['e', if f.digs.dp - 1 < 0 then '-' else '+'] ++
            (if (f.digs.dp - 1).natAbs < 10 then ['0', digitChar (f.digs.dp - 1).natAbs]
             else if (f.digs.dp - 1).natAbs < 100 then
               [digitChar ((f.digs.dp - 1).natAbs / 10), digitChar ((f.digs.dp - 1).natAbs % 10)]
             else [digitChar ((f.digs.dp - 1).natAbs / 100),
               digitChar ((f.digs.dp - 1).natAbs / 10 % 10),
               digitChar ((f.digs.dp - 1).natAbs % 10)])) := by
  unfold formatShortestG
  simp only [if_true, if_pos hexp]
  have hnd : f.digs.nd = (rest.length : Int) + 1 := by
    simp [decimalSlice.nd, hd]
  have hnd0 : ¬ f.digs.nd = 0 := by omega
  have hgt : ¬ f.digs.nd > f.digs.nd := by omega
  have hmin : min f.digs.nd (f.digs.nd - 1 + 1) = f.digs.nd := by omega
  have hfirst : digitAt f.digs 0 = digitChar d0.val := by
    have h0 := digitAt_natCast f.digs 0
    simp only [Nat.cast_zero] at h0
    rw [h0, hd]
    simp
  have htake : (f.digs.d.take f.digs.nd.toNat).drop 1 = rest := by
    rw [hnd, hd]
    have : ((rest.length : Int) + 1).toNat = rest.length + 1 := by omega
    rw [this]
    simp
  have hrep : (f.digs.nd - 1 + 1 - max f.digs.nd 1).toNat = 0 := by omega
  by_cases hrest : rest = []
  · have hprec : ¬ f.digs.nd - 1 > 0 := by
      rw [hnd, hrest]
      simp
    simp only [fmtE, if_neg hgt, if_neg hnd0, if_pos (show f.digs.nd ≠ 0 from hnd0), hfirst,
      if_neg hprec, if_pos hrest, List.append_nil, List.nil_append, List.append_assoc,
      List.singleton_append, List.cons_append]
  · have hprec : f.digs.nd - 1 > 0 := by
      rw [hnd]
      have : 0 < rest.length := List.length_pos.2 hrest
      omega
    simp only [fmtE, if_neg hgt, if_neg hnd0, if_pos (show f.digs.nd ≠ 0 from hnd0), hfirst,
      if_pos hprec, if_neg hrest, hmin, htake, hrep, List.replicate_zero, List.append_nil,
      List.nil_append, List.append_assoc, List.singleton_append, List.cons_append]

end strconv

namespace parser

/-- C8, as amended: `formatValue` prints a JSON number with the verb `%v`, as a
minimal decimal string: it writes the shortest decimal digits `d` that identify
the float64 and, beyond them, only the zeros that place the decimal point.  With
`X` the decimal exponent of the value (`d.ddd × 10^X`, `X = dp - 1`), the output
has an exponent exactly when `X < -4` or `X ≥ 6`.  Without exponent: an
integer-valued number is its digits, padded with zeros, without a fractional
part; a number with the point inside its digits is the digits with the point at
its place; a number below one is `0.`, the zeros up to the first digit, and the
digits; zero is 0.  With exponent: the first digit, the point and the other
digits if there are any, `e`, the sign of `X` and at least two digits of `X`. -/
theorem formatValue_number (f : strconv.Float64) :
    ('e' ∈ (formatValue (.number f)).data ↔ (f.digs.dp - 1 < -4 ∨ f.digs.dp - 1 ≥ 6)) ∧
    (0 ≤ f.digs.dp - 1 ∧ f.digs.dp - 1 < 6 ∧ f.digs.nd ≤ f.digs.dp →
      (formatValue (.number f)).data =
        (if f.neg then ['-'] else []) ++ f.digs.d.map (fun x => strconv.digitChar x.val)
          ++ List.replicate (f.digs.dp - f.digs.nd).toNat '0') ∧
    (f.digs = ⟨[], 0⟩ → (formatValue (.number f)).data = (if f.neg then ['-'] else []) ++ ['0']) ∧
    (0 ≤ f.digs.dp - 1 ∧ f.digs.dp - 1 < 6 ∧ f.digs.dp < f.digs.nd →
      (formatValue (.number f)).data =
        (if f.neg then ['-'] else []) ++
          (f.digs.d.take f.digs.dp.toNat).map (fun x => strconv.digitChar x.val) ++
          '.' :: (f.digs.d.drop f.digs.dp.toNat).map (fun x => strconv.digitChar x.val)) ∧
    (-4 ≤ f.digs.dp - 1 ∧ f.digs.dp - 1 < 0 ∧ 0 < f.digs.nd →
      (formatValue (.number f)).data =
        (if f.neg then ['-'] else []) ++
          '0' :: '.' :: (List.replicate (-f.digs.dp).toNat '0' ++
            f.digs.d.map (fun x => strconv.digitChar x.val))) ∧
    (∀ (d0 : Fin 10) (rest : List (Fin 10)), f.digs.d = d0 :: rest →
      (f.digs.dp - 1 < -4 ∨ f.digs.dp - 1 ≥ 6) →
      (formatValue (.number f)).data =
        (if f.neg then ['-'] else []) ++
          strconv.digitChar d0.val ::
            ((if rest = [] then [] else '.' :: rest.map (fun x => strconv.digitChar x.val)) ++
              ['e', if f.digs.dp - 1 < 0 then '-' else '+'] ++
              (if (f.digs.dp - 1).natAbs < 10 then
                 ['0', strconv.digitChar (f.digs.dp - 1).natAbs]
               else if (f.digs.dp - 1).natAbs < 100 then
                 [strconv.digitChar ((f.digs.dp - 1).natAbs / 10),
                  strconv.digitChar ((f.digs.dp - 1).natAbs % 10)]
               else [strconv.digitChar ((f.digs.dp - 1).natAbs / 100),
                 strconv.digitChar ((f.digs.dp - 1).natAbs / 10 % 10),
                 strconv.digitChar ((f.digs.dp - 1).natAbs % 10)]))) ∧
    formatValue (.number ⟨false, ⟨[1, 5], 1⟩⟩) = "1.5" ∧
    formatValue (.number ⟨true, ⟨[2, 5], -2⟩⟩) = "-0.0025" ∧
    formatValue (.number ⟨false, ⟨[1, 2, 3], 5⟩⟩) = "12300" := by
  have hdata : (formatValue (.number f)).data = strconv.formatShortestG f := rfl
  rw [hdata]
  refine ⟨strconv.formatShortestG_exponent f, ?_, ?_, ?_, ?_, ?_, by decide, by decide,
    by decide⟩
  · rintro ⟨h1, h2, h3⟩
    exact strconv.formatShortestG_integer f (by omega) (by omega) h3
  · intro hz
    cases hneg : f.neg <;> simp [strconv.formatShortestG, strconv.fmtF, strconv.decimalSlice.nd, hz, hneg]
  · rintro ⟨h1, h2, h3⟩
    exact strconv.formatShortestG_fraction f (by omega) (by omega) h3
  · rintro ⟨h1, h2, h3⟩
    exact strconv.formatShortestG_leading_zeros f (by omega) (by omega) h3
  · intro d0 rest hd hexp
    exact strconv.formatShortestG_exponent_form f d0 rest hd hexp

/-- C8 as stated fails: 1e21, 1e-7 and the integer 1234567 are printed in
exponent notation, the last one with a fractional part in its mantissa. -/
theorem formatValue_number_counterexample :
    formatValue (.number ⟨false, ⟨[1], 22⟩⟩) = "1e+21" ∧
    formatValue (.number ⟨false, ⟨[1], -6⟩⟩) = "1e-07" ∧
    formatValue (.number ⟨false, ⟨[1, 2, 3, 4, 5, 6, 7], 7⟩⟩) = "1.234567e+06" ∧
    'e' ∈ (formatValue (.number ⟨false, ⟨[1], 22⟩⟩)).data := by
  decide

end parser

/-! ## XML: lemmas about the flattening and the grouping -/

namespace parser

theorem get?_foldl_set (ws : List (String × String)) (m : GoMap String) (k : String) :
    GoMap.get? (ws.foldl (fun acc kv => GoMap.set acc kv.1 kv.2) m) k =
      match lastWrite ws k with
      | some v => some v
      | none => GoMap.get? m k := by
  induction ws generalizing m with
  | nil => simp [lastWrite]
  | cons w rest ih =>
      obtain ⟨k1, v1⟩ := w
      rw [List.foldl_cons, ih]
      simp only [lastWrite, List.reverse_cons, List.find?_append]
      cases hrest : rest.reverse.find? (fun kv => decide (kv.1 = k)) with
      | some kv => simp
      | none =>
          by_cases hk : k1 = k
          · subst hk
            simp [GoMap.get?_set]
          · have hk1 : ¬ k = k1 := fun h => hk h.symm
            simp [GoMap.get?_set, hk, hk1]

mutual
theorem flattenXMLNode_eq_writes : ∀ (node : xmlNode) (m : GoMap String),
    flattenXMLNode node m = (writes node).foldl (fun acc kv => GoMap.set acc kv.1 kv.2) m
  | .mk name attrs content nodes, m => by
      have hattrs : ∀ (l : List xmlAttr) (acc0 : GoMap String),
          l.foldl (fun acc attr => GoMap.set acc attr.Name.Local attr.Value) acc0 =
            (l.map (fun attr => (attr.Name.Local, attr.Value))).foldl
              (fun acc kv => GoMap.set acc kv.1 kv.2) acc0 := by
        intro l
        induction l with
        | nil => intro acc0; rfl
        | cons a rest ih => intro acc0; simp only [List.foldl_cons, List.map_cons, ih]
      simp only [flattenXMLNode, writes, List.foldl_append, hattrs]
      by_cases hleaf : nodes.length = 0
      · simp only [hleaf, if_true]
        by_cases htext : TrimSpace content ≠ ""
        · simp only [htext, if_true, ne_eq, not_false_eq_true, List.foldl_cons, List.foldl_nil]
        · simp only [htext, if_false, List.foldl_nil]
      · simp only [hleaf, if_false]
        exact flattenNodes_eq_writes nodes _
theorem flattenNodes_eq_writes : ∀ (nodes : List xmlNode) (m : GoMap String),
    flattenNodes nodes m =
      (writesOfNodes nodes).foldl (fun acc kv => GoMap.set acc kv.1 kv.2) m
  | [], m => by simp [flattenNodes, writesOfNodes]
  | child :: rest, m => by
      simp only [flattenNodes, writesOfNodes, List.foldl_append]
      rw [flattenXMLNode_eq_writes child m, flattenNodes_eq_writes rest]
end

end parser

namespace parser

/-- The map `childrenByName` after the grouping loop has run over `nodes`,
starting from `acc`: the entry of `k` is extended by the nodes named `k`. -/
theorem group_getD (nodes : List xmlNode) (acc : GoMap (List xmlNode)) (k : String) :
    (GoMap.get? (nodes.foldl (fun acc child => GoMap.set acc child.XMLName.Local
        ((GoMap.get? acc child.XMLName.Local).getD [] ++ [child])) acc) k).getD [] =
      (GoMap.get? acc k).getD [] ++
        nodes.filter (fun child => decide (child.XMLName.Local = k)) := by
  induction nodes generalizing acc with
  | nil => simp
  | cons c rest ih =>
      rw [List.foldl_cons, ih, GoMap.get?_set]
      by_cases hk : k = c.XMLName.Local
      · subst hk
        simp [List.filter_cons]
      · have hk1 : ¬ c.XMLName.Local = k := fun h => hk h.symm
        simp [List.filter_cons, hk, hk1]

theorem group_mem_keys (nodes : List xmlNode) (acc : GoMap (List xmlNode)) (k : String) :
    k ∈ GoMap.keys (nodes.foldl (fun acc child => GoMap.set acc child.XMLName.Local
        ((GoMap.get? acc child.XMLName.Local).getD [] ++ [child])) acc) ↔
      k ∈ GoMap.keys acc ∨ ∃ child ∈ nodes, child.XMLName.Local = k := by
  induction nodes generalizing acc with
  | nil => simp
  | cons c rest ih =>
      rw [List.foldl_cons, ih, GoMap.mem_keys_set]
      constructor
      · rintro ((h | h) | ⟨child, hc, hn⟩)
        · exact Or.inr ⟨c, List.mem_cons_self _ _, h.symm⟩
        · exact Or.inl h
        · exact Or.inr ⟨child, List.mem_cons_of_mem _ hc, hn⟩
      · rintro (h | ⟨child, hc, hn⟩)
        · exact Or.inl (Or.inr h)
        · rcases List.mem_cons.1 hc with h1 | h1
          · subst h1
            exact Or.inl (Or.inl hn.symm)
          · exact Or.inr ⟨child, h1, hn⟩

/-- An entry of `childrenByName` holds the children with that name, in document
order. -/
theorem group_get?_some (nodes : List xmlNode) (k : String) (l : List xmlNode)
    (h : GoMap.get? (nodes.foldl (fun acc child => GoMap.set acc child.XMLName.Local
        ((GoMap.get? acc child.XMLName.Local).getD [] ++ [child])) []) k = some l) :
    l = nodes.filter (fun child => decide (child.XMLName.Local = k)) := by
  have hg := group_getD nodes [] k
  rw [h] at hg
  simpa [GoMap.get?] using hg

theorem group_get?_of_occurs (nodes : List xmlNode) (k : String)
    (h : (nodes.filter (fun child => decide (child.XMLName.Local = k))) ≠ []) :
    GoMap.get? (nodes.foldl (fun acc child => GoMap.set acc child.XMLName.Local
        ((GoMap.get? acc child.XMLName.Local).getD [] ++ [child])) []) k =
      some (nodes.filter (fun child => decide (child.XMLName.Local = k))) := by
  cases hget : GoMap.get? (nodes.foldl (fun acc child => GoMap.set acc child.XMLName.Local
        ((GoMap.get? acc child.XMLName.Local).getD [] ++ [child])) []) k with
  | some l => rw [group_get?_some nodes k l hget]
  | none =>
      have hg := group_getD nodes [] k
      rw [hget] at hg
      simp only [Option.getD_none, GoMap.get?, List.nil_append] at hg
      exact absurd hg.symm h

/-- C9: for every decoded XML tree (and every legal visiting order of the map of
children): if exactly one tag name occurs more than once among the immediate
children of the root, `ParseXML` returns one flattened record per occurrence of
that tag, in document order, and ignores the other children; if no tag name
occurs more than once, it returns exactly one record, the flattening of the
root. -/
theorem ParseXML_records (unmarshal : List UInt8 → Except String xmlNode)
    (ord : List String → List String) (hord : RangeOrder ord) (data : List UInt8)
    (root : xmlNode) (hdec : unmarshal data = .ok root) :
    (∀ name : String, occurrences root name > 1 →
      (∀ other : String, occurrences root other > 1 → other = name) →
      ParseXML unmarshal ord data =
        .ok ((root.Nodes.filter (fun child => decide (child.XMLName.Local = name))).map
          (fun node => flattenXMLNode node []))) ∧
    ((∀ name : String, occurrences root name ≤ 1) →
      ParseXML unmarshal ord data = .ok [flattenXMLNode root []]) := by
  have hmem : ∀ x ∈ (ord (GoMap.keys (root.Nodes.foldl
      (fun acc child => GoMap.set acc child.XMLName.Local
        ((GoMap.get? acc child.XMLName.Local).getD [] ++ [child])) []))).filterMap
      (GoMap.get? (root.Nodes.foldl
      (fun acc child => GoMap.set acc child.XMLName.Local
        ((GoMap.get? acc child.XMLName.Local).getD [] ++ [child])) [])),
      ∃ k, x = root.Nodes.filter (fun child => decide (child.XMLName.Local = k)) := by
    intro x hx
    obtain ⟨k, -, hk⟩ := List.mem_filterMap.1 hx
    exact ⟨k, group_get?_some _ k x hk⟩
  constructor
  · intro name hrep huniq
    have hne : root.Nodes.filter (fun child => decide (child.XMLName.Local = name)) ≠ [] := by
      intro h0
      simp only [occurrences, h0, List.length_nil] at hrep
      omega
    have hin : root.Nodes.filter (fun child => decide (child.XMLName.Local = name)) ∈
        (ord (GoMap.keys (root.Nodes.foldl
          (fun acc child => GoMap.set acc child.XMLName.Local
            ((GoMap.get? acc child.XMLName.Local).getD [] ++ [child])) []))).filterMap
          (GoMap.get? (root.Nodes.foldl
          (fun acc child => GoMap.set acc child.XMLName.Local
            ((GoMap.get? acc child.XMLName.Local).getD [] ++ [child])) [])) := by
      refine List.mem_filterMap.2 ⟨name, ?_, group_get?_of_occurs _ name hne⟩
      rw [(hord _).mem_iff, group_mem_keys]
      obtain ⟨c, hc⟩ := List.exists_mem_of_ne_nil _ hne
      rw [List.mem_filter] at hc
      exact Or.inr ⟨c, hc.1, by simpa using hc.2⟩
    simp only [ParseXML, hdec]
    split
    · rename_i nodes hfind
      have hp := List.find?_some hfind
      obtain ⟨k, hk⟩ := hmem nodes (List.mem_of_find?_eq_some hfind)
      have hkname : k = name := by
        apply huniq
        simp only [occurrences, ← hk]
        simpa using hp
      rw [hk, hkname]
    · rename_i hfind
      have hnone := List.find?_eq_none.1 hfind _ hin
      simp only [occurrences] at hrep
      simp at hnone
      omega
  · intro hall
    simp only [ParseXML, hdec]
    split
    · rename_i nodes hfind
      have hp := List.find?_some hfind
      obtain ⟨k, hk⟩ := hmem nodes (List.mem_of_find?_eq_some hfind)
      have hle := hall k
      simp only [occurrences, ← hk] at hle
      simp at hp
      omega
    · rfl

/-- C9 at `<list><item>a</item><note>n</note><item>b</item></list>`, the map of
children being visited in reverse storage order: the two items are the records. -/
theorem ParseXML_records_witness :
    ParseXML (fun _ => .ok sampleList) List.reverse [] =
      .ok [[("item", "a")], [("item", "b")]] :=
  ((ParseXML_records (fun _ => .ok sampleList) List.reverse (fun ks => List.reverse_perm ks) []
    sampleList rfl).1 "item" (by decide)
    (by
      intro other hother
      by_contra hne
      have hne1 : ¬ "item" = other := fun h => hne h.symm
      have hnote : occurrences sampleList other ≤ 1 := by
        by_cases hn : "note" = other
        · subst hn
          decide
        · simp [occurrences, sampleList, xmlNode.Nodes, xmlNode.XMLName, List.filter, hne1, hn]
      omega)).trans (by decide)

theorem lastWrite_of_split (before after : List (String × String)) (k v : String)
    (h : k ∉ after.map Prod.fst) : lastWrite (before ++ (k, v) :: after) k = some v := by
  have hnone : after.reverse.find? (fun kv => decide (kv.1 = k)) = none := by
    apply List.find?_eq_none.2
    intro kv hkv
    rw [List.mem_reverse] at hkv
    intro hk
    simp only [decide_eq_true_eq] at hk
    exact h (List.mem_map.2 ⟨kv, hkv, hk⟩)
  simp [lastWrite, List.reverse_append, List.find?_append, hnone]

mutual
/-- The writes of a node of the subtree are a contiguous part of the writes of
the whole node. -/
theorem writes_of_subtree : ∀ (node n : xmlNode), n ∈ subtree node →
    ∃ before after, writes node = before ++ writes n ++ after
  | .mk name attrs content nodes, n, hn => by
      simp only [subtree, List.mem_cons] at hn
      rcases hn with h | h
      · exact ⟨[], [], by rw [h]; simp⟩
      · obtain ⟨before, after, e⟩ := writesOfNodes_of_subtree nodes n h
        have hne : ¬ nodes.length = 0 := by
          intro h0
          rw [List.length_eq_zero.1 h0] at h
          simp [subtreeOfNodes] at h
        exact ⟨attrs.map (fun attr => (attr.Name.Local, attr.Value)) ++ before, after, by
          simp [writes, hne, e]⟩
theorem writesOfNodes_of_subtree : ∀ (nodes : List xmlNode) (n : xmlNode),
    n ∈ subtreeOfNodes nodes → ∃ before after, writesOfNodes nodes = before ++ writes n ++ after
  | [], n, hn => by simp [subtreeOfNodes] at hn
  | child :: rest, n, hn => by
      simp only [subtreeOfNodes, List.mem_append] at hn
      rcases hn with h | h
      · obtain ⟨before, after, e⟩ := writes_of_subtree child n h
        exact ⟨before, after ++ writesOfNodes rest, by simp [writesOfNodes, e]⟩
      · obtain ⟨before, after, e⟩ := writesOfNodes_of_subtree rest n h
        exact ⟨writes child ++ before, after, by simp [writesOfNodes, e]⟩
end

/-- A childless node of the subtree with non-empty trimmed text has its write in
the writes of the whole node. -/
theorem leaf_write_of_subtree (node leaf : xmlNode) (hleaf : leaf ∈ subtree node)
    (hnodes : leaf.Nodes = []) (htext : TrimSpace leaf.Content ≠ "") :
    ∃ before after,
      writes node = before ++ (leaf.XMLName.Local, TrimSpace leaf.Content) :: after := by
  obtain ⟨before, after, e⟩ := writes_of_subtree node leaf hleaf
  obtain ⟨name, attrs, content, nodes⟩ := leaf
  simp only [xmlNode.Nodes] at hnodes
  simp only [xmlNode.Content] at htext
  subst hnodes
  refine ⟨before ++ attrs.map (fun attr => (attr.Name.Local, attr.Value)), after, ?_⟩
  rw [e]
  simp [writes, htext, xmlNode.XMLName, xmlNode.Content]

/-- C10, as amended: for every XML node, the record produced by `flattenXMLNode`
is the result of the writes of the pre-order traversal (attributes of a node
first, in attribute order, then its trimmed non-empty text if it is a leaf, else
its children in document order) applied in that order to the map, so each key
holds the value written last.  Every leaf element of the subtree with non-empty
text has its write in that sequence, and a write of `k` that no later write of
`k` follows gives the value of `k`: for a node with an attribute `k` and a later
leaf descendant `k` with non-empty text the value of `k` is the text of the
element when nothing writes `k` after that element, as in
`<r id="1"><id>2</id></r>`. -/
theorem flattenXMLNode_last_write (node : xmlNode) (m : GoMap String) (k : String) :
    flattenXMLNode node m = (writes node).foldl (fun acc kv => GoMap.set acc kv.1 kv.2) m ∧
    GoMap.get? (flattenXMLNode node m) k =
      (match lastWrite (writes node) k with
      | some v => some v
      | none => GoMap.get? m k) ∧
    GoMap.get? (flattenXMLNode node []) k = lastWrite (writes node) k ∧
    (∀ (before after : List (String × String)) (v : String),
      writes node = before ++ (k, v) :: after → k ∉ after.map Prod.fst →
      GoMap.get? (flattenXMLNode node m) k = some v) ∧
    (∀ leaf ∈ subtree node, leaf.Nodes = [] → TrimSpace leaf.Content ≠ "" →
      leaf.XMLName.Local = k →
      ∃ before after, writes node = before ++ (k, TrimSpace leaf.Content) :: after ∧
        (k ∉ after.map Prod.fst →
          GoMap.get? (flattenXMLNode node m) k = some (TrimSpace leaf.Content))) ∧
    (∀ (name : xmlName) (attrs : List xmlAttr) (content space text : String),
      TrimSpace text ≠ "" →
      GoMap.get? (flattenXMLNode (.mk name attrs content [.mk ⟨space, k⟩ [] text []]) m) k =
        some (TrimSpace text)) ∧
    GoMap.get? (flattenXMLNode sampleCollision []) "id" = some "2" := by
  have hsplit : ∀ (before after : List (String × String)) (v : String),
      writes node = before ++ (k, v) :: after → k ∉ after.map Prod.fst →
      GoMap.get? (flattenXMLNode node m) k = some v := by
    intro before after v hw hk
    rw [flattenXMLNode_eq_writes, get?_foldl_set, hw, lastWrite_of_split before after k v hk]
  refine ⟨flattenXMLNode_eq_writes node m, ?_, ?_, hsplit, ?_, ?_, by decide⟩
  · rw [flattenXMLNode_eq_writes, get?_foldl_set]
  · rw [flattenXMLNode_eq_writes, get?_foldl_set]
    cases lastWrite (writes node) k <;> rfl
  · intro leaf hleaf hnodes htext hname
    obtain ⟨before, after, e⟩ := leaf_write_of_subtree node leaf hleaf hnodes htext
    rw [hname] at e
    exact ⟨before, after, e, hsplit before after _ e⟩
  · intro name attrs content space text htext
    rw [flattenXMLNode_eq_writes, get?_foldl_set]
    simp [writes, writesOfNodes, lastWrite, htext]

/-- C10 as stated fails at `<r id="1"><id>2</id><x id="3"/></r>`: the root has the
attribute `id`, the leaf element `id` with the text 2 comes later, and still the
value of `id` is 3, written by the attribute of the element `x` that follows. -/
theorem flattenXMLNode_later_write_counterexample :
    sampleOverwrite.Attrs.map (fun attr => attr.Name.Local) = ["id"] ∧
    (subtree sampleOverwrite).map
        (fun n => (n.XMLName.Local, n.Nodes.length, TrimSpace n.Content)) =
      [("r", 2, ""), ("id", 0, "2"), ("x", 0, "")] ∧
    writes sampleOverwrite = [("id", "1"), ("id", "2"), ("id", "3")] ∧
    GoMap.get? (flattenXMLNode sampleOverwrite []) "id" = some "3" ∧
    GoMap.get? (flattenXMLNode sampleOverwrite []) "id" ≠ some "2" := by
  decide

end parser

/-! ## XML: which keys a flattened record has -/

namespace parser

theorem mem_keys_foldl_writes (ws : List (String × String)) (m : GoMap String) (k : String) :
    k ∈ GoMap.keys (ws.foldl (fun acc kv => GoMap.set acc kv.1 kv.2) m) ↔
      k ∈ GoMap.keys m ∨ k ∈ ws.map Prod.fst := by
  induction ws generalizing m with
  | nil => simp
  | cons w rest ih =>
      rw [List.foldl_cons, ih, GoMap.mem_keys_set]
      simp only [List.map_cons, List.mem_cons]
      tauto

/-- What one node writes by itself: the local names of its attributes, and its
own local name when it has no children and its trimmed text is not empty. -/
theorem mem_own_writes (name : xmlName) (attrs : List xmlAttr) (content : String)
    (nodes : List xmlNode) (k : String) :
    (k ∈ (attrs.map (fun attr => (attr.Name.Local, attr.Value))).map Prod.fst ∨
        (nodes.length = 0 ∧ TrimSpace content ≠ "" ∧ name.Local = k)) ↔
      ((∃ attr ∈ (xmlNode.mk name attrs content nodes).Attrs, attr.Name.Local = k) ∨
        ((xmlNode.mk name attrs content nodes).Nodes = [] ∧
          TrimSpace (xmlNode.mk name attrs content nodes).Content ≠ "" ∧
          (xmlNode.mk name attrs content nodes).XMLName.Local = k)) := by
  simp only [xmlNode.Attrs, xmlNode.Nodes, xmlNode.Content, xmlNode.XMLName, List.map_map,
    List.mem_map, Function.comp, List.length_eq_zero]

mutual
theorem mem_writes_iff : ∀ (node : xmlNode) (k : String),
    k ∈ (writes node).map Prod.fst ↔
      ∃ n ∈ subtree node, (∃ attr ∈ n.Attrs, attr.Name.Local = k) ∨
        (n.Nodes = [] ∧ TrimSpace n.Content ≠ "" ∧ n.XMLName.Local = k)
  | .mk name attrs content nodes, k => by
      have hown := mem_own_writes name attrs content nodes k
      have hkids := mem_writesOfNodes_iff nodes k
      simp only [writes, subtree, List.map_append, List.mem_append, List.mem_cons,
        exists_eq_or_imp]
      by_cases hleaf : nodes.length = 0
      · have hnil : nodes = [] := List.length_eq_zero.1 hleaf
        subst hnil
        rw [← hown]
        by_cases htext : TrimSpace content ≠ ""
        · simp [htext, subtreeOfNodes]
          constructor
          · rintro (h | h)
            · exact Or.inl h
            · exact Or.inr h.symm
          · rintro (h | h)
            · exact Or.inl h
            · exact Or.inr h.symm
        · simp [htext, subtreeOfNodes]
      · rw [← hown, ← hkids]
        simp [hleaf]
theorem mem_writesOfNodes_iff : ∀ (nodes : List xmlNode) (k : String),
    k ∈ (writesOfNodes nodes).map Prod.fst ↔
      ∃ n ∈ subtreeOfNodes nodes, (∃ attr ∈ n.Attrs, attr.Name.Local = k) ∨
        (n.Nodes = [] ∧ TrimSpace n.Content ≠ "" ∧ n.XMLName.Local = k)
  | [], k => by simp [writesOfNodes, subtreeOfNodes]
  | child :: rest, k => by
      have h1 := mem_writes_iff child k
      have h2 := mem_writesOfNodes_iff rest k
      simp only [writesOfNodes, subtreeOfNodes, List.map_append, List.mem_append, h1, h2]
      constructor
      · rintro (⟨n, hn, hc⟩ | ⟨n, hn, hc⟩)
        · exact ⟨n, Or.inl hn, hc⟩
        · exact ⟨n, Or.inr hn, hc⟩
      · rintro ⟨n, hn | hn, hc⟩
        · exact Or.inl ⟨n, hn, hc⟩
        · exact Or.inr ⟨n, hn, hc⟩
end

/-- C11: for every XML node flattened into an empty record, a key is in the
record if and only if it is the local name of an attribute of some node of the
subtree, or the local tag name of a childless node of the subtree whose trimmed
text is not empty.  The text of a node that has children is not used (any other
text gives the same record), and a childless node whose text is empty or blank
adds nothing beyond its attributes, so no entry for its tag name. -/
theorem flattenXMLNode_keys (node : xmlNode) (k : String) :
    (k ∈ GoMap.keys (flattenXMLNode node []) ↔
      ((∃ n ∈ subtree node, ∃ attr ∈ n.Attrs, attr.Name.Local = k) ∨
        (∃ n ∈ subtree node, n.Nodes = [] ∧ TrimSpace n.Content ≠ "" ∧
          n.XMLName.Local = k))) ∧
    (∀ (name : xmlName) (attrs : List xmlAttr) (content other : String)
        (child : xmlNode) (rest : List xmlNode) (m : GoMap String),
      flattenXMLNode (.mk name attrs content (child :: rest)) m =
        flattenXMLNode (.mk name attrs other (child :: rest)) m) ∧
    (∀ (name : xmlName) (attrs : List xmlAttr) (content : String) (m : GoMap String),
      TrimSpace content = "" →
      flattenXMLNode (.mk name attrs content []) m =
        attrs.foldl (fun acc attr => GoMap.set acc attr.Name.Local attr.Value) m) ∧
    GoMap.keys (flattenXMLNode sampleMixed []) = ["a", "y"] := by
  refine ⟨?_, ?_, ?_, by decide⟩
  · rw [flattenXMLNode_eq_writes, mem_keys_foldl_writes, mem_writes_iff]
    constructor
    · rintro (h | ⟨n, hn, hattr | hleaf⟩)
      · simp [GoMap.keys] at h
      · exact Or.inl ⟨n, hn, hattr⟩
      · exact Or.inr ⟨n, hn, hleaf⟩
    · rintro (⟨n, hn, hattr⟩ | ⟨n, hn, hleaf⟩)
      · exact Or.inr ⟨n, hn, Or.inl hattr⟩
      · exact Or.inr ⟨n, hn, Or.inr hleaf⟩
  · intro name attrs content other child rest m
    simp [flattenXMLNode]
  · intro name attrs content m htext
    simp [flattenXMLNode, htext]

end parser

/-! ## XML to table -/

namespace parser

/-- `ParseXML` fails exactly when the decoder fails, and a successful call
returns at least one record. -/
theorem ParseXML_cases (unmarshal : List UInt8 → Except String xmlNode)
    (ord : List String → List String) (data : List UInt8) :
    (∀ err, unmarshal data = .error err →
      ParseXML unmarshal ord data = .error (.error err)) ∧
    (∀ root, unmarshal data = .ok root →
      ∃ maps, ParseXML unmarshal ord data = .ok maps ∧ maps ≠ []) := by
  constructor
  · intro err herr
    simp only [ParseXML, herr]
  · intro root hroot
    simp only [ParseXML, hroot]
    split
    · rename_i nodes hfind
      have hp := List.find?_some hfind
      refine ⟨_, rfl, ?_⟩
      intro hnil
      have hlen := congrArg List.length hnil
      simp only [List.length_map, List.length_nil] at hlen
      simp only [decide_eq_true_eq] at hp
      omega
    · exact ⟨_, rfl, by simp⟩

theorem mem_keys_collectKeys (ordRecord : Nat → List String → List String)
    (maps : List (GoMap String)) (i0 : Nat) (acc0 : GoMap Unit) (x : String) :
    x ∈ GoMap.keys (collectKeys ordRecord i0 maps acc0) ↔
      x ∈ GoMap.keys acc0 ∨
        ∃ (j : Nat) (m : GoMap String), maps[j]? = some m ∧
          x ∈ ordRecord (i0 + j) (GoMap.keys m) := by
  induction maps generalizing i0 acc0 with
  | nil => simp [collectKeys]
  | cons m rest ih =>
      rw [collectKeys, ih, GoMap.mem_keys_foldl_set]
      constructor
      · rintro ((h | h) | ⟨j, m1, hj, hx⟩)
        · exact Or.inr ⟨0, m, by simp, by simpa using h⟩
        · exact Or.inl h
        · exact Or.inr ⟨j + 1, m1, by simpa using hj, by
            rw [show i0 + (j + 1) = i0 + 1 + j by omega]
            exact hx⟩
      · rintro (h | ⟨j, m1, hj, hx⟩)
        · exact Or.inl (Or.inr h)
        · cases j with
          | zero =>
              simp only [List.getElem?_cons_zero, Option.some.injEq] at hj
              subst hj
              exact Or.inl (Or.inl (by simpa using hx))
          | succ j1 =>
              simp only [List.getElem?_cons_succ] at hj
              exact Or.inr ⟨j1, m1, hj, by
                rw [show i0 + 1 + j1 = i0 + (j1 + 1) by omega]
                exact hx⟩

theorem nodup_keys_collectKeys (ordRecord : Nat → List String → List String)
    (maps : List (GoMap String)) (i0 : Nat) (acc0 : GoMap Unit)
    (h : (GoMap.keys acc0).Nodup) :
    (GoMap.keys (collectKeys ordRecord i0 maps acc0)).Nodup := by
  induction maps generalizing i0 acc0 with
  | nil => simpa [collectKeys] using h
  | cons m rest ih =>
      rw [collectKeys]
      exact ih _ _ (GoMap.nodup_keys_foldl_set _ _ h)

/-- The table of `ConvertXMLTo2D` once `ParseXML` has returned its records. -/
theorem ConvertXMLTo2D_of_records (unmarshal : List UInt8 → Except String xmlNode)
    (ordChildren : List String → List String)
    (ordRecord : Nat → List String → List String)
    (ordHeaders : List String → List String) (data : List UInt8)
    (maps : List (GoMap String))
    (h : ParseXML unmarshal ordChildren data = .ok maps) :
    ConvertXMLTo2D unmarshal ordChildren ordRecord ordHeaders data =
      .ok (ordHeaders (GoMap.keys (collectKeys ordRecord 0 maps [])) ::
        maps.map (fun m =>
          (ordHeaders (GoMap.keys (collectKeys ordRecord 0 maps []))).map
            (fun name =>
              match GoMap.get? m name with
              | some val => formatValue (.string val)
              | none => ""))) := by
  have hne : maps ≠ [] := by
    cases hdec : unmarshal data with
    | error err =>
        rw [(ParseXML_cases unmarshal ordChildren data).1 err hdec] at h
        exact Except.noConfusion h
    | ok root =>
        obtain ⟨maps1, h1, hne1⟩ := (ParseXML_cases unmarshal ordChildren data).2 root hdec
        rw [h1] at h
        injection h with h2
        rw [← h2]
        exact hne1
  have hlen : ¬ maps.length = 0 := fun h0 => hne (List.length_eq_zero.1 h0)
  simp only [ConvertXMLTo2D, h, if_neg hlen]

/-- C12: for every list of flattened records returned by `ParseXML` (and all
legal visiting orders of the maps, one for the map of children, one for each
record and one for the header set), `ConvertXMLTo2D` returns a header row that is
the duplicate-free union of the keys of the records, followed by one data row
per record, in order; every data row has the length of the header row, and cell
`(r, i)` is `formatValue` of the value of record `r` for header `i` when the
record has that key (a date-like text becomes `YYYY-MM-DD`), and the empty string
otherwise. -/
theorem ConvertXMLTo2D_table (unmarshal : List UInt8 → Except String xmlNode)
    (ordChildren : List String → List String)
    (ordRecord : Nat → List String → List String)
    (ordHeaders : List String → List String)
    (hrecord : ∀ i : Nat, RangeOrder (ordRecord i)) (hheaders : RangeOrder ordHeaders)
    (data : List UInt8) (maps : List (GoMap String))
    (h : ParseXML unmarshal ordChildren data = .ok maps) :
    ∃ headers rows,
      ConvertXMLTo2D unmarshal ordChildren ordRecord ordHeaders data = .ok (headers :: rows) ∧
      headers.Nodup ∧
      (∀ name : String, name ∈ headers ↔ ∃ m ∈ maps, name ∈ GoMap.keys m) ∧
      rows.length = maps.length ∧
      ∀ (r : Nat) (m : GoMap String), maps[r]? = some m →
        ∃ row, rows[r]? = some row ∧ row.length = headers.length ∧
          ∀ (i : Nat) (name : String), headers[i]? = some name →
            (∀ val, GoMap.get? m name = some val →
              row[i]? = some (formatValue (.string val))) ∧
            (GoMap.get? m name = none → row[i]? = some "") := by
  refine ⟨_, _,
    ConvertXMLTo2D_of_records unmarshal ordChildren ordRecord ordHeaders data maps h,
    ?_, ?_, ?_, ?_⟩
  · exact (hheaders _).nodup_iff.2 (nodup_keys_collectKeys ordRecord maps 0 [] List.nodup_nil)
  · intro name
    rw [(hheaders _).mem_iff, mem_keys_collectKeys]
    constructor
    · rintro (h1 | ⟨j, m, hj, hx⟩)
      · simp [GoMap.keys] at h1
      · exact ⟨m, List.getElem?_mem hj, ((hrecord _) _).mem_iff.1 hx⟩
    · rintro ⟨m, hm, hx⟩
      obtain ⟨j, hj⟩ := List.getElem?_of_mem hm
      exact Or.inr ⟨j, m, hj, ((hrecord _) _).mem_iff.2 hx⟩
  · simp
  · intro r m hr
    refine ⟨_, by rw [List.getElem?_map, hr]; rfl, by simp, ?_⟩
    intro i name hname
    constructor
    · intro val hval
      simp [List.getElem?_map, hname, hval]
    · intro hnone
      simp [List.getElem?_map, hname, hnone]

/-- C12 at `<log><e at="1">02-Jan-2020</e><e>x</e></log>`: the map of children and
the records are visited in storage order, the header set in reverse storage
order; the date text of the first record is normalised. -/
theorem ConvertXMLTo2D_table_witness :
    ConvertXMLTo2D (fun _ => .ok sampleDated) id (fun _ => id) List.reverse [] =
        .ok [["e", "at"], ["2020-01-02", "1"], ["x", ""]] ∧
    ∃ headers rows,
      ConvertXMLTo2D (fun _ => .ok sampleDated) id (fun _ => id) List.reverse [] =
        .ok (headers :: rows) ∧
      headers.Nodup ∧
      (∀ name : String, name ∈ headers ↔
        ∃ m ∈ [[("at", "1"), ("e", "02-Jan-2020")], [("e", "x")]], name ∈ GoMap.keys m) ∧
      rows.length = [[("at", "1"), ("e", "02-Jan-2020")], [("e", "x")]].length ∧
      ∀ (r : Nat) (m : GoMap String),
        [[("at", "1"), ("e", "02-Jan-2020")], [("e", "x")]][r]? = some m →
        ∃ row, rows[r]? = some row ∧ row.length = headers.length ∧
          ∀ (i : Nat) (name : String), headers[i]? = some name →
            (∀ val, GoMap.get? m name = some val →
              row[i]? = some (formatValue (.string val))) ∧
            (GoMap.get? m name = none → row[i]? = some "") :=
  ⟨by decide,
    ConvertXMLTo2D_table (fun _ => .ok sampleDated) id (fun _ => id) List.reverse
      (fun _ ks => List.Perm.refl ks) (fun ks => List.reverse_perm ks) []
      [[("at", "1"), ("e", "02-Jan-2020")], [("e", "x")]] (by decide)⟩

/-- The ranges are independent: for `<r><a a="1" b="2"/><b/><a a="3" b="4"/><b/></r>`
the map of children can be visited as `a`, `b` and the header set as `b`, `a`,
although both maps have the keys `a` and `b`. -/
theorem ConvertXMLTo2D_independent_orders :
    ConvertXMLTo2D (fun _ => .ok sampleSameNames) id (fun _ => id) List.reverse [] =
      .ok [["b", "a"], ["2", "1"], ["4", "3"]] := by
  decide

/-- C17: for every XML document that decodes, `ParseXML` returns at least one
record (one empty record for `<root/>`), so `ConvertXMLTo2D` returns a table and
never reaches its "no XML data found" branch; `ParseXML` and `ConvertXMLTo2D`
fail only when decoding fails, with the error of the decoder.  This holds for
all visiting orders of the maps. -/
theorem ConvertXMLTo2D_fails_only_on_decoding (unmarshal : List UInt8 → Except String xmlNode)
    (ordChildren : List String → List String)
    (ordRecord : Nat → List String → List String)
    (ordHeaders : List String → List String) (data : List UInt8) :
    (∀ root, unmarshal data = .ok root →
      (∃ maps, ParseXML unmarshal ordChildren data = .ok maps ∧ maps ≠ []) ∧
      ∃ table, ConvertXMLTo2D unmarshal ordChildren ordRecord ordHeaders data = .ok table) ∧
    (∀ err, unmarshal data = .error err →
      ParseXML unmarshal ordChildren data = .error (.error err) ∧
      ConvertXMLTo2D unmarshal ordChildren ordRecord ordHeaders data = .error (.error err)) ∧
    ((∃ e, ConvertXMLTo2D unmarshal ordChildren ordRecord ordHeaders data = .error e) ↔
      ∃ err, unmarshal data = .error err) ∧
    ParseXML (fun _ => .ok sampleEmpty) ordChildren [] = .ok [[]] := by
  have hok : ∀ root, unmarshal data = .ok root →
      (∃ maps, ParseXML unmarshal ordChildren data = .ok maps ∧ maps ≠ []) ∧
      ∃ table,
        ConvertXMLTo2D unmarshal ordChildren ordRecord ordHeaders data = .ok table := by
    intro root hroot
    obtain ⟨maps, hmaps, hne⟩ := (ParseXML_cases unmarshal ordChildren data).2 root hroot
    exact ⟨⟨maps, hmaps, hne⟩, _,
      ConvertXMLTo2D_of_records unmarshal ordChildren ordRecord ordHeaders data maps hmaps⟩
  have herr : ∀ err, unmarshal data = .error err →
      ParseXML unmarshal ordChildren data = .error (.error err) ∧
      ConvertXMLTo2D unmarshal ordChildren ordRecord ordHeaders data =
        .error (.error err) := by
    intro err he
    have hp := (ParseXML_cases unmarshal ordChildren data).1 err he
    exact ⟨hp, by simp only [ConvertXMLTo2D, hp]⟩
  refine ⟨hok, herr, ?_, ?_⟩
  · constructor
    · rintro ⟨e, he⟩
      cases hdec : unmarshal data with
      | error err => exact ⟨err, rfl⟩
      | ok root =>
          obtain ⟨-, table, htable⟩ := hok root hdec
          rw [htable] at he
          exact Except.noConfusion he
    · rintro ⟨err, he⟩
      exact ⟨_, (herr err he).2⟩
  · have hnone : ∀ ks : List String,
        ks.filterMap (GoMap.get? ([] : GoMap (List xmlNode))) = [] := by
      intro ks
      induction ks with
      | nil => rfl
      | cons k rest ih => simp [GoMap.get?, ih]
    simp only [ParseXML, sampleEmpty, xmlNode.Nodes, List.foldl_nil, hnone, List.find?_nil]
    decide

end parser

/-! ## XML: which group of repeated children is taken -/

namespace parser

theorem any_repeated_eq (root : xmlNode) (k : String) :
    (GoMap.get? (childrenByName root) k).any (fun nodes => decide (nodes.length > 1)) =
      decide (occurrences root k > 1) := by
  cases hget : GoMap.get? (childrenByName root) k with
  | some l =>
      have hl := group_get?_some root.Nodes k l hget
      simp only [Option.any_some, occurrences, hl]
  | none =>
      have hg := group_getD root.Nodes [] k
      have hget1 : GoMap.get? (root.Nodes.foldl
          (fun acc child => GoMap.set acc child.XMLName.Local
            ((GoMap.get? acc child.XMLName.Local).getD [] ++ [child])) []) k = none := hget
      rw [hget1] at hg
      simp only [Option.getD_none, GoMap.get?, List.nil_append] at hg
      simp only [Option.any_none, occurrences, ← hg, List.length_nil]
      decide

/-- The loop of `ParseXML` over the map of children takes the first key, in the
visiting order, whose tag name is repeated. -/
theorem ParseXML_eq_find (unmarshal : List UInt8 → Except String xmlNode)
    (ord : List String → List String) (data : List UInt8) (root : xmlNode)
    (hdec : unmarshal data = .ok root) :
    ParseXML unmarshal ord data =
      match (ord (GoMap.keys (childrenByName root))).find?
          (fun k => decide (occurrences root k > 1)) with
      | some k => .ok (groupRecords root k)
      | none => .ok [flattenXMLNode root []] := by
  have hfun : (fun a => (GoMap.get? (childrenByName root) a).any
      (fun nodes => decide (nodes.length > 1))) =
      (fun k => decide (occurrences root k > 1)) := by
    funext a
    exact any_repeated_eq root a
  have hunfold : ParseXML unmarshal ord data =
      match ((ord (GoMap.keys (childrenByName root))).filterMap
          (GoMap.get? (childrenByName root))).find?
          (fun nodes => decide (nodes.length > 1)) with
      | some nodes => .ok (nodes.map (fun node => flattenXMLNode node []))
      | none => .ok [flattenXMLNode root []] := by
    simp only [ParseXML, hdec, childrenByName]
  rw [hunfold, List.find?_filterMap, hfun]
  cases hfind : (ord (GoMap.keys (childrenByName root))).find?
      (fun k => decide (occurrences root k > 1)) with
  | none => rfl
  | some k =>
      have hp := List.find?_some hfind
      simp only [decide_eq_true_eq, occurrences] at hp
      have hne : root.Nodes.filter (fun child => decide (child.XMLName.Local = k)) ≠ [] := by
        intro h0
        rw [h0] at hp
        simp at hp
      have hget : GoMap.get? (childrenByName root) k =
          some (root.Nodes.filter (fun child => decide (child.XMLName.Local = k))) :=
        group_get?_of_occurs root.Nodes k hne
      simp only [Option.some_bind, hget, groupRecords]

/-- C16, as amended: for every decoded XML tree in which more than one tag name
occurs more than once among the immediate children of the root (and every legal
visiting order of the map of children), `ParseXML` uses as the record list the
group of one of the repeated tag names, namely the first repeated one in the
visiting order of the map. -/
theorem ParseXML_some_repeated_group (unmarshal : List UInt8 → Except String xmlNode)
    (ord : List String → List String) (hord : RangeOrder ord) (data : List UInt8)
    (root : xmlNode) (hdec : unmarshal data = .ok root)
    (hrep : ∃ n1 n2 : String, n1 ≠ n2 ∧ occurrences root n1 > 1 ∧ occurrences root n2 > 1) :
    ∃ name : String, occurrences root name > 1 ∧
      (ord (GoMap.keys (childrenByName root))).find?
        (fun k => decide (occurrences root k > 1)) = some name ∧
      ParseXML unmarshal ord data = .ok (groupRecords root name) := by
  obtain ⟨n1, -, -, h1, -⟩ := hrep
  have hkey : n1 ∈ ord (GoMap.keys (childrenByName root)) := by
    rw [(hord _).mem_iff, childrenByName, group_mem_keys]
    have hne : root.Nodes.filter (fun child => decide (child.XMLName.Local = n1)) ≠ [] := by
      intro h0
      simp only [occurrences, h0, List.length_nil] at h1
      omega
    obtain ⟨c, hc⟩ := List.exists_mem_of_ne_nil _ hne
    rw [List.mem_filter] at hc
    exact Or.inr ⟨c, hc.1, by simpa using hc.2⟩
  have heq := ParseXML_eq_find unmarshal ord data root hdec
  cases hfind : (ord (GoMap.keys (childrenByName root))).find?
      (fun k => decide (occurrences root k > 1)) with
  | none =>
      have hnone := List.find?_eq_none.1 hfind n1 hkey
      simp only [decide_eq_true_eq] at hnone
      omega
  | some k =>
      have hp := List.find?_some hfind
      simp only [decide_eq_true_eq] at hp
      rw [hfind] at heq
      exact ⟨k, hp, rfl, heq⟩

/-- C16 as amended, at `<r><a>1</a><b>2</b><a>3</a><b>4</b></r>` with the map
visited in reverse storage order. -/
theorem ParseXML_some_repeated_group_witness :
    ∃ name : String, occurrences sampleTwoGroups name > 1 ∧
      (List.reverse (GoMap.keys (childrenByName sampleTwoGroups))).find?
        (fun k => decide (occurrences sampleTwoGroups k > 1)) = some name ∧
      ParseXML (fun _ => .ok sampleTwoGroups) List.reverse [] =
        .ok (groupRecords sampleTwoGroups name) :=
  ParseXML_some_repeated_group (fun _ => .ok sampleTwoGroups) List.reverse
    (fun ks => List.reverse_perm ks) [] sampleTwoGroups rfl
    ⟨"a", "b", by decide, by decide, by decide⟩

/-- C16 as stated fails at `<r><a>1</a><b>2</b><a>3</a><b>4</b></r>`: the repeated
tag that comes first in the document is `a`, but when the map of children is
visited in the order `b`, `a` the records are those of `b`; two legal visiting
orders give two different results for the same document. -/
theorem ParseXML_first_group_counterexample :
    firstRepeated sampleTwoGroups = some "a" ∧
    RangeOrder List.reverse ∧ RangeOrder id ∧
    ParseXML (fun _ => .ok sampleTwoGroups) List.reverse [] = .ok [[("b", "2")], [("b", "4")]] ∧
    ParseXML (fun _ => .ok sampleTwoGroups) id [] = .ok [[("a", "1")], [("a", "3")]] ∧
    ParseXML (fun _ => .ok sampleTwoGroups) List.reverse [] ≠
      .ok (groupRecords sampleTwoGroups "a") ∧
    ParseXML (fun _ => .ok sampleTwoGroups) List.reverse [] ≠
      ParseXML (fun _ => .ok sampleTwoGroups) id [] :=
  ⟨by decide, fun ks => List.reverse_perm ks, fun ks => List.Perm.refl ks, by decide, by decide,
    by decide, by decide⟩

end parser

/-! ## Value formatting: formatting twice -/

namespace gotime

theorem getnum_digits (c1 c2 : Char) (rest : List Char) (h1 : isDigitChar c1 = true)
    (h2 : isDigitChar c2 = true) :
    getnum (c1 :: c2 :: rest) true = some (val2 c1 c2, rest) := by
  simp [getnum, isDigit, h1, h2, val2]

theorem parseStd_year_digits (f : Fields) (c1 c2 c3 c4 : Char) (rest : List Char)
    (h1 : isDigitChar c1 = true) (h2 : isDigitChar c2 = true) (h3 : isDigitChar c3 = true)
    (h4 : isDigitChar c4 = true) :
    parseStd .stdLongYear f (c1 :: c2 :: c3 :: c4 :: rest) =
      some ({ f with year := val4 c1 c2 c3 c4 }, rest) := by
  simp [parseStd, isDigit, atoi, h1, h2, h3, h4, val4]

theorem parseStd_zeroMonth_digits (f : Fields) (c1 c2 : Char) (rest : List Char)
    (h1 : isDigitChar c1 = true) (h2 : isDigitChar c2 = true) (hlo : 1 ≤ val2 c1 c2)
    (hhi : val2 c1 c2 ≤ 12) :
    parseStd .stdZeroMonth f (c1 :: c2 :: rest) = some ({ f with month := val2 c1 c2 }, rest) := by
  have hrange : ¬ (val2 c1 c2 ≤ 0 ∨ 12 < val2 c1 c2) := by omega
  simp only [parseStd, getnum_digits c1 c2 rest h1 h2, if_neg hrange]

theorem parseStd_zeroDay_digits (f : Fields) (c1 c2 : Char) (rest : List Char)
    (h1 : isDigitChar c1 = true) (h2 : isDigitChar c2 = true) :
    parseStd .stdZeroDay f (c1 :: c2 :: rest) = some ({ f with day := val2 c1 c2 }, rest) := by
  simp only [parseStd, getnum_digits c1 c2 rest h1 h2]

theorem skip_hyphen (rest : List Char) : skip ('-' :: rest) ['-'] = some rest := by
  simp [skip, skipLoop]

/-- The plain-date layout accepts ten characters `YYYY-MM-DD` that name a day that
exists, and reads that day. -/
theorem Parse_layoutDate_digits (y1 y2 y3 y4 m1 m2 d1 d2 : Char)
    (hy : isDigitChar y1 = true ∧ isDigitChar y2 = true ∧ isDigitChar y3 = true ∧
      isDigitChar y4 = true)
    (hm : isDigitChar m1 = true ∧ isDigitChar m2 = true)
    (hd : isDigitChar d1 = true ∧ isDigitChar d2 = true)
    (hmlo : 1 ≤ val2 m1 m2) (hmhi : val2 m1 m2 ≤ 12) (hdlo : 1 ≤ val2 d1 d2)
    (hdhi : val2 d1 d2 ≤ daysIn (val2 m1 m2) (val4 y1 y2 y3 y4)) :
    Parse layoutDate (String.mk [y1, y2, y3, y4, '-', m1, m2, '-', d1, d2]) =
      some { year := val4 y1 y2 y3 y4, month := val2 m1 m2, day := val2 d1 d2, hour := 0,
             min := 0, sec := 0, nsec := 0, offset := 0 } := by
  have hloop : parseLoop layoutDate.chunks {} [y1, y2, y3, y4, '-', m1, m2, '-', d1, d2] =
      some ({ year := val4 y1 y2 y3 y4, month := val2 m1 m2, day := val2 d1 d2 }, []) := by
    simp only [layoutDate, parseLoop, skip_nil,
      parseStd_year_digits _ y1 y2 y3 y4 _ hy.1 hy.2.1 hy.2.2.1 hy.2.2.2, skip_hyphen,
      parseStd_zeroMonth_digits _ m1 m2 _ hm.1 hm.2 hmlo hmhi,
      parseStd_zeroDay_digits _ d1 d2 _ hd.1 hd.2]
  have hm0 : ¬ val2 m1 m2 < 0 := by omega
  have hd0 : ¬ val2 d1 d2 < 0 := by omega
  have hday : ¬ (val2 d1 d2 < 1 ∨ val2 d1 d2 > daysIn (val2 m1 m2) (val4 y1 y2 y3 y4)) := by
    omega
  simp only [Parse, hloop]
  have htail : layoutDate.tail = [] := rfl
  simp only [htail, skip_nil, List.length_nil, ne_eq, not_true_eq_false, if_false, hm0, hd0,
    hday, Bool.false_eq_true]

/-- The RFC 3339 layout rejects ten characters `YYYY-MM-DD`: the `T` is missing. -/
theorem Parse_RFC3339_date_none (y1 y2 y3 y4 m1 m2 d1 d2 : Char) :
    Parse RFC3339 (String.mk [y1, y2, y3, y4, '-', m1, m2, '-', d1, d2]) = none := by
  cases hparse : Parse RFC3339 (String.mk [y1, y2, y3, y4, '-', m1, m2, '-', d1, d2]) with
  | none => rfl
  | some t =>
      obtain ⟨f, rest, hloop, -⟩ := Parse_inv RFC3339 _ t hparse
      have hchunks : RFC3339.chunks = ymdChunks ++ [(['T'], .stdHour), ([':'], .stdZeroMinute),
          ([':'], .stdZeroSecond), ([], .stdISO8601ColonTZ)] := rfl
      rw [hchunks] at hloop
      obtain ⟨a1, a2, a3, a4, b1, b2, e1, e2, v1, f2, hv, -, -, -, -, -, -, -, -, hmore⟩ :=
        parseLoop_ymd_inv _ _ _ _ _ hloop
      have hv1 : v1 = [] := by
        have hlen := congrArg List.length hv
        simp only [List.length_cons, List.length_nil] at hlen
        exact List.length_eq_zero.1 (by omega)
      rw [hv1] at hmore
      simp [parseLoop, skip, skipLoop] at hmore

theorem appendInt_four_digits (n : Int) (h0 : 0 ≤ n) (h1 : n ≤ 9999) :
    ∃ c1 c2 c3 c4, appendInt n 4 = [c1, c2, c3, c4] ∧ isDigitChar c1 = true ∧
      isDigitChar c2 = true ∧ isDigitChar c3 = true ∧ isDigitChar c4 = true ∧
      val4 c1 c2 c3 c4 = n := by
  have hx : ¬ n < 0 := by omega
  have hu : n.natAbs < 10000 := by omega
  have hq1 : n.natAbs / 100 / 10 < 10 := by omega
  have hq2 : n.natAbs / 100 % 10 < 10 := by omega
  have hq3 : n.natAbs % 100 / 10 < 10 := by omega
  have hq4 : n.natAbs % 100 % 10 < 10 := by omega
  obtain ⟨a1, a2⟩ := digitChar_facts _ hq1
  obtain ⟨b1, b2⟩ := digitChar_facts _ hq2
  obtain ⟨c1, c2⟩ := digitChar_facts _ hq3
  obtain ⟨d1, d2⟩ := digitChar_facts _ hq4
  have h24 : ¬ (4 : Nat) = 2 := by decide
  refine ⟨_, _, _, _, ?_, a1, b1, c1, d1, ?_⟩
  · simp only [appendInt, hx, hu, h24, if_false, false_and, and_self, if_true, List.nil_append]
  · rw [val4, a2, b2, c2, d2]
    omega

/-- The text `Format` prints under "2006-01-02" for a day that exists, in a year
of four digits, is read back by the plain-date layout and printed again as the
same text; the RFC 3339 layout rejects it. -/
theorem Format_layoutDate_reparse (t : Time) (hy0 : 0 ≤ t.year) (hy1 : t.year ≤ 9999)
    (hm0 : 1 ≤ t.month) (hm1 : t.month ≤ 12) (hd0 : 1 ≤ t.day)
    (hd1 : t.day ≤ daysIn t.month t.year) :
    Parse RFC3339 (t.Format layoutDate) = none ∧
    ∃ t1, Parse layoutDate (t.Format layoutDate) = some t1 ∧
      t1.Format layoutDate = t.Format layoutDate := by
  obtain ⟨y1, y2, y3, y4, hyy, hy1d, hy2d, hy3d, hy4d, hyv⟩ :=
    appendInt_four_digits t.year hy0 hy1
  obtain ⟨m1, m2, hmm, hm1d, hm2d, hmv⟩ := appendInt_two_digits t.month (by omega) (by omega)
  have hdmax : daysIn t.month t.year ≤ 31 := by
    unfold daysIn
    split
    · decide
    · split
      · decide
      · split
        · decide
        · decide
  obtain ⟨d1, d2, hdd, hd1d, hd2d, hdv⟩ := appendInt_two_digits t.day (by omega) (by omega)
  have hdata : (t.Format layoutDate).data = [y1, y2, y3, y4, '-', m1, m2, '-', d1, d2] := by
    rw [Format_layoutDate, hyy, hmm, hdd]
    rfl
  have hstr : t.Format layoutDate = String.mk [y1, y2, y3, y4, '-', m1, m2, '-', d1, d2] := by
    rw [← hdata]
  have hparse := Parse_layoutDate_digits y1 y2 y3 y4 m1 m2 d1 d2 ⟨hy1d, hy2d, hy3d, hy4d⟩
    ⟨hm1d, hm2d⟩ ⟨hd1d, hd2d⟩ (by omega) (by omega) (by omega) (by rw [hmv, hyv, hdv]; exact hd1)
  refine ⟨?_, ?_⟩
  · rw [hstr]
    exact Parse_RFC3339_date_none y1 y2 y3 y4 m1 m2 d1 d2
  · refine ⟨_, by rw [hstr]; exact hparse, ?_⟩
    apply String.ext
    rw [hdata, Format_layoutDate]
    simp only [appendInt_val4 y1 y2 y3 y4 hy1d hy2d hy3d hy4d, appendInt_val2 m1 m2 hm1d hm2d,
      appendInt_val2 d1 d2 hd1d hd2d]
    rfl

end gotime

namespace parser

open gotime

theorem formatValue_of_ok (x : String) (t : Time) (h : tryParseDate x = .ok t) :
    formatValue (.string x) = t.Format layoutDate := by
  show (match tryParseDate x with
    | .ok t => t.Format layoutDate
    | .error _ => x) = _
  rw [h]

theorem formatValue_of_error (x e : String) (h : tryParseDate x = .error e) :
    formatValue (.string x) = x := by
  show (match tryParseDate x with
    | .ok t => t.Format layoutDate
    | .error _ => x) = _
  rw [h]

theorem tryParseDate_bounds (s : String) (t : Time) (h : tryParseDate s = .ok t) :
    0 ≤ t.year ∧ t.year ≤ 9999 ∧ 1 ≤ t.month ∧ t.month ≤ 12 ∧ 1 ≤ t.day ∧
      t.day ≤ daysIn t.month t.year := by
  have hk1 : ∀ c ∈ [((['T'] : List Char), Std.stdHour), ([':'], .stdZeroMinute),
      ([':'], .stdZeroSecond), ([], .stdISO8601ColonTZ)], keepsDate c.2 = true := by decide
  have hk2 : ∀ c ∈ ([] : List (List Char × Std)), keepsDate c.2 = true := by decide
  have hk3 : ∀ c ∈ [(([' '] : List Char), Std.stdHour), ([':'], .stdZeroMinute),
      ([':'], .stdZeroSecond)], keepsDate c.2 = true := by decide
  rcases tryParseDate_ok_cases s t h with h1 | ⟨-, h2⟩ | ⟨-, -, h3⟩ | ⟨-, -, -, h4⟩
  · exact (Format_of_ymd _ _ RFC3339_chunks hk1 s t h1).2.2
  · exact (Format_of_ymd _ _ layoutDate_chunks hk2 s t h2).2.2
  · exact (Format_of_ymd _ _ layoutDateTime_chunks hk3 s t h3).2.2
  · exact (Format_of_dayMonYear s t h4).2.2

/-- C18: `formatValue` is idempotent on strings: for every string `s`,
`formatValue(formatValue(s)) = formatValue(s)`; a string that is not a date is
returned as it is, and every `YYYY-MM-DD` output is rejected by the RFC 3339
layout, accepted by the plain-date layout and printed again as the same text. -/
theorem formatValue_idempotent (s : String) :
    formatValue (.string (formatValue (.string s))) = formatValue (.string s) ∧
    (∀ t, tryParseDate s = .ok t →
      Parse RFC3339 (formatValue (.string s)) = none ∧
      ∃ t1, Parse layoutDate (formatValue (.string s)) = some t1 ∧
        t1.Format layoutDate = formatValue (.string s)) ∧
    formatValue (.string (formatValue (.string "02-Jan-2020"))) = "2020-01-02" := by
  have hdate : ∀ t, tryParseDate s = .ok t →
      Parse RFC3339 (formatValue (.string s)) = none ∧
      ∃ t1, Parse layoutDate (formatValue (.string s)) = some t1 ∧
        t1.Format layoutDate = formatValue (.string s) := by
    intro t ht
    obtain ⟨b1, b2, b3, b4, b5, b6⟩ := tryParseDate_bounds s t ht
    rw [formatValue_of_ok s t ht]
    exact Format_layoutDate_reparse t b1 b2 b3 b4 b5 b6
  refine ⟨?_, hdate, by decide⟩
  cases ht : tryParseDate s with
  | error e =>
      have hfv : formatValue (.string s) = s := formatValue_of_error s e ht
      rw [hfv, hfv]
  | ok t =>
      obtain ⟨hnone, t1, hsome, hfmt⟩ := hdate t ht
      have htry : tryParseDate (formatValue (.string s)) = .ok t1 := by
        rw [tryParseDate_eq, hnone, hsome]
      rw [formatValue_of_ok _ t1 htry, hfmt]

end parser

/-! ## escapeXML -/

namespace loader

theorem mapChars_nil (f : Char → List Char) : mapChars f [] = [] := rfl

theorem mapChars_cons (f : Char → List Char) (c : Char) (l : List Char) :
    mapChars f (c :: l) = f c ++ mapChars f l := by
  simp [mapChars]

theorem mapChars_append (f : Char → List Char) (a b : List Char) :
    mapChars f (a ++ b) = mapChars f a ++ mapChars f b := by
  simp [mapChars]

theorem mapChars_mapChars (f g : Char → List Char) (l : List Char) :
    mapChars g (mapChars f l) = mapChars (fun c => mapChars g (f c)) l := by
  induction l with
  | nil => rfl
  | cons c rest ih => rw [mapChars_cons, mapChars_append, ih, mapChars_cons]

theorem replaceLoop_single (c : Char) (new l : List Char) :
    replaceLoop [c] new 0 l = mapChars (fun x => if x = c then new else [x]) l := by
  induction l with
  | nil => rfl
  | cons x rest ih =>
      rw [mapChars_cons]
      by_cases hx : x = c
      · simp [replaceLoop, startsWith, hx, ih]
      · simp [replaceLoop, startsWith, hx, ih]

theorem ReplaceAll_single (s : String) (c : Char) (new : String) :
    (ReplaceAll s (String.singleton c) new).data =
      mapChars (fun x => if x = c then new.data else [x]) s.data := by
  have hold : (String.singleton c).data = [c] := rfl
  simp only [ReplaceAll, hold, List.cons_ne_nil, if_false, replaceLoop_single]

/-- The five replacements of `escapeXML`, applied one after the other to the
text that stands for one character, give the escaped form of the character. -/
theorem escape_pointwise (c : Char) :
    mapChars (fun x => if x = quotationMark then "&quot;".data else [x])
      (mapChars (fun x => if x = apostrophe then "&apos;".data else [x])
        (mapChars (fun x => if x = '>' then "&gt;".data else [x])
          (mapChars (fun x => if x = '<' then "&lt;".data else [x])
            (if c = '&' then "&amp;".data else [c])))) = escapeChar c := by
  by_cases h1 : c = '&'
  · subst h1
    decide
  · by_cases h2 : c = '<'
    · subst h2
      decide
    · by_cases h3 : c = '>'
      · subst h3
        decide
      · by_cases h4 : c = apostrophe
        · subst h4
          decide
        · by_cases h5 : c = quotationMark
          · subst h5
            decide
          · simp [mapChars, escapeChar, h1, h2, h3, h4, h5]

theorem escape_chain (l : List Char) :
    mapChars (fun x => if x = quotationMark then "&quot;".data else [x])
      (mapChars (fun x => if x = apostrophe then "&apos;".data else [x])
        (mapChars (fun x => if x = '>' then "&gt;".data else [x])
          (mapChars (fun x => if x = '<' then "&lt;".data else [x])
            (mapChars (fun x => if x = '&' then "&amp;".data else [x]) l)))) =
      mapChars escapeChar l := by
  induction l with
  | nil => rfl
  | cons c rest ih =>
      simp only [mapChars_cons, mapChars_append]
      rw [ih, escape_pointwise]

/-- The output of `escapeXML`: every character replaced by its escaped form. -/
theorem escapeXML_data (s : String) : (escapeXML s).data = mapChars escapeChar s.data := by
  have h1 : ("&" : String) = String.singleton '&' := rfl
  have h2 : ("<" : String) = String.singleton '<' := rfl
  have h3 : (">" : String) = String.singleton '>' := rfl
  simp only [escapeXML, h1, h2, h3, ReplaceAll_single]
  exact escape_chain s.data

theorem not_mem_escapeChar (c x : Char)
    (hx : x = '<' ∨ x = '>' ∨ x = apostrophe ∨ x = quotationMark) : x ∉ escapeChar c := by
  unfold escapeChar
  split
  · rcases hx with h | h | h | h <;> subst h <;> decide
  · split
    · rcases hx with h | h | h | h <;> subst h <;> decide
    · split
      · rcases hx with h | h | h | h <;> subst h <;> decide
      · split
        · rcases hx with h | h | h | h <;> subst h <;> decide
        · split
          · rcases hx with h | h | h | h <;> subst h <;> decide
          · rename_i n1 n2 n3 n4 n5
            intro hmem
            rw [List.mem_singleton] at hmem
            subst hmem
            rcases hx with h | h | h | h
            · exact n2 h
            · exact n3 h
            · exact n4 h
            · exact n5 h

theorem not_mem_mapChars_escapeChar (l : List Char) (x : Char)
    (hx : x = '<' ∨ x = '>' ∨ x = apostrophe ∨ x = quotationMark) :
    x ∉ mapChars escapeChar l := by
  induction l with
  | nil => simp [mapChars]
  | cons c rest ih =>
      rw [mapChars_cons, List.mem_append]
      rintro (h | h)
      · exact not_mem_escapeChar c x hx h
      · exact ih h

theorem ampersands_escapeChar_append (c : Char) (out : List Char)
    (h : ampersandsStartEntities out = true) :
    ampersandsStartEntities (escapeChar c ++ out) = true := by
  by_cases h1 : c = '&'
  · subst h1
    simp [escapeChar, ampersandsStartEntities, entities, startsWith, h]
  · by_cases h2 : c = '<'
    · subst h2
      simp [escapeChar, ampersandsStartEntities, entities, startsWith, h]
    · by_cases h3 : c = '>'
      · subst h3
        simp [escapeChar, ampersandsStartEntities, entities, startsWith, h]
      · by_cases h4 : c = apostrophe
        · subst h4
          simp [escapeChar, apostrophe, ampersandsStartEntities, entities, startsWith, h]
        · by_cases h5 : c = quotationMark
          · subst h5
            simp [escapeChar, apostrophe, quotationMark, ampersandsStartEntities, entities,
              startsWith, h]
          · simp [escapeChar, ampersandsStartEntities, h1, h2, h3, h4, h5, h]

theorem ampersands_mapChars_escapeChar (l : List Char) :
    ampersandsStartEntities (mapChars escapeChar l) = true := by
  induction l with
  | nil => rfl
  | cons c rest ih =>
      rw [mapChars_cons]
      exact ampersands_escapeChar_append c _ ih

theorem ampersands_at (l : List Char) (h : ampersandsStartEntities l = true) (i : Nat)
    (hi : l[i]? = some '&') : ∃ e ∈ entities, startsWith (l.drop i) e = true := by
  induction l generalizing i with
  | nil => simp at hi
  | cons c rest ih =>
      simp only [ampersandsStartEntities, Bool.and_eq_true, Bool.or_eq_true] at h
      cases i with
      | zero =>
          simp only [List.getElem?_cons_zero, Option.some.injEq] at hi
          subst hi
          rcases h.1 with h0 | h0
          · simp at h0
          · obtain ⟨e, he, hs⟩ := List.any_eq_true.1 h0
            exact ⟨e, he, by simpa using hs⟩
      | succ j =>
          simp only [List.getElem?_cons_succ] at hi
          simpa using ih h.2 j hi

theorem unescapeXML_escapeChar_append (c : Char) (out : List Char) :
    unescapeXML (escapeChar c ++ out) = c :: unescapeXML out := by
  by_cases h1 : c = '&'
  · subst h1
    simp [escapeChar, unescapeXML, unescapeLoop, startsWith]
  · by_cases h2 : c = '<'
    · subst h2
      simp [escapeChar, unescapeXML, unescapeLoop, startsWith]
    · by_cases h3 : c = '>'
      · subst h3
        simp [escapeChar, unescapeXML, unescapeLoop, startsWith]
      · by_cases h4 : c = apostrophe
        · subst h4
          simp [escapeChar, apostrophe, unescapeXML, unescapeLoop, startsWith]
        · by_cases h5 : c = quotationMark
          · subst h5
            simp [escapeChar, apostrophe, quotationMark, unescapeXML, unescapeLoop, startsWith]
          · simp [escapeChar, unescapeXML, unescapeLoop, startsWith, h1, h2, h3, h4, h5]

theorem unescapeXML_mapChars_escapeChar (l : List Char) :
    unescapeXML (mapChars escapeChar l) = l := by
  induction l with
  | nil => rfl
  | cons c rest ih => rw [mapChars_cons, unescapeXML_escapeChar_append, ih]

end loader

namespace loader

/-- C13: for every string `s`, `escapeXML(s)` has none of the characters `<`, `>`,
apostrophe and quotation mark, and every `&` in it is the first character of one
of the five entities.  The ampersands that the escaping of `<`, `>`, apostrophe
and quotation mark brings in are not escaped again: the output is the input with
every character replaced by its escaped form, which is `&lt;`, `&gt;`, `&apos;`
and `&quot;` for these four, `&amp;` for the ampersand and the character itself
otherwise. -/
theorem escapeXML_safe (s : String) :
    ('<' ∉ (escapeXML s).data ∧ '>' ∉ (escapeXML s).data ∧
      apostrophe ∉ (escapeXML s).data ∧ quotationMark ∉ (escapeXML s).data) ∧
    (∀ i : Nat, (escapeXML s).data[i]? = some '&' →
      ∃ e ∈ entities, startsWith ((escapeXML s).data.drop i) e = true) ∧
    escapeXML "<" = "&lt;" ∧
    escapeXML "a<b & 'c'" = "a&lt;b &amp; &apos;c&apos;" ∧
    (escapeXML s).data = mapChars escapeChar s.data ∧
    (escapeChar '<' = "&lt;".data ∧ escapeChar '>' = "&gt;".data ∧
      escapeChar apostrophe = "&apos;".data ∧ escapeChar quotationMark = "&quot;".data ∧
      escapeChar '&' = "&amp;".data ∧
      ∀ c : Char, c ≠ '&' → c ≠ '<' → c ≠ '>' → c ≠ apostrophe → c ≠ quotationMark →
        escapeChar c = [c]) ∧
    (escapeXML ">" = "&gt;" ∧ escapeXML (String.singleton apostrophe) = "&apos;" ∧
      escapeXML (String.singleton quotationMark) = "&quot;" ∧ escapeXML "&" = "&amp;" ∧
      escapeXML "<>" = "&lt;&gt;") := by
  refine ⟨?_, ?_, by decide, by decide, escapeXML_data s, ?_, by decide⟩
  · rw [escapeXML_data]
    refine ⟨?_, ?_, ?_, ?_⟩
    · exact not_mem_mapChars_escapeChar _ _ (Or.inl rfl)
    · exact not_mem_mapChars_escapeChar _ _ (Or.inr (Or.inl rfl))
    · exact not_mem_mapChars_escapeChar _ _ (Or.inr (Or.inr (Or.inl rfl)))
    · exact not_mem_mapChars_escapeChar _ _ (Or.inr (Or.inr (Or.inr rfl)))
  · rw [escapeXML_data]
    intro i hi
    exact ampersands_at _ (ampersands_mapChars_escapeChar s.data) i hi
  · refine ⟨by decide, by decide, by decide, by decide, by decide, ?_⟩
    intro c h1 h2 h3 h4 h5
    simp [escapeChar, h1, h2, h3, h4, h5]

/-- C19: `escapeXML` is lossless: decoding the five entities in `escapeXML(s)`
gives `s` back for every string `s`, also for one that holds entity-like text
such as `&lt;`; hence `escapeXML` is injective. -/
theorem escapeXML_lossless (s : String) :
    String.mk (unescapeXML (escapeXML s).data) = s ∧
    (∀ s2 : String, escapeXML s = escapeXML s2 → s = s2) ∧
    escapeXML "&lt;" = "&amp;lt;" ∧
    String.mk (unescapeXML (escapeXML "&lt;").data) = "&lt;" := by
  have hback : ∀ x : String, unescapeXML (escapeXML x).data = x.data := by
    intro x
    rw [escapeXML_data, unescapeXML_mapChars_escapeChar]
  refine ⟨by rw [hback], ?_, by decide, by decide⟩
  intro s2 heq
  apply String.ext
  rw [← hback s, ← hback s2, heq]

end loader

/-! ## SaveJSON and SaveFlatXML -/

namespace loader

open parser

theorem goAppend_none {α : Type} (x : α) : goAppend (none : Slice α) x = some [x] := rfl

theorem goAppend_some {α : Type} (xs : List α) (x : α) :
    goAppend (some xs) x = some (xs ++ [x]) := rfl

theorem foldl_goAppend_some {α β : Type} (f : β → α) (rows : List β) (acc : List α) :
    rows.foldl (fun objs row => goAppend objs (f row)) (some acc) =
      some (acc ++ rows.map f) := by
  induction rows generalizing acc with
  | nil => simp
  | cons r rest ih =>
      rw [List.foldl_cons, goAppend_some, ih]
      simp

/-- With at least one data row the slice of row maps is not nil: it holds the
map of each row, in row order. -/
theorem rowMaps_cons (headers : List String) (row : List String) (rows : List (List String)) :
    rowMaps headers (row :: rows) =
      some ((row :: rows).map (fun r => rowLoop r 0 headers [])) := by
  rw [rowMaps, List.foldl_cons, goAppend_none,
    foldl_goAppend_some (fun r => rowLoop r 0 headers [])]
  simp

theorem rowMaps_nil (headers : List String) : rowMaps headers [] = none := rfl

theorem mem_keys_rowLoop (row : List String) (hs : List String) (i0 : Nat)
    (obj : GoMap String) (hlen : i0 + hs.length ≤ row.length) (k : String) :
    k ∈ GoMap.keys (rowLoop row i0 hs obj) ↔ k ∈ GoMap.keys obj ∨ k ∈ hs := by
  induction hs generalizing i0 obj with
  | nil => simp [rowLoop]
  | cons h rest ih =>
      have hi : i0 < row.length := by
        simp only [List.length_cons] at hlen
        omega
      simp only [rowLoop, if_pos hi]
      rw [ih (i0 + 1) _ (by simp only [List.length_cons] at hlen; omega), GoMap.mem_keys_set]
      simp only [List.mem_cons]
      tauto

theorem get?_rowLoop_not_mem (row : List String) (hs : List String) (i0 : Nat)
    (obj : GoMap String) (k : String) (hk : k ∉ hs) :
    GoMap.get? (rowLoop row i0 hs obj) k = GoMap.get? obj k := by
  induction hs generalizing i0 obj with
  | nil => simp [rowLoop]
  | cons h rest ih =>
      have hne : ¬ k = h := fun e => hk (e ▸ List.mem_cons_self _ _)
      have hrest : k ∉ rest := fun e => hk (List.mem_cons_of_mem _ e)
      simp only [rowLoop]
      rw [ih (i0 + 1) _ hrest]
      split
      · rw [GoMap.get?_set, if_neg hne]
      · rfl

theorem get?_rowLoop (row : List String) (hs : List String) (i0 : Nat) (obj : GoMap String)
    (hlen : i0 + hs.length ≤ row.length) (hnd : hs.Nodup) (j : Nat) (k : String)
    (hj : hs[j]? = some k) :
    GoMap.get? (rowLoop row i0 hs obj) k = row[i0 + j]? := by
  induction hs generalizing i0 obj j with
  | nil => simp at hj
  | cons h rest ih =>
      have hi : i0 < row.length := by
        simp only [List.length_cons] at hlen
        omega
      rw [List.nodup_cons] at hnd
      simp only [rowLoop, if_pos hi]
      cases j with
      | zero =>
          simp only [List.getElem?_cons_zero, Option.some.injEq] at hj
          subst hj
          rw [get?_rowLoop_not_mem _ _ _ _ _ hnd.1, GoMap.get?_set, if_pos rfl]
          simp [List.getD_eq_getElem?_getD, List.getElem?_eq_getElem hi]
      | succ j1 =>
          simp only [List.getElem?_cons_succ] at hj
          rw [ih (i0 + 1) _ (by simp only [List.length_cons] at hlen; omega) hnd.2 j1 hj]
          congr 1
          omega

/-- C14: for a table that has only its header row `SaveJSON` writes the JSON
value `null`, not the empty array (the slice of objects is still nil when it is
encoded).  With at least one data row it writes an array
with one object per data row, in row order, and for unique headers and a row
aligned to the header the keys of the object are the header names and the value
under `headers[i]` is the `i`-th cell. -/
theorem SaveJSON_header_only :
    SaveJSON [["name", "age"]] = .ok .null ∧
    (∀ headers : List String, SaveJSON [headers] = .ok .null) ∧
    (∀ (headers row : List String) (rows : List (List String)),
      SaveJSON (headers :: row :: rows) =
        .ok (.array ((row :: rows).map (fun r => rowLoop r 0 headers [])))) ∧
    (∀ headers row : List String, headers.Nodup → row.length = headers.length →
      (∀ k : String, k ∈ GoMap.keys (rowLoop row 0 headers []) ↔ k ∈ headers) ∧
      ∀ (i : Nat) (h : String), headers[i]? = some h →
        GoMap.get? (rowLoop row 0 headers []) h = row[i]?) := by
  refine ⟨by decide, ?_, ?_, ?_⟩
  · intro headers
    simp [SaveJSON, rowMaps_nil, jsonMarshalIndent]
  · intro headers row rows
    simp only [SaveJSON, List.length_cons, List.drop_succ_cons, List.drop_zero, List.headD_cons,
      rowMaps_cons, jsonMarshalIndent]
    simp
  · intro headers row hnd hlen
    constructor
    · intro k
      rw [mem_keys_rowLoop row headers 0 [] (by omega) k]
      simp [GoMap.keys]
    · intro i h hi
      have := get?_rowLoop row headers 0 [] (by omega) hnd i h hi
      simpa using this

/-- C15: for every table with at least one data row `SaveFlatXML` does not
succeed: it fails with the `UnsupportedTypeError` of the XML encoder (a row is
a map, which the encoder cannot write) and writes nothing; only a table without
data rows is written, as the declaration and an empty `Rows` element. -/
theorem SaveFlatXML_fails_with_rows :
    SaveFlatXML [["name", "age"], ["ann", "7"]] =
      .error (.error "xml: unsupported type: loader.Row") ∧
    (∀ (headers row : List String) (rows : List (List String)),
      SaveFlatXML (headers :: row :: rows) =
        .error (.error "xml: unsupported type: loader.Row")) ∧
    (∀ headers : List String, SaveFlatXML [headers] = .ok (xmlHeader ++ "<Rows></Rows>")) := by
  refine ⟨by decide, ?_, ?_⟩
  · intro headers row rows
    simp only [SaveFlatXML, List.length_cons, List.drop_succ_cons, List.drop_zero,
      List.headD_cons, rowMaps_cons, List.map_cons, xmlMarshalIndent]
    simp
  · intro headers
    simp [SaveFlatXML, rowMaps_nil, xmlMarshalIndent]

end loader
